import Mathlib

/-!
Verification of the smart-splitter allocation engine (Go, shopspring/decimal)
against its natural-language specification.

Shallow embedding conventions:
* Exact decimal values are embedded as rationals (`ℚ`).  The shopspring
  library stores exact decimals; its `Div` rounds at 16 decimal places, which
  we model as exact rational division (all concrete inputs used in witnesses
  and counterexamples are chosen so the two agree).
* `Decimal.Truncate(p)` truncates toward zero at `p` decimal places and
  `Decimal.Ceil` rounds toward positive infinity; both are modelled exactly.
* Monetary fields arrive as decimal strings; the api package validates and
  parses them, so the embedding takes the parsed rational values directly
  (`decimal.NewFromString` of an empty or invalid string yields zero, which
  matches taking the field's value as an arbitrary rational in hypotheses
  or `0` where the validator guarantees absence).
-/

/-- The minimal representable unit at `p` decimal places, `10 ^ (-p)`
(`decimal.New(1, -prec)` in the source). -/
def unitQ (p : ℕ) : ℚ := 1 / 10 ^ p

/-- Truncation toward zero at `p` decimal places
(`decimal.Decimal.Truncate` of shopspring, used throughout the source). -/
def truncQ (p : ℕ) (x : ℚ) : ℚ :=
  if 0 ≤ x then (⌊x * 10 ^ p⌋ : ℚ) / 10 ^ p else (⌈x * 10 ^ p⌉ : ℚ) / 10 ^ p

/-- Rounding up (toward positive infinity) at `prec` decimal places;
embeds `ceilToPrec` of src/splitter/investment.go. -/
def ceilToPrec (d : ℚ) (prec : ℕ) : ℚ :=
  (⌈d * 10 ^ prec⌉ : ℚ) / 10 ^ prec

/-- `x` is an exact multiple of the minimal unit at `p` decimal places,
i.e. representable at `amountPrec` granularity. -/
def MulOfUnit (p : ℕ) (x : ℚ) : Prop := (x * 10 ^ p).den = 1

instance (p : ℕ) (x : ℚ) : Decidable (MulOfUnit p x) := by
  unfold MulOfUnit; infer_instance

lemma mulOfUnit_iff {p : ℕ} {x : ℚ} :
    MulOfUnit p x ↔ ∃ k : ℤ, x = (k : ℚ) / 10 ^ p := by
  unfold MulOfUnit
  constructor
  · intro h
    refine ⟨(x * 10 ^ p).num, ?_⟩
    have hx : ((x * 10 ^ p).num : ℚ) = x * 10 ^ p := by
      conv_rhs => rw [← Rat.num_div_den (x * 10 ^ p)]
      rw [h]; simp
    rw [hx]
    field_simp
  · rintro ⟨k, rfl⟩
    have hp : (10 : ℚ) ^ p ≠ 0 := by positivity
    have : (k : ℚ) / 10 ^ p * 10 ^ p = (k : ℚ) := by field_simp
    rw [this]
    exact Rat.den_intCast k

lemma mulOfUnit_zero (p : ℕ) : MulOfUnit p 0 := by
  rw [mulOfUnit_iff]; exact ⟨0, by simp⟩

lemma MulOfUnit.add {p : ℕ} {x y : ℚ} (hx : MulOfUnit p x) (hy : MulOfUnit p y) :
    MulOfUnit p (x + y) := by
  rw [mulOfUnit_iff] at hx hy ⊢
  obtain ⟨a, rfl⟩ := hx; obtain ⟨b, rfl⟩ := hy
  exact ⟨a + b, by push_cast; ring⟩

lemma MulOfUnit.sub {p : ℕ} {x y : ℚ} (hx : MulOfUnit p x) (hy : MulOfUnit p y) :
    MulOfUnit p (x - y) := by
  rw [mulOfUnit_iff] at hx hy ⊢
  obtain ⟨a, rfl⟩ := hx; obtain ⟨b, rfl⟩ := hy
  exact ⟨a - b, by push_cast; ring⟩

lemma MulOfUnit.neg {p : ℕ} {x : ℚ} (hx : MulOfUnit p x) : MulOfUnit p (-x) := by
  have := (mulOfUnit_zero p).sub hx
  simpa using this

lemma mulOfUnit_unitQ (p : ℕ) : MulOfUnit p (unitQ p) := by
  rw [mulOfUnit_iff]; exact ⟨1, by simp [unitQ]⟩

lemma mulOfUnit_list_sum {p : ℕ} {l : List ℚ} (h : ∀ x ∈ l, MulOfUnit p x) :
    MulOfUnit p l.sum := by
  induction l with
  | nil => simpa using mulOfUnit_zero p
  | cons a t ih =>
      simp only [List.sum_cons]
      exact (h a (by simp)).add (ih fun x hx => h x (List.mem_cons_of_mem _ hx))

/-- Two amounts at `amountPrec` granularity that differ, differ by at least
one minimal unit. -/
lemma add_unit_le_of_lt {p : ℕ} {x y : ℚ} (hx : MulOfUnit p x) (hy : MulOfUnit p y)
    (hxy : x < y) : x + unitQ p ≤ y := by
  rw [mulOfUnit_iff] at hx hy
  obtain ⟨a, rfl⟩ := hx; obtain ⟨b, rfl⟩ := hy
  have hp : (0 : ℚ) < 10 ^ p := by positivity
  have hab : a < b := by
    have := (div_lt_div_iff_of_pos_right hp).mp hxy
    exact_mod_cast this
  have hab' : a + 1 ≤ b := hab
  have : ((a : ℚ) + 1) / 10 ^ p ≤ (b : ℚ) / 10 ^ p := by
    gcongr
    exact_mod_cast hab'
  calc (a : ℚ) / 10 ^ p + unitQ p = ((a : ℚ) + 1) / 10 ^ p := by
        rw [unitQ]; field_simp
    _ ≤ (b : ℚ) / 10 ^ p := this

lemma unitQ_pos (p : ℕ) : 0 < unitQ p := by
  rw [unitQ]; positivity

lemma truncQ_le {p : ℕ} {x : ℚ} (hx : 0 ≤ x) : truncQ p x ≤ x := by
  rw [truncQ, if_pos hx]
  have hp : (0 : ℚ) < 10 ^ p := by positivity
  rw [div_le_iff₀ hp]
  exact Int.floor_le _

lemma lt_truncQ_add_unit {p : ℕ} {x : ℚ} (hx : 0 ≤ x) : x - unitQ p < truncQ p x := by
  rw [truncQ, if_pos hx, unitQ]
  have hp : (0 : ℚ) < 10 ^ p := by positivity
  rw [sub_lt_iff_lt_add, div_add_div_same, lt_div_iff₀ hp]
  have := Int.lt_floor_add_one (x * 10 ^ p)
  calc x * 10 ^ p < (⌊x * 10 ^ p⌋ : ℚ) + 1 := this
    _ = (⌊x * 10 ^ p⌋ : ℚ) + 1 := rfl

lemma truncQ_nonneg {p : ℕ} {x : ℚ} (hx : 0 ≤ x) : 0 ≤ truncQ p x := by
  rw [truncQ, if_pos hx]
  have hp : (0 : ℚ) < 10 ^ p := by positivity
  apply div_nonneg _ hp.le
  exact_mod_cast Int.floor_nonneg.mpr (by positivity)

lemma mulOfUnit_truncQ (p : ℕ) (x : ℚ) : MulOfUnit p (truncQ p x) := by
  rw [mulOfUnit_iff, truncQ]
  split
  · exact ⟨⌊x * 10 ^ p⌋, rfl⟩
  · exact ⟨⌈x * 10 ^ p⌉, rfl⟩

lemma truncQ_eq_self {p : ℕ} {x : ℚ} (hx : MulOfUnit p x) : truncQ p x = x := by
  rw [mulOfUnit_iff] at hx
  obtain ⟨k, rfl⟩ := hx
  have hp : (10 : ℚ) ^ p ≠ 0 := by positivity
  have hk : (k : ℚ) / 10 ^ p * 10 ^ p = (k : ℚ) := by field_simp
  rw [truncQ]
  split <;> rw [hk] <;> simp

lemma le_ceilToPrec (d : ℚ) (p : ℕ) : d ≤ ceilToPrec d p := by
  rw [ceilToPrec]
  have hp : (0 : ℚ) < 10 ^ p := by positivity
  rw [le_div_iff₀ hp]
  exact Int.le_ceil _

lemma ceilToPrec_nonneg {d : ℚ} (p : ℕ) (hd : 0 ≤ d) : 0 ≤ ceilToPrec d p :=
  le_trans hd (le_ceilToPrec d p)

lemma mulOfUnit_ceilToPrec (d : ℚ) (p : ℕ) : MulOfUnit p (ceilToPrec d p) := by
  rw [mulOfUnit_iff, ceilToPrec]
  exact ⟨⌈d * 10 ^ p⌉, rfl⟩

/-!
## Data model (src/models/types.go)

Monetary string fields are embedded as the rationals they parse to; the api
package (validateRequest and friends) guarantees they are well-formed, and
`decimal.NewFromString` of an absent optional field yields zero.
-/

structure ModelItem where
  ticker : String
  weight : ℚ
  marketPrice : ℚ
  minInitialInvestmentAmt : ℚ
  minInitialInvestmentUnits : ℚ
  minTopupAmt : ℚ
  minTopupUnits : ℚ
  minRedemptionAmt : ℚ
  minRedemptionUnits : ℚ
  minHoldingAmt : ℚ
  minHoldingUnits : ℚ
  transactionFee : ℚ
deriving DecidableEq, Repr, Inhabited

structure Holding where
  ticker : String
  units : ℚ
  marketPrice : ℚ
  value : ℚ
  minInitialInvestmentAmt : ℚ
  minInitialInvestmentUnits : ℚ
  minTopupAmt : ℚ
  minTopupUnits : ℚ
  minRedemptionAmt : ℚ
  minRedemptionUnits : ℚ
  minHoldingAmt : ℚ
  minHoldingUnits : ℚ
  transactionFee : ℚ
deriving DecidableEq, Repr, Inhabited

structure Goal where
  goalId : String
  goalDetails : List Holding
  orderAmount : ℚ
  orderType : String
  modelPortfolioDetails : List ModelItem
deriving DecidableEq, Repr, Inhabited

structure TradeError where
  message : String
  code : String
deriving DecidableEq, Repr, Inhabited

structure TransactionDetail where
  ticker : String
  direction : String
  value : ℚ
  units : ℚ
  error : Option TradeError
deriving DecidableEq, Repr, Inhabited

structure GoalResult where
  goalId : String
  transactionType : String
  transactionDetails : List TransactionDetail
deriving DecidableEq, Repr, Inhabited

/-- Working entity of ProcessInvestment (src/splitter/investment.go). -/
structure productAlloc where
  mp : ModelItem
  current : ℚ
  ideal : ℚ
deriving DecidableEq, Repr, Inhabited

/-!
## Investment allocator (src/splitter/investment.go, ProcessInvestment)
-/

/-- Go map `holdingsMap[ticker] = value` built by iterating goalDetails:
last write wins, missing ticker reads as zero. -/
def investLookupValue (hs : List Holding) (t : String) : ℚ :=
  match (hs.filter fun h => h.ticker == t).getLast? with
  | some h => h.value
  | none => 0

/-- Sum of all current holding values (investment side adds every entry). -/
def investVTotal (g : Goal) : ℚ := (g.goalDetails.map (·.value)).sum

/-- Shortfall formula of ProcessInvestment:
ideal = w * postTotal - currentValue, clamped at zero. -/
def investIdeal (weight currentVal postTotal : ℚ) : ℚ :=
  let ideal := weight * postTotal - currentVal
  if ideal < 0 then 0 else ideal

/-- The per-product allocations before the zero-total fallback:
model entries with weight ≠ 0, in input order. -/
def investAllocsRaw (g : Goal) : List productAlloc :=
  (g.modelPortfolioDetails.filter fun mp => decide (mp.weight ≠ 0)).map fun mp =>
    { mp := mp
      current := investLookupValue g.goalDetails mp.ticker
      ideal := investIdeal mp.weight (investLookupValue g.goalDetails mp.ticker)
        (investVTotal g + g.orderAmount) }

/-- Allocations of ProcessInvestment including the fallback: if every ideal is
zero, distribute pro-rata by model weight. -/
def investAllocs (g : Goal) : List productAlloc :=
  let raw := investAllocsRaw g
  if (raw.map (·.ideal)).sum = 0 then
    let totalWeight := (raw.map (·.mp.weight)).sum
    raw.map fun a => { a with ideal := a.mp.weight / totalWeight * g.orderAmount }
  else raw

/-- Fee adjustment: gross needed for a net target, ideal / (1 - fee). -/
def feeAdjustedOf (a : productAlloc) : ℚ := a.ideal / (1 - a.mp.transactionFee)

/-- Pass 1 of ProcessInvestment: initial gross amounts, scaled so the exact
values sum to the order amount and then truncated to amountPrec places. -/
def grossBefore (g : Goal) (amountPrec : ℕ) : List ℚ :=
  let allocs := investAllocs g
  let totalFeeAdjusted := (allocs.map feeAdjustedOf).sum
  allocs.map fun a =>
    truncQ amountPrec (feeAdjustedOf a / totalFeeAdjusted * g.orderAmount)

/-!
## Violation repair engine (src/splitter/investment.go, repairViolations)
-/

/-- Required minimum gross of repairViolations: requiredNet is the larger of
the minimum amount and the minimum units at market price (initial-investment
minimums for a first purchase, top-up minimums otherwise), and
reqGross = ceil(requiredNet / (1 - fee)) at amountPrec; zero when no minimum
applies or the divisor is not positive. -/
def reqGrossOf (amountPrec : ℕ) (a : productAlloc) : ℚ :=
  let minAmt := if a.current = 0 then a.mp.minInitialInvestmentAmt else a.mp.minTopupAmt
  let minUnits :=
    if a.current = 0 then a.mp.minInitialInvestmentUnits else a.mp.minTopupUnits
  let requiredNet :=
    if minAmt < minUnits * a.mp.marketPrice then minUnits * a.mp.marketPrice else minAmt
  if 0 < requiredNet then
    if 0 < 1 - a.mp.transactionFee then
      ceilToPrec (requiredNet / (1 - a.mp.transactionFee)) amountPrec
    else 0
  else 0

/-- itemInfo array of repairViolations: (gross, reqGross) per allocation. -/
def itemsOf (amountPrec : ℕ) (allocs : List productAlloc) (grossAmounts : List ℚ) :
    List (ℚ × ℚ) :=
  (allocs.zip grossAmounts).map fun ag => (ag.2, reqGrossOf amountPrec ag.1)

def itemGross (items : List (ℚ × ℚ)) (i : ℕ) : ℚ := (items.getD i (0, 0)).1

def itemReq (items : List (ℚ × ℚ)) (i : ℕ) : ℚ := (items.getD i (0, 0)).2

structure violationItem where
  idx : ℕ
  bump : ℚ
deriving DecidableEq, Repr, Inhabited

structure slackItem where
  idx : ℕ
  safeSlack : ℚ
  reqGross : ℚ
deriving DecidableEq, Repr, Inhabited

/-- Violation scan of repairViolations (positive gross below reqGross),
carried out with an explicit running index to mirror the Go loop. -/
def violationsAux : List (ℚ × ℚ) → ℕ → List violationItem
  | [], _ => []
  | it :: rest, i =>
    (if it.1 ≠ 0 ∧ it.2 ≠ 0 ∧ it.1 < it.2 then [⟨i, it.2 - it.1⟩] else []) ++
      violationsAux rest (i + 1)

def violationsOf (items : List (ℚ × ℚ)) : List violationItem := violationsAux items 0

/-- Slack scan of repairViolations: non-violating products with nonzero gross,
each contributing safeSlack = gross - reqGross. -/
def slackAux : List (ℚ × ℚ) → ℕ → List slackItem
  | [], _ => []
  | it :: rest, i =>
    (if (it.1 ≠ 0 ∧ it.2 ≠ 0 ∧ it.1 < it.2) ∨ it.1 = 0 then []
     else [⟨i, it.1 - it.2, it.2⟩]) ++ slackAux rest (i + 1)

def slackItemsOf (items : List (ℚ × ℚ)) : List slackItem := slackAux items 0

/-- Zero-out candidate scan of tier 2: walk the candidates (smallest reqGross
first), skipping already-zeroed products and products without a minimum,
accumulating gained reqGross until the needed amount is covered. -/
def collectZero : List slackItem → List ℕ → ℚ → ℚ → List ℕ × ℚ
  | [], _, _, acc => ([], acc)
  | si :: rest, zeroed, need, acc =>
    if si.idx ∈ zeroed ∨ si.reqGross = 0 then collectZero rest zeroed need acc
    else
      let acc2 := acc + si.reqGross
      if need ≤ acc2 then ([si.idx], acc2)
      else
        let r := collectZero rest zeroed need acc2
        (si.idx :: r.1, r.2)

structure repairState where
  result : List ℚ
  zeroed : List ℕ
  remainingSlack : ℚ
  totalBumpUsed : ℚ
deriving Repr

/-- One iteration of the repair loop: tier 1 cures from the safe-slack pool,
tier 2 additionally zeroes out candidates when that bridges the gap, and an
uncurable violation leaves the state unchanged. -/
def repairStep (items : List (ℚ × ℚ)) (zeroableSorted : List slackItem)
    (s : repairState) (v : violationItem) : repairState :=
  if v.bump ≤ s.remainingSlack then
    { result := s.result.set v.idx (itemReq items v.idx)
      zeroed := s.zeroed
      remainingSlack := s.remainingSlack - v.bump
      totalBumpUsed := s.totalBumpUsed + v.bump }
  else
    let extraNeeded := v.bump - s.remainingSlack
    let z := collectZero zeroableSorted s.zeroed extraNeeded 0
    if extraNeeded ≤ z.2 then
      { result := z.1.foldl (fun r j => r.set j 0) (s.result.set v.idx (itemReq items v.idx))
        zeroed := s.zeroed ++ z.1
        remainingSlack := s.remainingSlack + z.2 - v.bump
        totalBumpUsed := s.totalBumpUsed + v.bump }
    else s

/-- Pro-rata reduction of the funding products (reductions are precomputed
from the state before any is applied, as in the Go code, then subtracted). -/
def applyReductions (result : List ℚ) (pairs : List (slackItem × ℚ)) : List ℚ :=
  pairs.foldl (fun r pr => r.set pr.1.idx (r.getD pr.1.idx 0 - pr.2)) result

/-- Residual distribution: one pass over the funding products, taking one
minimal unit from each product that still has at least a unit of safe slack,
until the truncation residual is exhausted. -/
def residualPass (items : List (ℚ × ℚ)) (u : ℚ) :
    List slackItem → List ℚ → ℚ → List ℚ × ℚ
  | [], result, residual => (result, residual)
  | si :: rest, result, residual =>
    if ¬ 0 < residual then (result, residual)
    else if u ≤ result.getD si.idx 0 - itemReq items si.idx then
      residualPass items u rest (result.set si.idx (result.getD si.idx 0 - u)) (residual - u)
    else residualPass items u rest result residual

/-- Round-robin refund of the zero-out overshoot: the Go loop hands one
minimal unit per step to the fixed violations, cycling through them until the
excess is exhausted; the number of one-unit steps it performs is exactly
ceil(excess / unit), which is passed here as the step budget. -/
def addUnitsAux (u : ℚ) (all : List ℕ) : List ℚ → List ℕ → ℕ → List ℚ
  | result, _, 0 => result
  | result, [], Nat.succ t =>
    match all with
    | [] => result
    | j :: rest => addUnitsAux u all (result.set j (result.getD j 0 + u)) rest t
  | result, j :: rest, Nat.succ t =>
    addUnitsAux u all (result.set j (result.getD j 0 + u)) rest t

/-- Body of repairViolations after the itemInfo array has been built. -/
def repairCore (amountPrec : ℕ) (items : List (ℚ × ℚ)) (grossAmounts : List ℚ) :
    List ℚ :=
  let violations0 := violationsOf items
  if violations0 = [] then grossAmounts
  else
    let violations := List.insertionSort (fun v w => v.bump ≤ w.bump) violations0
    let slackItems := slackItemsOf items
    if slackItems = [] then grossAmounts
    else
      let totalSafeSlack := (slackItems.map (·.safeSlack)).sum
      let zeroableSorted := List.insertionSort (fun a b => a.reqGross ≤ b.reqGross) slackItems
      let s := violations.foldl (repairStep items zeroableSorted)
        ⟨grossAmounts, [], totalSafeSlack, 0⟩
      if s.totalBumpUsed = 0 then grossAmounts
      else
        let zeroedContribution := (s.zeroed.map (itemGross items)).sum
        let stillNeeded := s.totalBumpUsed - zeroedContribution
        let redistItems := slackItems.filter fun si => decide (si.idx ∉ s.zeroed)
        let redistSafeSlack := (redistItems.map (·.safeSlack)).sum
        let u := unitQ amountPrec
        if 0 < stillNeeded then
          if 0 < redistSafeSlack then
            let reductions := redistItems.map fun si =>
              truncQ amountPrec (si.safeSlack / redistSafeSlack * stillNeeded)
            let result2 := applyReductions s.result (redistItems.zip reductions)
            let residual := stillNeeded - reductions.sum
            (residualPass items u redistItems result2 residual).1
          else s.result
        else if stillNeeded < 0 then
          let excess := -stillNeeded
          let fixedIdxs := violations.filterMap fun v =>
            if s.result.getD v.idx 0 = itemReq items v.idx then some v.idx else none
          if fixedIdxs = [] then s.result
          else addUnitsAux u fixedIdxs s.result fixedIdxs ⌈excess / u⌉.toNat
        else s.result

/-- repairViolations of src/splitter/investment.go (unitPrec is a parameter of
the Go function but is not used by its body). -/
def repairViolations (amountPrec unitPrec : ℕ) (allocs : List productAlloc)
    (grossAmounts : List ℚ) : List ℚ :=
  repairCore amountPrec (itemsOf amountPrec allocs grossAmounts) grossAmounts

/-- Net-amount minimum checks of ProcessInvestment pass 2 (flag-and-keep). -/
def investTradeError (a : productAlloc) (gross : ℚ) (unitPrec : ℕ) :
    Option TradeError :=
  let fee := a.mp.transactionFee
  let net := gross * (1 - fee)
  let netUnits :=
    if 0 < a.mp.marketPrice then truncQ unitPrec (net / a.mp.marketPrice) else 0
  if 0 < gross then
    if a.current = 0 then
      if net < a.mp.minInitialInvestmentAmt ∨ netUnits < a.mp.minInitialInvestmentUnits then
        some ⟨"Cannot trade this ticker because it breaches the minimum initial investment amount",
          "MIN_INVESTMENT_VIOLATION"⟩
      else none
    else
      if net < a.mp.minTopupAmt ∨ netUnits < a.mp.minTopupUnits then
        some ⟨"Cannot trade this ticker because it breaches the minimum topup amount",
          "MIN_TOPUP_VIOLATION"⟩
      else none
  else none

/-- Pass 2 of ProcessInvestment: transaction details from the repaired gross
amounts (the Value and Units strings are emitted at the configured precisions;
here they are carried as the exact rationals being formatted). -/
def processInvestmentDetails (g : Goal) (amountPrec unitPrec : ℕ) :
    List TransactionDetail :=
  let allocs := investAllocs g
  let grossAmounts := repairViolations amountPrec unitPrec allocs (grossBefore g amountPrec)
  (allocs.zip grossAmounts).map fun ag =>
    let units :=
      if 0 < ag.1.mp.marketPrice then truncQ unitPrec (ag.2 / ag.1.mp.marketPrice) else 0
    { ticker := ag.1.mp.ticker
      direction := "BUY"
      value := ag.2
      units := units
      error := investTradeError ag.1 ag.2 unitPrec }

/-- ProcessInvestment of src/splitter/investment.go. -/
def ProcessInvestment (g : Goal) (amountPrec unitPrec : ℕ) : GoalResult :=
  { goalId := g.goalId
    transactionType := g.orderType
    transactionDetails := processInvestmentDetails g amountPrec unitPrec }

/-!
## List bookkeeping lemmas for the repair proofs
-/

lemma getD_set_self {l : List ℚ} {i : ℕ} (h : i < l.length) (x d : ℚ) :
    (l.set i x).getD i d = x := by
  induction l generalizing i with
  | nil => simp at h
  | cons a t ih =>
      cases i with
      | zero => simp [List.getD]
      | succ j =>
          simp only [List.set, List.getD, List.get?]
          exact ih (by simpa using h) 

lemma getD_set_ne {α : Type} (l : List α) (x d : α) :
    ∀ i j : ℕ, i ≠ j → (l.set i x).getD j d = l.getD j d := by
  induction l with
  | nil => intro i j h; simp
  | cons a t ih =>
      intro i j h
      cases i with
      | zero =>
          cases j with
          | zero => exact absurd rfl h
          | succ j2 => simp [List.getD]
      | succ i2 =>
          cases j with
          | zero => simp [List.getD]
          | succ j2 =>
              simp only [List.set, List.getD, List.get?]
              exact ih i2 j2 (by omega)

lemma set_of_length_le {α : Type} {l : List α} {i : ℕ} (h : l.length ≤ i) (x : α) :
    l.set i x = l := by
  induction l generalizing i with
  | nil => simp
  | cons a t ih =>
      cases i with
      | zero => simp at h
      | succ j => simp only [List.set]; rw [ih (by simpa using h)]

lemma sum_set {l : List ℚ} {i : ℕ} (h : i < l.length) (x : ℚ) :
    (l.set i x).sum = l.sum - l.getD i 0 + x := by
  induction l generalizing i with
  | nil => simp at h
  | cons a t ih =>
      cases i with
      | zero => simp [List.getD]; ring
      | succ j =>
          simp only [List.set, List.sum_cons]
          rw [ih (by simpa using h)]
          simp only [List.getD, List.get?]
          ring

lemma sum_set_le {l : List ℚ} {i : ℕ} (x : ℚ) (hx : x ≤ l.getD i 0) :
    (l.set i x).sum ≤ l.sum := by
  by_cases h : i < l.length
  · rw [sum_set h]; linarith
  · rw [set_of_length_le (le_of_not_lt h)]

lemma length_set_eq {α : Type} (l : List α) (i : ℕ) (x : α) :
    (l.set i x).length = l.length := by
  simp

lemma getD_mem_of_lt {α : Type} {l : List α} {i : ℕ} (h : i < l.length) (d : α) :
    l.getD i d ∈ l := by
  induction l generalizing i with
  | nil => simp at h
  | cons a t ih =>
      cases i with
      | zero => simp [List.getD]
      | succ j =>
          simp only [List.getD, List.get?]
          exact List.mem_cons_of_mem _ (ih (by simpa using h))

/-- Splitting a mapped sum over a Boolean filter and its complement. -/
lemma sum_map_filter_split {α : Type} (f : α → ℚ) (p : α → Bool) :
    ∀ l : List α,
      ((l.filter p).map f).sum + ((l.filter fun a => !(p a)).map f).sum = (l.map f).sum := by
  intro l
  induction l with
  | nil => simp
  | cons a t ih =>
      by_cases hp : p a = true
      · simp [List.filter_cons, hp]
        rw [← ih]; ring
      · have hp2 : p a = false := by simpa using hp
        simp [List.filter_cons, hp2]
        rw [← ih]; ring

/-!
## Characterizing the violation and slack scans
-/

/-- Index `i` is a violation in the sense of repairViolations: a positive
allocation, with an applicable minimum, strictly below that minimum. -/
def violAt (items : List (ℚ × ℚ)) (i : ℕ) : Prop :=
  itemGross items i ≠ 0 ∧ itemReq items i ≠ 0 ∧ itemGross items i < itemReq items i

instance (items : List (ℚ × ℚ)) (i : ℕ) : Decidable (violAt items i) := by
  unfold violAt; infer_instance

lemma mem_violationsAux {l : List (ℚ × ℚ)} {k : ℕ} {v : violationItem}
    (h : v ∈ violationsAux l k) :
    ∃ j, j < l.length ∧ v.idx = k + j ∧
      (l.getD j (0, 0)).1 ≠ 0 ∧ (l.getD j (0, 0)).2 ≠ 0 ∧
      (l.getD j (0, 0)).1 < (l.getD j (0, 0)).2 ∧
      v.bump = (l.getD j (0, 0)).2 - (l.getD j (0, 0)).1 := by
  induction l generalizing k with
  | nil => simp [violationsAux] at h
  | cons it rest ih =>
      rw [violationsAux, List.mem_append] at h
      rcases h with h | h
      · by_cases hc : it.1 ≠ 0 ∧ it.2 ≠ 0 ∧ it.1 < it.2
        · rw [if_pos hc, List.mem_singleton] at h
          subst h
          exact ⟨0, by simp, by simp, by simpa [List.getD] using hc.1,
            by simpa [List.getD] using hc.2.1, by simpa [List.getD] using hc.2.2,
            by simp [List.getD]⟩
        · rw [if_neg hc] at h; simp at h
      · obtain ⟨j, hj, hidx, h1, h2, h3, h4⟩ := ih h
        exact ⟨j + 1, by simpa using hj, by omega,
          by simpa [List.getD] using h1, by simpa [List.getD] using h2,
          by simpa [List.getD] using h3, by simpa [List.getD] using h4⟩

lemma le_idx_of_mem_violationsAux {l : List (ℚ × ℚ)} {k : ℕ} {v : violationItem}
    (h : v ∈ violationsAux l k) : k ≤ v.idx := by
  obtain ⟨j, _, hidx, _⟩ := mem_violationsAux h
  omega

lemma violationsAux_pairwise (l : List (ℚ × ℚ)) (k : ℕ) :
    (violationsAux l k).Pairwise (fun a b => a.idx < b.idx) := by
  induction l generalizing k with
  | nil => simp [violationsAux]
  | cons it rest ih =>
      rw [violationsAux, List.pairwise_append]
      refine ⟨?_, ih (k + 1), ?_⟩
      · split
        · simp
        · simp
      · intro a ha b hb
        have hb' := le_idx_of_mem_violationsAux hb
        split at ha
        · rw [List.mem_singleton] at ha; subst ha; simpa using by omega
        · simp at ha

/-- Membership in violationsOf gives the violation facts at that index. -/
lemma mem_violationsOf {items : List (ℚ × ℚ)} {v : violationItem}
    (h : v ∈ violationsOf items) :
    v.idx < items.length ∧ violAt items v.idx ∧
      v.bump = itemReq items v.idx - itemGross items v.idx := by
  obtain ⟨j, hj, hidx, h1, h2, h3, h4⟩ := mem_violationsAux h
  have hj0 : v.idx = j := by omega
  subst hj0
  exact ⟨hj, ⟨h1, h2, h3⟩, h4⟩

lemma violationsAux_eq_nil {l : List (ℚ × ℚ)} {k : ℕ}
    (h : ∀ j, j < l.length → ¬ ((l.getD j (0, 0)).1 ≠ 0 ∧ (l.getD j (0, 0)).2 ≠ 0 ∧
      (l.getD j (0, 0)).1 < (l.getD j (0, 0)).2)) :
    violationsAux l k = [] := by
  induction l generalizing k with
  | nil => rfl
  | cons it rest ih =>
      rw [violationsAux]
      have h0 := h 0 (by simp)
      rw [if_neg (by simpa [List.getD] using h0)]
      rw [List.nil_append]
      apply ih
      intro j hj
      have := h (j + 1) (by simpa using hj)
      simpa [List.getD] using this

/-- If no index violates, the violation scan is empty. -/
lemma violationsOf_eq_nil {items : List (ℚ × ℚ)}
    (h : ∀ i, i < items.length → ¬ violAt items i) : violationsOf items = [] := by
  apply violationsAux_eq_nil
  intro j hj
  exact h j hj

lemma mem_slackAux {l : List (ℚ × ℚ)} {k : ℕ} {si : slackItem}
    (h : si ∈ slackAux l k) :
    ∃ j, j < l.length ∧ si.idx = k + j ∧
      ¬ ((l.getD j (0, 0)).1 ≠ 0 ∧ (l.getD j (0, 0)).2 ≠ 0 ∧
        (l.getD j (0, 0)).1 < (l.getD j (0, 0)).2) ∧
      (l.getD j (0, 0)).1 ≠ 0 ∧
      si.safeSlack = (l.getD j (0, 0)).1 - (l.getD j (0, 0)).2 ∧
      si.reqGross = (l.getD j (0, 0)).2 := by
  induction l generalizing k with
  | nil => simp [slackAux] at h
  | cons it rest ih =>
      rw [slackAux, List.mem_append] at h
      rcases h with h | h
      · by_cases hc : (it.1 ≠ 0 ∧ it.2 ≠ 0 ∧ it.1 < it.2) ∨ it.1 = 0
        · rw [if_pos hc] at h; simp at h
        · rw [if_neg hc, List.mem_singleton] at h
          subst h
          push_neg at hc
          exact ⟨0, by simp, by simp, by simpa [List.getD] using hc.1,
            by simpa [List.getD] using hc.2, by simp [List.getD], by simp [List.getD]⟩
      · obtain ⟨j, hj, hidx, h1, h2, h3, h4⟩ := ih h
        exact ⟨j + 1, by simpa using hj, by omega,
          by simpa [List.getD] using h1, by simpa [List.getD] using h2,
          by simpa [List.getD] using h3, by simpa [List.getD] using h4⟩

lemma le_idx_of_mem_slackAux {l : List (ℚ × ℚ)} {k : ℕ} {si : slackItem}
    (h : si ∈ slackAux l k) : k ≤ si.idx := by
  obtain ⟨j, _, hidx, _⟩ := mem_slackAux h
  omega

lemma slackAux_pairwise (l : List (ℚ × ℚ)) (k : ℕ) :
    (slackAux l k).Pairwise (fun a b => a.idx < b.idx) := by
  induction l generalizing k with
  | nil => simp [slackAux]
  | cons it rest ih =>
      rw [slackAux, List.pairwise_append]
      refine ⟨?_, ih (k + 1), ?_⟩
      · split
        · simp
        · simp
      · intro a ha b hb
        have hb' := le_idx_of_mem_slackAux hb
        split at ha
        · simp at ha
        · rw [List.mem_singleton] at ha; subst ha; simpa using by omega

/-- Membership in slackItemsOf gives the slack facts at that index. -/
lemma mem_slackItemsOf {items : List (ℚ × ℚ)} {si : slackItem}
    (h : si ∈ slackItemsOf items) :
    si.idx < items.length ∧ ¬ violAt items si.idx ∧ itemGross items si.idx ≠ 0 ∧
      si.safeSlack = itemGross items si.idx - itemReq items si.idx ∧
      si.reqGross = itemReq items si.idx := by
  obtain ⟨j, hj, hidx, h1, h2, h3, h4⟩ := mem_slackAux h
  have hj0 : si.idx = j := by omega
  subst hj0
  exact ⟨hj, h1, h2, h3, h4⟩

lemma slackItemsOf_pairwise (items : List (ℚ × ℚ)) :
    (slackItemsOf items).Pairwise (fun a b => a.idx ≠ b.idx) :=
  (slackAux_pairwise items 0).imp fun h => Nat.ne_of_lt h

/-!
## collectZero and zero-out bookkeeping
-/

lemma collectZero_spec :
    ∀ (zall : List slackItem) (zeroed : List ℕ) (need acc : ℚ),
      ∃ L : List slackItem,
        L.Sublist zall ∧
        (collectZero zall zeroed need acc).1 = L.map slackItem.idx ∧
        (collectZero zall zeroed need acc).2 = acc + (L.map slackItem.reqGross).sum ∧
        ∀ si ∈ L, si.idx ∉ zeroed ∧ si.reqGross ≠ 0 := by
  intro zall
  induction zall with
  | nil => intro zeroed need acc; exact ⟨[], by simp, by simp [collectZero], by simp [collectZero], by simp⟩
  | cons si rest ih =>
      intro zeroed need acc
      by_cases hskip : si.idx ∈ zeroed ∨ si.reqGross = 0
      · obtain ⟨L, hsub, h1, h2, h3⟩ := ih zeroed need acc
        refine ⟨L, hsub.cons _, ?_, ?_, h3⟩
        · rw [collectZero, if_pos hskip]; exact h1
        · rw [collectZero, if_pos hskip]; exact h2
      · push_neg at hskip
        by_cases hdone : need ≤ acc + si.reqGross
        · refine ⟨[si], by simp, ?_, ?_, ?_⟩
          · rw [collectZero, if_neg (by push_neg; exact hskip)]
            simp only [if_pos hdone]
            simp
          · rw [collectZero, if_neg (by push_neg; exact hskip)]
            simp only [if_pos hdone, List.map_cons, List.map_nil, List.sum_cons,
              List.sum_nil]
            ring
          · intro x hx; rw [List.mem_singleton] at hx; subst hx; exact hskip
        · obtain ⟨L, hsub, h1, h2, h3⟩ := ih zeroed need (acc + si.reqGross)
          refine ⟨si :: L, hsub.cons₂ _, ?_, ?_, ?_⟩
          · rw [collectZero, if_neg (by push_neg; exact hskip)]
            simp only [if_neg hdone, List.map_cons]
            rw [h1]
          · rw [collectZero, if_neg (by push_neg; exact hskip)]
            simp only [if_neg hdone, List.map_cons, List.sum_cons]
            rw [h2]; ring
          · intro x hx
            rcases List.mem_cons.mp hx with hx | hx
            · subst hx; exact hskip
            · exact h3 x hx

lemma foldl_set_zero_length (idxs : List ℕ) (base : List ℚ) :
    (idxs.foldl (fun r i => r.set i 0) base).length = base.length := by
  induction idxs generalizing base with
  | nil => rfl
  | cons i rest ih => rw [List.foldl_cons, ih]; simp

lemma foldl_set_zero_getD_not_mem {idxs : List ℕ} {j : ℕ} (h : j ∉ idxs)
    (base : List ℚ) :
    (idxs.foldl (fun r i => r.set i 0) base).getD j 0 = base.getD j 0 := by
  induction idxs generalizing base with
  | nil => rfl
  | cons i rest ih =>
      rw [List.foldl_cons, ih (fun hc => h (List.mem_cons_of_mem _ hc))]
      exact getD_set_ne _ _ _ _ _ (fun hc => h (by rw [hc]; exact List.mem_cons_self _ _))

lemma foldl_set_zero_getD_mem {idxs : List ℕ} {j : ℕ} (hmem : j ∈ idxs)
    (base : List ℚ) (hlt : j < base.length) :
    (idxs.foldl (fun r i => r.set i 0) base).getD j 0 = 0 := by
  induction idxs generalizing base with
  | nil => simp at hmem
  | cons i rest ih =>
      rw [List.foldl_cons]
      by_cases hr : j ∈ rest
      · exact ih hr _ (by simpa using hlt)
      · have hij : j = i := by
          rcases List.mem_cons.mp hmem with h | h
          · exact h
          · exact absurd h hr
        subst hij
        rw [foldl_set_zero_getD_not_mem hr]
        exact getD_set_self hlt 0 0

lemma foldl_set_zero_sum {idxs : List ℕ} (hnd : idxs.Nodup) (base : List ℚ)
    (hlt : ∀ i ∈ idxs, i < base.length) :
    (idxs.foldl (fun r i => r.set i 0) base).sum
      = base.sum - (idxs.map fun i => base.getD i 0).sum := by
  induction idxs generalizing base with
  | nil => simp
  | cons i rest ih =>
      rw [List.foldl_cons]
      have hi : i < base.length := hlt i (List.mem_cons_self _ _)
      have hnd' : rest.Nodup := (List.nodup_cons.mp hnd).2
      have hni : i ∉ rest := (List.nodup_cons.mp hnd).1
      rw [ih hnd' _ (fun a ha => by
        rw [length_set_eq]; exact hlt a (List.mem_cons_of_mem _ ha))]
      rw [sum_set hi]
      have hrest : (rest.map fun a => (base.set i 0).getD a 0).sum
          = (rest.map fun a => base.getD a 0).sum := by
        apply congrArg
        apply List.map_congr_left
        intro a ha
        exact getD_set_ne _ _ _ _ _ (fun hc => hni (by rw [hc]; exact ha))
      rw [hrest]
      simp only [List.map_cons, List.sum_cons]
      ring

/-!
## The repair loop invariant
-/

/-- Invariant carried through the violation-processing loop of
repairViolations.  `gross` is the input allocation list; the state's result
differs from it only by cured violations (set to their reqGross) and zeroed
slack products, with the pool and bump accounting tracking those changes. -/
structure RepairInv (p : ℕ) (items : List (ℚ × ℚ)) (gross : List ℚ)
    (s : repairState) : Prop where
  len : s.result.length = gross.length
  zeroedSlack : ∀ j ∈ s.zeroed, ∃ si ∈ slackItemsOf items, si.idx = j ∧ si.reqGross ≠ 0
  zeroedNodup : s.zeroed.Nodup
  zeroedZero : ∀ j ∈ s.zeroed, s.result.getD j 0 = 0
  nonviolKeep : ∀ i, i < items.length → ¬ violAt items i → i ∉ s.zeroed →
    s.result.getD i 0 = itemGross items i
  violKeep : ∀ i, i < items.length → violAt items i →
    s.result.getD i 0 = itemGross items i ∨ s.result.getD i 0 = itemReq items i
  beyond : ∀ i, items.length ≤ i → s.result.getD i 0 = gross.getD i 0
  pool : s.remainingSlack = ((slackItemsOf items).map (·.safeSlack)).sum
    + ((s.zeroed.map (itemReq items)).sum) - s.totalBumpUsed
  poolNonneg : 0 ≤ s.remainingSlack
  total : s.result.sum = gross.sum + s.totalBumpUsed - ((s.zeroed.map (itemGross items)).sum)
  bumpNonneg : 0 ≤ s.totalBumpUsed
  bumpMul : MulOfUnit p s.totalBumpUsed
  fixedExists : s.totalBumpUsed ≠ 0 →
    ∃ i, i < items.length ∧ violAt items i ∧ s.result.getD i 0 = itemReq items i

section RepairProof

variable {p : ℕ} {items : List (ℚ × ℚ)} {gross : List ℚ}

lemma itemGross_eq_getD (hLen : items.length ≤ gross.length)
    (hG : ∀ i, i < items.length → itemGross items i = gross.getD i 0) :
    True := trivial

lemma itemReq_nonneg_mul (hReq : ∀ it ∈ items, 0 ≤ it.2 ∧ MulOfUnit p it.2) (i : ℕ) :
    0 ≤ itemReq items i ∧ MulOfUnit p (itemReq items i) := by
  by_cases h : i < items.length
  · exact hReq _ (getD_mem_of_lt h (0, 0))
  · rw [itemReq, List.getD_eq_default _ _ (le_of_not_lt h)]
    exact ⟨le_refl 0, mulOfUnit_zero p⟩

lemma itemGross_nonneg_mul (hLen : items.length ≤ gross.length)
    (hG : ∀ i, i < items.length → itemGross items i = gross.getD i 0)
    (hGross : ∀ x ∈ gross, 0 ≤ x ∧ MulOfUnit p x)
    {i : ℕ} (hi : i < items.length) :
    0 ≤ itemGross items i ∧ MulOfUnit p (itemGross items i) := by
  rw [hG i hi]
  exact hGross _ (getD_mem_of_lt (lt_of_lt_of_le hi hLen) 0)

/-- One repair step preserves the invariant and leaves every other violation
index untouched. -/
lemma repairStep_inv
    (hLen : items.length ≤ gross.length)
    (hG : ∀ i, i < items.length → itemGross items i = gross.getD i 0)
    (hGross : ∀ x ∈ gross, 0 ≤ x ∧ MulOfUnit p x)
    (hReq : ∀ it ∈ items, 0 ≤ it.2 ∧ MulOfUnit p it.2)
    (zsorted : List slackItem)
    (hzs : ∀ si ∈ zsorted, si ∈ slackItemsOf items)
    (hzsnd : zsorted.Pairwise (fun a b => a.idx ≠ b.idx))
    (s : repairState) (v : violationItem)
    (hInv : RepairInv p items gross s)
    (hvidx : v.idx < items.length)
    (hviol : violAt items v.idx)
    (hbump : v.bump = itemReq items v.idx - itemGross items v.idx)
    (huntouched : s.result.getD v.idx 0 = itemGross items v.idx) :
    RepairInv p items gross (repairStep items zsorted s v) ∧
    (∀ j, violAt items j → j ≠ v.idx →
      (repairStep items zsorted s v).result.getD j 0 = s.result.getD j 0) := by
  have hGv := itemGross_nonneg_mul hLen hG hGross hvidx
  have hRv := itemReq_nonneg_mul hReq v.idx
  have hbumppos : 0 < v.bump := by
    rw [hbump]; have := hviol.2.2; linarith
  have hbumpmul : MulOfUnit p v.bump := by
    rw [hbump]; exact hRv.2.sub hGv.2
  have hvgross : v.idx < gross.length := lt_of_lt_of_le hvidx hLen
  have hvres : v.idx < s.result.length := by rw [hInv.len]; exact hvgross
  rw [repairStep]
  by_cases h1 : v.bump ≤ s.remainingSlack
  · rw [if_pos h1]
    constructor
    · constructor
      · rw [length_set_eq]; exact hInv.len
      · exact hInv.zeroedSlack
      · exact hInv.zeroedNodup
      · intro j hj
        have hne : j ≠ v.idx := by
          obtain ⟨si, hsi, hidx, _⟩ := hInv.zeroedSlack j hj
          intro hc
          exact (mem_slackItemsOf hsi).2.1 (by rw [hidx, hc]; exact hviol)
        rw [getD_set_ne _ _ _ _ _ (fun hc => hne hc.symm)]
        exact hInv.zeroedZero j hj
      · intro i hi hnv hz
        have hne : i ≠ v.idx := fun hc => hnv (by rw [hc]; exact hviol)
        rw [getD_set_ne _ _ _ _ _ (fun hc => hne hc.symm)]
        exact hInv.nonviolKeep i hi hnv hz
      · intro i hi hvi
        by_cases hne : i = v.idx
        · subst hne
          right
          exact getD_set_self hvres _ _
        · rw [getD_set_ne _ _ _ _ _ (fun hc => hne hc.symm)]
          exact hInv.violKeep i hi hvi
      · intro i hi
        have hne : v.idx ≠ i := by omega
        rw [getD_set_ne _ _ _ _ _ hne]
        exact hInv.beyond i hi
      · simp only
        rw [hInv.pool]; ring
      · simp only; linarith [hInv.poolNonneg]
      · simp only
        rw [sum_set hvres, huntouched, hInv.total, hbump]
        ring
      · simp only; linarith [hInv.bumpNonneg]
      · exact hInv.bumpMul.add hbumpmul
      · intro _
        exact ⟨v.idx, hvidx, hviol, getD_set_self hvres _ _⟩
    · intro j hj hne
      exact getD_set_ne _ _ _ _ _ (fun hc => hne hc.symm)
  · rw [if_neg h1]
    obtain ⟨L, hsub, hfst, hsnd, hmem⟩ :=
      collectZero_spec zsorted s.zeroed (v.bump - s.remainingSlack) 0
    by_cases h2 : v.bump - s.remainingSlack ≤ (collectZero zsorted s.zeroed (v.bump - s.remainingSlack) 0).2
    · rw [if_pos h2]
      -- facts about the zero-out batch L
      have hLmem : ∀ si ∈ L, si ∈ slackItemsOf items := fun si hsi =>
        hzs si (hsub.mem hsi)
      have hLfacts : ∀ si ∈ L, si.idx < items.length ∧ ¬ violAt items si.idx ∧
          itemGross items si.idx ≠ 0 ∧
          si.safeSlack = itemGross items si.idx - itemReq items si.idx ∧
          si.reqGross = itemReq items si.idx := fun si hsi =>
        mem_slackItemsOf (hLmem si hsi)
      have hLnd : (L.map slackItem.idx).Nodup := by
        have := hzsnd.sublist hsub
        exact List.pairwise_map.mpr this
      have hLdisj : ∀ j ∈ L.map slackItem.idx, j ∉ s.zeroed := by
        intro j hj
        obtain ⟨si, hsi, rfl⟩ := List.mem_map.mp hj
        exact (hmem si hsi).1
      have hLlt : ∀ j ∈ L.map slackItem.idx, j < items.length := by
        intro j hj
        obtain ⟨si, hsi, rfl⟩ := List.mem_map.mp hj
        exact (hLfacts si hsi).1
      have hLnv : ∀ j ∈ L.map slackItem.idx, ¬ violAt items j := by
        intro j hj
        obtain ⟨si, hsi, rfl⟩ := List.mem_map.mp hj
        exact (hLfacts si hsi).2.1
      have hvnotL : v.idx ∉ L.map slackItem.idx := fun hc => hLnv _ hc hviol
      have hgained : (collectZero zsorted s.zeroed (v.bump - s.remainingSlack) 0).2
          = ((L.map slackItem.idx).map (itemReq items)).sum := by
        rw [hsnd, zero_add, List.map_map]
        congr 1
        apply List.map_congr_left
        intro si hsi
        exact (hLfacts si hsi).2.2.2.2
      set base := s.result.set v.idx (itemReq items v.idx) with hbase
      have hbaselen : base.length = gross.length := by
        rw [hbase, length_set_eq]; exact hInv.len
      have hbasegetD : ∀ j, j ≠ v.idx → base.getD j 0 = s.result.getD j 0 := by
        intro j hj
        exact getD_set_ne _ _ _ _ _ (fun hc => hj hc.symm)
      have hLltbase : ∀ j ∈ L.map slackItem.idx, j < base.length := by
        intro j hj; rw [hbaselen]; exact lt_of_lt_of_le (hLlt j hj) hLen
      constructor
      · constructor
        · rw [hfst, foldl_set_zero_length, hbaselen]
        · intro j hj
          rcases List.mem_append.mp (by simpa using hj) with hj | hj
          · exact hInv.zeroedSlack j hj
          · rw [hfst] at hj
            obtain ⟨si, hsi, rfl⟩ := List.mem_map.mp hj
            exact ⟨si, hLmem si hsi, rfl, (hmem si hsi).2⟩
        · simp only
          rw [hfst]
          exact List.Nodup.append hInv.zeroedNodup hLnd
            (fun a ha hb => hLdisj a hb ha)
        · intro j hj
          rcases List.mem_append.mp (by simpa using hj) with hj | hj
          · have hne : j ≠ v.idx := by
              obtain ⟨si, hsi, hidx, _⟩ := hInv.zeroedSlack j hj
              intro hc
              exact (mem_slackItemsOf hsi).2.1 (by rw [hidx, hc]; exact hviol)
            rw [hfst, foldl_set_zero_getD_not_mem (fun hc => hLdisj j hc hj)]
            rw [hbasegetD j hne]
            exact hInv.zeroedZero j hj
          · rw [hfst] at hj ⊢
            exact foldl_set_zero_getD_mem hj _ (hLltbase j hj)
        · intro i hi hnv hz
          simp only [hfst] at hz ⊢
          rw [List.mem_append] at hz
          push_neg at hz
          have hne : i ≠ v.idx := fun hc => hnv (by rw [hc]; exact hviol)
          rw [foldl_set_zero_getD_not_mem hz.2, hbasegetD i hne]
          exact hInv.nonviolKeep i hi hnv hz.1
        · intro i hi hvi
          by_cases hne : i = v.idx
          · subst hne
            right
            rw [hfst, foldl_set_zero_getD_not_mem hvnotL, hbase]
            exact getD_set_self hvres _ _
          · have hniL : i ∉ L.map slackItem.idx := fun hc => hLnv i hc hvi
            rw [hfst, foldl_set_zero_getD_not_mem hniL, hbasegetD i hne]
            exact hInv.violKeep i hi hvi
        · intro i hi
          have hniL : i ∉ L.map slackItem.idx := fun hc => by
            have := hLlt i hc; omega
          have hne : i ≠ v.idx := by omega
          rw [hfst, foldl_set_zero_getD_not_mem hniL, hbasegetD i hne]
          exact hInv.beyond i hi
        · simp only [hfst]
          rw [List.map_append, List.sum_append, hgained, hInv.pool]
          ring
        · simp only
          linarith [h2, hgained]
        · simp only [hfst]
          rw [foldl_set_zero_sum hLnd base hLltbase]
          have hbasesum : base.sum = s.result.sum + v.bump := by
            rw [hbase, sum_set hvres, huntouched, hbump]; ring
          have hmapeq : ((L.map slackItem.idx).map fun i => base.getD i 0).sum
              = ((L.map slackItem.idx).map (itemGross items)).sum := by
            congr 1
            apply List.map_congr_left
            intro j hj
            have hne : j ≠ v.idx := fun hc => hvnotL (hc ▸ hj)
            rw [hbasegetD j hne]
            exact hInv.nonviolKeep j (hLlt j hj) (hLnv j hj) (hLdisj j hj)
          rw [hmapeq, hbasesum, hInv.total]
          rw [List.map_append, List.sum_append]
          ring
        · simp only; linarith [hInv.bumpNonneg]
        · exact hInv.bumpMul.add hbumpmul
        · intro _
          refine ⟨v.idx, hvidx, hviol, ?_⟩
          rw [hfst, foldl_set_zero_getD_not_mem hvnotL, hbase]
          exact getD_set_self hvres _ _
      · intro j hj hne
        have hniL : j ∉ L.map slackItem.idx := fun hc => hLnv j hc hj
        rw [hfst, foldl_set_zero_getD_not_mem hniL, hbasegetD j hne]
    · rw [if_neg h2]
      exact ⟨hInv, fun j _ _ => rfl⟩

end RepairProof

section RepairProof2

variable {p : ℕ} {items : List (ℚ × ℚ)} {gross : List ℚ}

/-- The whole violation loop preserves the invariant. -/
lemma repairFold_inv
    (hLen : items.length ≤ gross.length)
    (hG : ∀ i, i < items.length → itemGross items i = gross.getD i 0)
    (hGross : ∀ x ∈ gross, 0 ≤ x ∧ MulOfUnit p x)
    (hReq : ∀ it ∈ items, 0 ≤ it.2 ∧ MulOfUnit p it.2)
    (zsorted : List slackItem)
    (hzs : ∀ si ∈ zsorted, si ∈ slackItemsOf items)
    (hzsnd : zsorted.Pairwise (fun a b => a.idx ≠ b.idx)) :
    ∀ (vl : List violationItem) (s : repairState),
      RepairInv p items gross s →
      vl.Pairwise (fun a b => a.idx ≠ b.idx) →
      (∀ v ∈ vl, v.idx < items.length ∧ violAt items v.idx ∧
        v.bump = itemReq items v.idx - itemGross items v.idx ∧
        s.result.getD v.idx 0 = itemGross items v.idx) →
      RepairInv p items gross (vl.foldl (repairStep items zsorted) s) := by
  intro vl
  induction vl with
  | nil => intro s hInv _ _; exact hInv
  | cons v rest ih =>
      intro s hInv hpw hall
      obtain ⟨hvidx, hviol, hbump, huntouched⟩ := hall v (List.mem_cons_self _ _)
      obtain ⟨hInv', hkeep⟩ := repairStep_inv hLen hG hGross hReq zsorted hzs hzsnd
        s v hInv hvidx hviol hbump huntouched
      rw [List.foldl_cons]
      apply ih _ hInv' (List.pairwise_cons.mp hpw).2
      intro w hw
      obtain ⟨hwidx, hwviol, hwbump, hwuntouched⟩ := hall w (List.mem_cons_of_mem _ hw)
      refine ⟨hwidx, hwviol, hwbump, ?_⟩
      rw [hkeep w.idx hwviol ((List.pairwise_cons.mp hpw).1 w hw).symm]
      exact hwuntouched

lemma safeSlack_nonneg_mul
    (hLen : items.length ≤ gross.length)
    (hG : ∀ i, i < items.length → itemGross items i = gross.getD i 0)
    (hGross : ∀ x ∈ gross, 0 ≤ x ∧ MulOfUnit p x)
    (hReq : ∀ it ∈ items, 0 ≤ it.2 ∧ MulOfUnit p it.2)
    {si : slackItem} (hsi : si ∈ slackItemsOf items) :
    0 ≤ si.safeSlack ∧ MulOfUnit p si.safeSlack := by
  obtain ⟨hidx, hnv, hg, hslack, hreq⟩ := mem_slackItemsOf hsi
  have hGv := itemGross_nonneg_mul hLen hG hGross hidx
  have hRv := itemReq_nonneg_mul hReq si.idx
  constructor
  · rw [hslack]
    rw [violAt] at hnv
    push_neg at hnv
    rcases eq_or_ne (itemReq items si.idx) 0 with h | h
    · rw [h]; linarith [hGv.1]
    · have := hnv hg h
      linarith
  · rw [hslack]; exact hGv.2.sub hRv.2

/-- The invariant holds at the initial state of the loop. -/
lemma repairInv_init
    (hLen : items.length ≤ gross.length)
    (hG : ∀ i, i < items.length → itemGross items i = gross.getD i 0)
    (hGross : ∀ x ∈ gross, 0 ≤ x ∧ MulOfUnit p x)
    (hReq : ∀ it ∈ items, 0 ≤ it.2 ∧ MulOfUnit p it.2) :
    RepairInv p items gross
      ⟨gross, [], ((slackItemsOf items).map (·.safeSlack)).sum, 0⟩ := by
  constructor
  · rfl
  · intro j hj; simp at hj
  · exact List.nodup_nil
  · intro j hj; simp at hj
  · intro i hi _ _; exact (hG i hi).symm
  · intro i hi _; left; exact (hG i hi).symm
  · intro i _; rfl
  · simp
  · simp only
    apply List.sum_nonneg
    intro x hx
    obtain ⟨si, hsi, rfl⟩ := List.mem_map.mp hx
    exact (safeSlack_nonneg_mul hLen hG hGross hReq hsi).1
  · simp
  · simp only; exact le_refl 0
  · exact mulOfUnit_zero p
  · intro h; exact absurd rfl h

/-- applyReductions over distinct in-range indices: lengths, values, sum. -/
lemma applyReductions_spec :
    ∀ (rl : List slackItem) (f : slackItem → ℚ) (base : List ℚ),
      rl.Pairwise (fun a b => a.idx ≠ b.idx) →
      (∀ si ∈ rl, si.idx < base.length) →
      (applyReductions base (rl.map fun si => (si, f si))).length = base.length ∧
      (∀ j, (∀ si ∈ rl, si.idx ≠ j) →
        (applyReductions base (rl.map fun si => (si, f si))).getD j 0 = base.getD j 0) ∧
      (∀ si ∈ rl, (applyReductions base (rl.map fun si => (si, f si))).getD si.idx 0
        = base.getD si.idx 0 - f si) ∧
      (applyReductions base (rl.map fun si => (si, f si))).sum
        = base.sum - (rl.map f).sum := by
  intro rl
  induction rl with
  | nil =>
      intro f base _ _
      exact ⟨rfl, fun j _ => rfl, fun si hsi => absurd hsi (List.not_mem_nil si), by
        simp [applyReductions]⟩
  | cons si rest ih =>
      intro f base hpw hlt
      have hsilt : si.idx < base.length := hlt si (List.mem_cons_self _ _)
      have hpw' := (List.pairwise_cons.mp hpw).2
      have hhead := (List.pairwise_cons.mp hpw).1
      have hstep : applyReductions base ((si :: rest).map fun x => (x, f x))
          = applyReductions (base.set si.idx (base.getD si.idx 0 - f si))
            (rest.map fun x => (x, f x)) := by
        simp [applyReductions]
      obtain ⟨ihlen, ihkeep, ihval, ihsum⟩ := ih f (base.set si.idx (base.getD si.idx 0 - f si))
        hpw' (fun x hx => by rw [length_set_eq]; exact hlt x (List.mem_cons_of_mem _ hx))
      refine ⟨?_, ?_, ?_, ?_⟩
      · rw [hstep, ihlen, length_set_eq]
      · intro j hj
        rw [hstep, ihkeep j (fun x hx => hj x (List.mem_cons_of_mem _ hx))]
        exact getD_set_ne _ _ _ _ _ (hj si (List.mem_cons_self _ _))
      · intro x hx
        rcases List.mem_cons.mp hx with hx | hx
        · subst hx
          rw [hstep, ihkeep x.idx (fun y hy => (hhead y hy).symm)]
          exact getD_set_self hsilt _ _
        · rw [hstep, ihval x hx]
          rw [getD_set_ne _ _ _ _ _ (hhead x hx)]
      · rw [hstep, ihsum, sum_set hsilt]
        simp only [List.map_cons, List.sum_cons]
        ring

end RepairProof2

section RepairProof3

variable {items : List (ℚ × ℚ)}

/-- residualPass: length, sum accounting, untouched indices, per-item effect,
and full exhaustion of the residual when enough eligible items exist. -/
lemma residualPass_spec (u : ℚ) (hu : 0 < u) :
    ∀ (rl : List slackItem) (base : List ℚ) (residual : ℚ),
      rl.Pairwise (fun a b => a.idx ≠ b.idx) →
      (∀ si ∈ rl, si.idx < base.length) →
      (residualPass items u rl base residual).1.length = base.length ∧
      (residualPass items u rl base residual).1.sum
        = base.sum - (residual - (residualPass items u rl base residual).2) ∧
      (∀ j, (∀ si ∈ rl, si.idx ≠ j) →
        (residualPass items u rl base residual).1.getD j 0 = base.getD j 0) ∧
      (∀ si ∈ rl,
        (residualPass items u rl base residual).1.getD si.idx 0 = base.getD si.idx 0 ∨
        (u ≤ base.getD si.idx 0 - itemReq items si.idx ∧
          (residualPass items u rl base residual).1.getD si.idx 0
            = base.getD si.idx 0 - u)) ∧
      (∀ k : ℕ, residual = k * u →
        k ≤ rl.countP (fun si => decide (u ≤ base.getD si.idx 0 - itemReq items si.idx)) →
        (residualPass items u rl base residual).2 = 0) := by
  intro rl
  induction rl with
  | nil =>
      intro base residual _ _
      refine ⟨rfl, by rw [residualPass]; ring_nf, fun j _ => rfl,
        fun si hsi => absurd hsi (List.not_mem_nil si), ?_⟩
      intro k hk hc
      rw [List.countP_nil] at hc
      interval_cases k
      rw [residualPass]
      simpa using hk
  | cons si rest ih =>
      intro base residual hpw hlt
      have hsilt : si.idx < base.length := hlt si (List.mem_cons_self _ _)
      have hpw' := (List.pairwise_cons.mp hpw).2
      have hhead := (List.pairwise_cons.mp hpw).1
      by_cases hr : 0 < residual
      · by_cases helig : u ≤ base.getD si.idx 0 - itemReq items si.idx
        · have hstep : residualPass items u (si :: rest) base residual
              = residualPass items u rest (base.set si.idx (base.getD si.idx 0 - u))
                (residual - u) := by
            rw [residualPass, if_neg (by simpa using hr), if_pos helig]
          obtain ⟨ihlen, ihsum, ihkeep, ihval, ihres⟩ :=
            ih (base.set si.idx (base.getD si.idx 0 - u)) (residual - u) hpw'
              (fun x hx => by rw [length_set_eq]; exact hlt x (List.mem_cons_of_mem _ hx))
          refine ⟨?_, ?_, ?_, ?_, ?_⟩
          · rw [hstep, ihlen, length_set_eq]
          · rw [hstep, ihsum, sum_set hsilt]
            ring
          · intro j hj
            rw [hstep, ihkeep j (fun x hx => hj x (List.mem_cons_of_mem _ hx))]
            exact getD_set_ne _ _ _ _ _ (hj si (List.mem_cons_self _ _))
          · intro x hx
            rcases List.mem_cons.mp hx with hx | hx
            · subst hx
              right
              refine ⟨helig, ?_⟩
              rw [hstep, ihkeep x.idx (fun y hy => (hhead y hy).symm)]
              exact getD_set_self hsilt _ _
            · have hxid : (base.set si.idx (base.getD si.idx 0 - u)).getD x.idx 0
                  = base.getD x.idx 0 := getD_set_ne _ _ _ _ _ (hhead x hx)
              rcases ihval x hx with h | h
              · left; rw [hstep, h, hxid]
              · right
                rw [hxid] at h
                rw [hstep]
                exact h
          · intro k hk hc
            have hk1 : 1 ≤ k := by
              by_contra hk0
              interval_cases k
              rw [hk] at hr; simp at hr
            rw [hstep]
            have hcc : rest.countP (fun x => decide (u ≤
                (base.set si.idx (base.getD si.idx 0 - u)).getD x.idx 0
                  - itemReq items x.idx))
                = rest.countP (fun x => decide (u ≤ base.getD x.idx 0 - itemReq items x.idx)) := by
              apply List.countP_congr
              intro x hx
              rw [getD_set_ne _ _ _ _ _ (hhead x hx)]
            apply ihres (k - 1)
            · rw [hk]
              push_cast [hk1]
              ring
            · rw [hcc]
              rw [List.countP_cons, if_pos (decide_eq_true helig)] at hc
              omega
        · have hstep : residualPass items u (si :: rest) base residual
              = residualPass items u rest base residual := by
            rw [residualPass, if_neg (by simpa using hr), if_neg helig]
          obtain ⟨ihlen, ihsum, ihkeep, ihval, ihres⟩ := ih base residual hpw'
            (fun x hx => hlt x (List.mem_cons_of_mem _ hx))
          refine ⟨by rw [hstep]; exact ihlen, by rw [hstep]; exact ihsum, ?_, ?_, ?_⟩
          · intro j hj
            rw [hstep]
            exact ihkeep j (fun x hx => hj x (List.mem_cons_of_mem _ hx))
          · intro x hx
            rcases List.mem_cons.mp hx with hx | hx
            · subst hx
              left
              rw [hstep]
              exact ihkeep x.idx (fun y hy => (hhead y hy).symm)
            · rw [hstep]
              exact ihval x hx
          · intro k hk hc
            rw [hstep]
            apply ihres k hk
            rw [List.countP_cons, if_neg (by simp only [decide_eq_true_eq]; exact helig)] at hc
            omega
      · have hstep : residualPass items u (si :: rest) base residual = (base, residual) := by
          rw [residualPass, if_pos (by simpa using hr)]
        refine ⟨by rw [hstep], by rw [hstep]; ring, fun j _ => by rw [hstep],
          fun x _ => by rw [hstep]; left; rfl, ?_⟩
        intro k hk hc
        have hk0 : k = 0 := by
          by_contra hk1
          apply hr
          rw [hk]
          have : 1 ≤ k := Nat.one_le_iff_ne_zero.mpr hk1
          have : (1 : ℚ) ≤ (k : ℚ) := by exact_mod_cast this
          nlinarith
        rw [hstep, hk, hk0]
        simp

end RepairProof3

/-- addUnitsAux: length, exact sum increase, indices outside the refund set
untouched, and pointwise monotonicity. -/
lemma addUnitsAux_spec (u : ℚ) (hu : 0 ≤ u) (all : List ℕ) (hne : all ≠ []) :
    ∀ (t : ℕ) (rem : List ℕ) (base : List ℚ),
      (∀ j ∈ all, j < base.length) → (∀ j ∈ rem, j ∈ all) →
      (addUnitsAux u all base rem t).length = base.length ∧
      (addUnitsAux u all base rem t).sum = base.sum + t * u ∧
      (∀ j, j ∉ all → (addUnitsAux u all base rem t).getD j 0 = base.getD j 0) ∧
      (∀ j, base.getD j 0 ≤ (addUnitsAux u all base rem t).getD j 0) := by
  intro t
  induction t with
  | zero =>
      intro rem base hltall _
      have h0 : addUnitsAux u all base rem 0 = base := by cases rem <;> rfl
      rw [h0]
      exact ⟨rfl, by simp, fun j _ => rfl, fun j => le_refl _⟩
  | succ t ih =>
      intro rem base hltall hremall
      have hone : ∀ (j : ℕ) (rem2 : List ℕ), j ∈ all → (∀ x ∈ rem2, x ∈ all) →
          (addUnitsAux u all (base.set j (base.getD j 0 + u)) rem2 t).length = base.length ∧
          (addUnitsAux u all (base.set j (base.getD j 0 + u)) rem2 t).sum
            = base.sum + (t + 1 : ℕ) * u ∧
          (∀ i, i ∉ all →
            (addUnitsAux u all (base.set j (base.getD j 0 + u)) rem2 t).getD i 0
              = base.getD i 0) ∧
          (∀ i, base.getD i 0 ≤
            (addUnitsAux u all (base.set j (base.getD j 0 + u)) rem2 t).getD i 0) := by
        intro j rem2 hj hrem2
        have hjlt : j < base.length := hltall j hj
        obtain ⟨ihlen, ihsum, ihkeep, ihmono⟩ := ih rem2 (base.set j (base.getD j 0 + u))
          (fun x hx => by rw [length_set_eq]; exact hltall x hx) hrem2
        refine ⟨by rw [ihlen, length_set_eq], ?_, ?_, ?_⟩
        · rw [ihsum, sum_set hjlt]
          push_cast
          ring
        · intro i hi
          rw [ihkeep i hi]
          exact getD_set_ne _ _ _ _ _ (fun hc => hi (hc ▸ hj))
        · intro i
          refine le_trans ?_ (ihmono i)
          by_cases hij : j = i
          · subst hij
            rw [getD_set_self hjlt]
            linarith
          · rw [getD_set_ne _ _ _ _ _ hij]
      cases rem with
      | nil =>
          cases hall : all with
          | nil => exact absurd hall hne
          | cons a rest =>
              have hstep : addUnitsAux u (a :: rest) base [] (t + 1)
                  = addUnitsAux u (a :: rest) (base.set a (base.getD a 0 + u)) rest t := by
                rw [addUnitsAux]
              rw [hstep, ← hall]
              exact hone a rest (by rw [hall]; exact List.mem_cons_self _ _)
                (fun x hx => by rw [hall]; exact List.mem_cons_of_mem _ hx)
      | cons j rest =>
          have hstep : addUnitsAux u all base (j :: rest) (t + 1)
              = addUnitsAux u all (base.set j (base.getD j 0 + u)) rest t := by
            rw [addUnitsAux]
          rw [hstep]
          exact hone j rest (hremall j (List.mem_cons_self _ _))
            (fun x hx => hremall x (List.mem_cons_of_mem _ hx))

/-!
## Remaining ingredients for the master repair theorem
-/

lemma violationsAux_mem_of :
    ∀ (l : List (ℚ × ℚ)) (k j : ℕ), j < l.length →
      (l.getD j (0, 0)).1 ≠ 0 → (l.getD j (0, 0)).2 ≠ 0 →
      (l.getD j (0, 0)).1 < (l.getD j (0, 0)).2 →
      (⟨k + j, (l.getD j (0, 0)).2 - (l.getD j (0, 0)).1⟩ : violationItem)
        ∈ violationsAux l k := by
  intro l
  induction l with
  | nil => intro k j hj; simp at hj
  | cons it rest ih =>
      intro k j hj h1 h2 h3
      rw [violationsAux, List.mem_append]
      cases j with
      | zero =>
          left
          rw [if_pos (by exact ⟨by simpa [List.getD] using h1,
            by simpa [List.getD] using h2, by simpa [List.getD] using h3⟩)]
          simp [List.getD] at h1 h2 h3 ⊢
      | succ j2 =>
          right
          have := ih (k + 1) j2 (by simpa using hj) (by simpa [List.getD] using h1)
            (by simpa [List.getD] using h2) (by simpa [List.getD] using h3)
          have harith : k + 1 + j2 = k + (j2 + 1) := by omega
          rw [harith] at this
          simpa [List.getD] using this

lemma mem_violationsOf_of_violAt {items : List (ℚ × ℚ)} {i : ℕ}
    (hi : i < items.length) (hv : violAt items i) :
    (⟨i, itemReq items i - itemGross items i⟩ : violationItem) ∈ violationsOf items := by
  have := violationsAux_mem_of items 0 i hi hv.1 hv.2.1 hv.2.2
  simpa [itemReq, itemGross] using this

lemma exists_nat_of_mulOfUnit_nonneg {p : ℕ} {x : ℚ} (hm : MulOfUnit p x) (hx : 0 ≤ x) :
    ∃ k : ℕ, x = k * unitQ p := by
  rw [mulOfUnit_iff] at hm
  obtain ⟨z, rfl⟩ := hm
  have hp : (0 : ℚ) < 10 ^ p := by positivity
  have hz : 0 ≤ z := by
    by_contra hneg
    push_neg at hneg
    have : (z : ℚ) < 0 := by exact_mod_cast hneg
    have : (z : ℚ) / 10 ^ p < 0 := div_neg_of_neg_of_pos this hp
    linarith
  refine ⟨z.toNat, ?_⟩
  rw [unitQ]
  have : ((z.toNat : ℤ) : ℚ) = (z : ℚ) := by
    congr 1
    exact Int.toNat_of_nonneg hz
  push_cast at this ⊢
  rw [this]
  field_simp

lemma ceil_div_of_mul {p : ℕ} {x : ℚ} {k : ℕ} (hx : x = k * unitQ p) :
    ⌈x / unitQ p⌉.toNat = k := by
  have hu : unitQ p ≠ 0 := ne_of_gt (unitQ_pos p)
  rw [hx]
  rw [mul_div_assoc, div_self hu, mul_one]
  rw [Int.ceil_natCast]
  exact Int.toNat_natCast k

/-- Disjoint Boolean filters split a mapped sum. -/
lemma sum_map_filter_or {α : Type} (f : α → ℚ) (P Q : α → Bool) :
    ∀ l : List α, (∀ a ∈ l, ¬(P a = true ∧ Q a = true)) →
      ((l.filter fun a => P a || Q a).map f).sum
        = ((l.filter P).map f).sum + ((l.filter Q).map f).sum := by
  intro l
  induction l with
  | nil => intro _; simp
  | cons a t ih =>
      intro hd
      have ht := ih (fun x hx => hd x (List.mem_cons_of_mem _ hx))
      by_cases hP : P a = true
      · have hQ : Q a = false := by
          by_contra hc
          exact hd a (List.mem_cons_self _ _) ⟨hP, by simpa using hc⟩
        rw [List.filter_cons_of_pos (by simp [hP]), List.filter_cons_of_pos hP,
          List.filter_cons_of_neg (by simp [hQ])]
        simp only [List.map_cons, List.sum_cons]
        rw [ht]; ring
      · have hP2 : P a = false := by simpa using hP
        by_cases hQ : Q a = true
        · rw [List.filter_cons_of_pos (by simp [hP2, hQ]), List.filter_cons_of_pos hQ,
            List.filter_cons_of_neg (by simp [hP2])]
          simp only [List.map_cons, List.sum_cons]
          rw [ht]; ring
        · have hQ2 : Q a = false := by simpa using hQ
          rw [List.filter_cons_of_neg (by simp [hP2, hQ2]),
            List.filter_cons_of_neg (by simp [hP2]),
            List.filter_cons_of_neg (by simp [hQ2])]
          exact ht

/-- Over a list with pairwise-distinct indices, filtering on one present index
isolates exactly that element. -/
lemma sum_map_filter_single (f : slackItem → ℚ) (g : ℕ → ℚ) :
    ∀ (A : List slackItem), A.Pairwise (fun a b => a.idx ≠ b.idx) →
      (∀ si ∈ A, f si = g si.idx) →
      ∀ j : ℕ, (∃ si ∈ A, si.idx = j) →
      ((A.filter fun si => decide (si.idx = j)).map f).sum = g j := by
  intro A
  induction A with
  | nil => intro _ _ j hex; simp at hex
  | cons a t ih =>
      intro hpw hfg j hex
      have hhead := (List.pairwise_cons.mp hpw).1
      by_cases ha : a.idx = j
      · have hempty : t.filter (fun si => decide (si.idx = j)) = [] := by
          apply List.filter_eq_nil_iff.mpr
          intro x hx
          simp only [decide_eq_true_eq]
          intro hc
          exact hhead x hx (by rw [ha, hc])
        rw [List.filter_cons_of_pos (by simp [ha]), hempty]
        simp only [List.map_cons, List.map_nil, List.sum_cons, List.sum_nil]
        rw [hfg a (List.mem_cons_self _ _), ha]
        ring
      · rw [List.filter_cons_of_neg (by simp [ha])]
        apply ih (List.pairwise_cons.mp hpw).2
          (fun x hx => hfg x (List.mem_cons_of_mem _ hx)) j
        obtain ⟨si, hsi, rfl⟩ := hex
        rcases List.mem_cons.mp hsi with h | h
        · exact absurd rfl (h ▸ ha)
        · exact ⟨si, h, rfl⟩

/-- Sum over the elements whose index lies in a duplicate-free index list
equals the sum over that index list. -/
lemma sum_map_filter_mem (f : slackItem → ℚ) (g : ℕ → ℚ) :
    ∀ (z : List ℕ) (A : List slackItem), z.Nodup →
      A.Pairwise (fun a b => a.idx ≠ b.idx) →
      (∀ si ∈ A, f si = g si.idx) →
      (∀ j ∈ z, ∃ si ∈ A, si.idx = j) →
      ((A.filter fun si => decide (si.idx ∈ z)).map f).sum = (z.map g).sum := by
  intro z
  induction z with
  | nil => intro A _ _ _ _; simp
  | cons j z2 ih =>
      intro A hnd hpw hfg hz
      have hnj : j ∉ z2 := (List.nodup_cons.mp hnd).1
      have hfe : A.filter (fun si => decide (si.idx ∈ j :: z2))
          = A.filter (fun si => decide (si.idx = j) || decide (si.idx ∈ z2)) := by
        apply List.filter_congr
        intro x _
        simp [List.mem_cons]
      rw [hfe, sum_map_filter_or _ _ _ A ?disj]
      case disj =>
        intro a _ hc
        rcases hc with ⟨h1, h2⟩
        rw [decide_eq_true_eq] at h1 h2
        exact hnj (h1 ▸ h2)
      rw [sum_map_filter_single f g A hpw hfg j (hz j (List.mem_cons_self _ _))]
      rw [ih A (List.nodup_cons.mp hnd).2 hpw hfg
        (fun x hx => hz x (List.mem_cons_of_mem _ hx))]
      simp only [List.map_cons, List.sum_cons]

/-- A sum of terms that vanish off a predicate and are strictly below `u` on it
is strictly below `count * u` when the count is positive. -/
lemma sum_lt_countP_mul (u : ℚ) (hu : 0 < u) (term : slackItem → ℚ) (P : slackItem → Bool) :
    ∀ l : List slackItem,
      (∀ a ∈ l, (P a = true → term a < u) ∧ (P a = false → term a = 0)) →
      ((l.map term).sum ≤ (l.countP P) * u ∧
        (l.countP P ≠ 0 → (l.map term).sum < (l.countP P) * u)) := by
  intro l
  induction l with
  | nil => intro _; simp
  | cons a t ih =>
      intro hl
      obtain ⟨iht, ihs⟩ := ih (fun x hx => hl x (List.mem_cons_of_mem _ hx))
      have ha := hl a (List.mem_cons_self _ _)
      by_cases hPa : P a = true
      · have hta := ha.1 hPa
        rw [List.countP_cons, if_pos (by simp [hPa])]
        simp only [List.map_cons, List.sum_cons]
        push_cast
        constructor
        · nlinarith
        · intro _
          nlinarith
      · have hPa2 : P a = false := by simpa using hPa
        have hta := ha.2 hPa2
        rw [List.countP_cons, if_neg (by simp [hPa2])]
        simp only [List.map_cons, List.sum_cons, hta, zero_add, Nat.add_zero]
        exact ⟨iht, ihs⟩

lemma slackAux_mem_of :
    ∀ (l : List (ℚ × ℚ)) (k j : ℕ), j < l.length →
      ¬ ((l.getD j (0, 0)).1 ≠ 0 ∧ (l.getD j (0, 0)).2 ≠ 0 ∧
        (l.getD j (0, 0)).1 < (l.getD j (0, 0)).2) →
      (l.getD j (0, 0)).1 ≠ 0 →
      (⟨k + j, (l.getD j (0, 0)).1 - (l.getD j (0, 0)).2, (l.getD j (0, 0)).2⟩ : slackItem)
        ∈ slackAux l k := by
  intro l
  induction l with
  | nil => intro k j hj; simp at hj
  | cons it rest ih =>
      intro k j hj h1 h2
      rw [slackAux, List.mem_append]
      cases j with
      | zero =>
          left
          rw [if_neg ?hc]
          case hc =>
            push_neg
            constructor
            · simpa [List.getD] using h1
            · simpa [List.getD] using h2
          simp [List.getD] at h1 h2 ⊢
      | succ j2 =>
          right
          have := ih (k + 1) j2 (by simpa using hj) (by simpa [List.getD] using h1)
            (by simpa [List.getD] using h2)
          have harith : k + 1 + j2 = k + (j2 + 1) := by omega
          rw [harith] at this
          simpa [List.getD] using this

lemma mem_slackItemsOf_of {items : List (ℚ × ℚ)} {i : ℕ}
    (hi : i < items.length) (hnv : ¬ violAt items i) (hg : itemGross items i ≠ 0) :
    (⟨i, itemGross items i - itemReq items i, itemReq items i⟩ : slackItem)
      ∈ slackItemsOf items := by
  have := slackAux_mem_of items 0 i hi (by rw [violAt] at hnv; exact hnv) hg
  simpa [itemGross, itemReq] using this

lemma getD_nonneg {l : List ℚ} (h : ∀ x ∈ l, 0 ≤ x) (i : ℕ) : 0 ≤ l.getD i 0 := by
  by_cases hi : i < l.length
  · exact h _ (getD_mem_of_lt hi 0)
  · rw [List.getD_eq_default _ _ (le_of_not_lt hi)]

lemma truncQ_zero (p : ℕ) : truncQ p 0 = 0 := truncQ_eq_self (mulOfUnit_zero p)

lemma zip_self_map {α β : Type} (f : α → β) :
    ∀ l : List α, l.zip (l.map f) = l.map fun a => (a, f a) := by
  intro l
  induction l with
  | nil => rfl
  | cons a t ih => simp only [List.map_cons, List.zip_cons_cons, ih]

lemma sum_map_mul_right {α : Type} (c : ℚ) (f : α → ℚ) :
    ∀ l : List α, (l.map fun a => f a * c).sum = (l.map f).sum * c := by
  intro l
  induction l with
  | nil => simp
  | cons a t ih => simp only [List.map_cons, List.sum_cons, ih]; ring

section RepairMaster

variable {p : ℕ} {items : List (ℚ × ℚ)} {gross : List ℚ}

/-- The invariant holds after folding the sorted violations from the initial
state used by repairCore. -/
lemma repair_end_inv
    (hLen : items.length ≤ gross.length)
    (hG : ∀ i, i < items.length → itemGross items i = gross.getD i 0)
    (hGross : ∀ x ∈ gross, 0 ≤ x ∧ MulOfUnit p x)
    (hReq : ∀ it ∈ items, 0 ≤ it.2 ∧ MulOfUnit p it.2) :
    RepairInv p items gross
      ((List.insertionSort (fun v w => v.bump ≤ w.bump) (violationsOf items)).foldl
        (repairStep items
          (List.insertionSort (fun a b => a.reqGross ≤ b.reqGross) (slackItemsOf items)))
        ⟨gross, [], ((slackItemsOf items).map (·.safeSlack)).sum, 0⟩) := by
  have hperm := List.perm_insertionSort (fun v w => v.bump ≤ w.bump) (violationsOf items)
  have hpermz := List.perm_insertionSort (fun a b => a.reqGross ≤ b.reqGross)
    (slackItemsOf items)
  apply repairFold_inv hLen hG hGross hReq
  · intro si hsi
    exact hpermz.mem_iff.mp hsi
  · exact (hpermz.pairwise_iff (fun h => h.symm)).mpr (slackItemsOf_pairwise items)
  · exact repairInv_init hLen hG hGross hReq
  · apply (hperm.pairwise_iff (fun h => h.symm)).mpr
    exact (violationsAux_pairwise items 0).imp fun h => Nat.ne_of_lt h
  · intro v hv
    obtain ⟨hidx, hviol, hbump⟩ := mem_violationsOf (hperm.mem_iff.mp hv)
    exact ⟨hidx, hviol, hbump, (hG v.idx hidx).symm⟩

/-- An invariant state has a nonnegative result everywhere. -/
lemma inv_result_nonneg
    (hLen : items.length ≤ gross.length)
    (hG : ∀ i, i < items.length → itemGross items i = gross.getD i 0)
    (hGross : ∀ x ∈ gross, 0 ≤ x ∧ MulOfUnit p x)
    (hReq : ∀ it ∈ items, 0 ≤ it.2 ∧ MulOfUnit p it.2)
    {s : repairState} (hInv : RepairInv p items gross s) :
    ∀ i, 0 ≤ s.result.getD i 0 := by
  intro i
  by_cases hi : i < items.length
  · by_cases hv : violAt items i
    · rcases hInv.violKeep i hi hv with h | h
      · rw [h]; exact (itemGross_nonneg_mul hLen hG hGross hi).1
      · rw [h]; exact (itemReq_nonneg_mul hReq i).1
    · by_cases hz : i ∈ s.zeroed
      · rw [hInv.zeroedZero i hz]
      · rw [hInv.nonviolKeep i hi hv hz]
        exact (itemGross_nonneg_mul hLen hG hGross hi).1
  · rw [hInv.beyond i (le_of_not_lt hi)]
    exact getD_nonneg (fun x hx => (hGross x hx).1) i

/-- An invariant state is safe for every non-violating index. -/
lemma inv_result_safe
    (hLen : items.length ≤ gross.length)
    (hG : ∀ i, i < items.length → itemGross items i = gross.getD i 0)
    (hGross : ∀ x ∈ gross, 0 ≤ x ∧ MulOfUnit p x)
    (hReq : ∀ it ∈ items, 0 ≤ it.2 ∧ MulOfUnit p it.2)
    {s : repairState} (hInv : RepairInv p items gross s) :
    ∀ i, i < items.length → ¬ violAt items i →
      s.result.getD i 0 = 0 ∨ itemReq items i ≤ s.result.getD i 0 := by
  intro i hi hnv
  by_cases hz : i ∈ s.zeroed
  · left; exact hInv.zeroedZero i hz
  · rw [hInv.nonviolKeep i hi hnv hz]
    rw [violAt] at hnv
    push_neg at hnv
    by_cases hg : itemGross items i = 0
    · left; exact hg
    · right
      by_cases hr : itemReq items i = 0
      · rw [hr]; exact (itemGross_nonneg_mul hLen hG hGross hi).1
      · exact hnv hg hr

/-- Safety of the unmodified input at a non-violating index. -/
lemma gross_safe
    (hLen : items.length ≤ gross.length)
    (hG : ∀ i, i < items.length → itemGross items i = gross.getD i 0)
    (hGross : ∀ x ∈ gross, 0 ≤ x ∧ MulOfUnit p x) :
    ∀ i, i < items.length → ¬ violAt items i →
      gross.getD i 0 = 0 ∨ itemReq items i ≤ gross.getD i 0 := by
  intro i hi hnv
  rw [violAt] at hnv
  push_neg at hnv
  rw [← hG i hi]
  by_cases hg : itemGross items i = 0
  · left; exact hg
  · right
    by_cases hr : itemReq items i = 0
    · rw [hr]; exact (itemGross_nonneg_mul hLen hG hGross hi).1
    · exact hnv hg hr

lemma sum_map_sub {α : Type} (f g : α → ℚ) :
    ∀ l : List α, (l.map fun a => f a - g a).sum = (l.map f).sum - (l.map g).sum := by
  intro l
  induction l with
  | nil => simp
  | cons a t ih => simp only [List.map_cons, List.sum_cons, ih]; ring

end RepairMaster

/-- Master specification of the repair engine body: the total is preserved
exactly, the length is preserved, every entry stays nonnegative, and no
previously non-violating entry ends below its required minimum unless it is
zeroed out entirely. -/
theorem repairCore_spec (p : ℕ) (items : List (ℚ × ℚ)) (gross : List ℚ)
    (hLen : items.length ≤ gross.length)
    (hG : ∀ i, i < items.length → itemGross items i = gross.getD i 0)
    (hGross : ∀ x ∈ gross, 0 ≤ x ∧ MulOfUnit p x)
    (hReq : ∀ it ∈ items, 0 ≤ it.2 ∧ MulOfUnit p it.2) :
    (repairCore p items gross).sum = gross.sum ∧
    (repairCore p items gross).length = gross.length ∧
    (∀ i, 0 ≤ (repairCore p items gross).getD i 0) ∧
    (∀ i, i < items.length → ¬ violAt items i →
      (repairCore p items gross).getD i 0 = 0 ∨
        itemReq items i ≤ (repairCore p items gross).getD i 0) := by
  by_cases h1 : violationsOf items = []
  · have hre : repairCore p items gross = gross := by
      simp only [repairCore]
      rw [if_pos h1]
    rw [hre]
    exact ⟨rfl, rfl, getD_nonneg (fun x hx => (hGross x hx).1),
      gross_safe hLen hG hGross⟩
  by_cases h2 : slackItemsOf items = []
  · have hre : repairCore p items gross = gross := by
      simp only [repairCore]
      rw [if_neg h1, if_pos h2]
    rw [hre]
    exact ⟨rfl, rfl, getD_nonneg (fun x hx => (hGross x hx).1),
      gross_safe hLen hG hGross⟩
  set vs := List.insertionSort (fun v w => v.bump ≤ w.bump) (violationsOf items) with hvs
  set zs := List.insertionSort (fun a b => a.reqGross ≤ b.reqGross) (slackItemsOf items)
    with hzs
  set s := vs.foldl (repairStep items zs)
    ⟨gross, [], ((slackItemsOf items).map (·.safeSlack)).sum, 0⟩ with hsdef
  have hInv : RepairInv p items gross s := repair_end_inv hLen hG hGross hReq
  have hreslen : s.result.length = gross.length := hInv.len
  have hresnn := inv_result_nonneg hLen hG hGross hReq hInv
  have hressafe := inv_result_safe hLen hG hGross hReq hInv
  by_cases h3 : s.totalBumpUsed = 0
  · have hre : repairCore p items gross = gross := by
      simp only [repairCore]
      rw [if_neg h1, if_neg h2, ← hvs, ← hzs, ← hsdef, if_pos h3]
    rw [hre]
    exact ⟨rfl, rfl, getD_nonneg (fun x hx => (hGross x hx).1),
      gross_safe hLen hG hGross⟩
  -- shared end-state bookkeeping
  have hZfacts : ∀ j ∈ s.zeroed, j < items.length ∧ ¬ violAt items j ∧
      itemGross items j ≠ 0 := by
    intro j hj
    obtain ⟨si, hsi, hidx, _⟩ := hInv.zeroedSlack j hj
    obtain ⟨ha, hb, hc, _, _⟩ := mem_slackItemsOf hsi
    exact ⟨hidx ▸ ha, hidx ▸ hb, hidx ▸ hc⟩
  have hzcmul : MulOfUnit p ((s.zeroed.map (itemGross items)).sum) := by
    apply mulOfUnit_list_sum
    intro x hx
    obtain ⟨j, hj, rfl⟩ := List.mem_map.mp hx
    exact (itemGross_nonneg_mul hLen hG hGross (hZfacts j hj).1).2
  set N := s.totalBumpUsed - (s.zeroed.map (itemGross items)).sum with hN
  have hNmul : MulOfUnit p N := hInv.bumpMul.sub hzcmul
  set redist := (slackItemsOf items).filter (fun si => decide (si.idx ∉ s.zeroed))
    with hredist
  have hrp : redist.Pairwise (fun a b => a.idx ≠ b.idx) :=
    (slackItemsOf_pairwise items).filter _
  have hrmem : ∀ si ∈ redist, si ∈ slackItemsOf items ∧ si.idx ∉ s.zeroed := by
    intro si hsi
    have h := List.mem_filter.mp hsi
    exact ⟨h.1, by simpa using h.2⟩
  set S := (redist.map (·.safeSlack)).sum with hS
  have hslackfg : ∀ si ∈ slackItemsOf items,
      si.safeSlack = itemGross items si.idx - itemReq items si.idx := by
    intro si hsi
    exact (mem_slackItemsOf hsi).2.2.2.1
  have hSsplit : S = ((slackItemsOf items).map (·.safeSlack)).sum
      - (s.zeroed.map fun j => itemGross items j - itemReq items j).sum := by
    have hcompl : redist
        = (slackItemsOf items).filter (fun si => !(decide (si.idx ∈ s.zeroed))) := by
      rw [hredist]
      apply List.filter_congr
      intro x _
      simp
    have hsplit := sum_map_filter_split (fun si => si.safeSlack)
      (fun si => decide (si.idx ∈ s.zeroed)) (slackItemsOf items)
    have hmemz := sum_map_filter_mem (fun si => si.safeSlack)
      (fun j => itemGross items j - itemReq items j) s.zeroed (slackItemsOf items)
      hInv.zeroedNodup (slackItemsOf_pairwise items)
      (fun si hsi => hslackfg si hsi)
      (fun j hj => by
        obtain ⟨si, hsi, hidx, _⟩ := hInv.zeroedSlack j hj
        exact ⟨si, hsi, hidx⟩)
    rw [hS, hcompl]
    rw [← hsplit, hmemz]
    ring
  have hzRsum : (s.zeroed.map fun j => itemGross items j - itemReq items j).sum
      = (s.zeroed.map (itemGross items)).sum - (s.zeroed.map (itemReq items)).sum := by
    induction s.zeroed with
    | nil => simp
    | cons a t ih => simp only [List.map_cons, List.sum_cons, ih]; ring
  have hSN : S - N = s.remainingSlack := by
    rw [hSsplit, hzRsum, hN, hInv.pool]
    ring
  have hNS : N ≤ S := by
    have := hInv.poolNonneg
    linarith
  by_cases h4 : 0 < N
  · -- pro-rata reduction branch
    have hSpos : 0 < S := lt_of_lt_of_le h4 hNS
    set f := fun si : slackItem => truncQ p (si.safeSlack / S * N) with hf
    have hzip : redist.zip (redist.map f) = redist.map (fun si => (si, f si)) :=
      zip_self_map f redist
    set base2 := applyReductions s.result (redist.map fun si => (si, f si)) with hbase2
    have hrlt : ∀ si ∈ redist, si.idx < s.result.length := by
      intro si hsi
      rw [hreslen]
      exact lt_of_lt_of_le (mem_slackItemsOf (hrmem si hsi).1).1 hLen
    obtain ⟨halen, hakeep, haval, hasum⟩ := applyReductions_spec redist f s.result hrp hrlt
    have hsifacts : ∀ si ∈ redist, 0 ≤ si.safeSlack ∧ MulOfUnit p si.safeSlack :=
      fun si hsi => safeSlack_nonneg_mul hLen hG hGross hReq (hrmem si hsi).1
    have hargfacts : ∀ si ∈ redist,
        0 ≤ si.safeSlack / S * N ∧ si.safeSlack / S * N ≤ si.safeSlack := by
      intro si hsi
      have h0 := (hsifacts si hsi).1
      constructor
      · have : 0 ≤ si.safeSlack / S := div_nonneg h0 hSpos.le
        exact mul_nonneg this h4.le
      · have h5 : si.safeSlack / S * N ≤ si.safeSlack / S * S :=
          mul_le_mul_of_nonneg_left hNS (div_nonneg h0 hSpos.le)
        rwa [div_mul_cancel₀ _ (ne_of_gt hSpos)] at h5
    have hfle : ∀ si ∈ redist, f si ≤ si.safeSlack := by
      intro si hsi
      exact le_trans (@truncQ_le p _ (hargfacts si hsi).1) (hargfacts si hsi).2
    have hfnn : ∀ si ∈ redist, 0 ≤ f si :=
      fun si hsi => truncQ_nonneg (hargfacts si hsi).1
    have hargsum : (redist.map fun si => si.safeSlack / S * N).sum = N := by
      have hcg : (redist.map fun si => si.safeSlack / S * N)
          = redist.map fun si => si.safeSlack * (N / S) := by
        apply List.map_congr_left
        intro si _
        field_simp
      rw [hcg, sum_map_mul_right, ← hS]
      field_simp
    set residual := N - (redist.map f).sum with hresid
    have hresidual_eq : residual
        = (redist.map fun si => si.safeSlack / S * N - f si).sum := by
      rw [hresid, sum_map_sub, hargsum]
    have hresid_nn : 0 ≤ residual := by
      rw [hresidual_eq]
      apply List.sum_nonneg
      intro x hx
      obtain ⟨si, hsi, rfl⟩ := List.mem_map.mp hx
      have := @truncQ_le p _ (hargfacts si hsi).1
      simp only [hf]
      linarith
    have hresidmul : MulOfUnit p residual := by
      rw [hresid]
      apply hNmul.sub
      apply mulOfUnit_list_sum
      intro x hx
      obtain ⟨si, _, rfl⟩ := List.mem_map.mp hx
      exact mulOfUnit_truncQ p _
    obtain ⟨k, hk⟩ := exists_nat_of_mulOfUnit_nonneg hresidmul hresid_nn
    have hbase2getD : ∀ si ∈ redist, base2.getD si.idx 0
        = itemGross items si.idx - f si := by
      intro si hsi
      rw [hbase2, haval si hsi]
      congr 1
      exact hInv.nonviolKeep si.idx (mem_slackItemsOf (hrmem si hsi).1).1
        (mem_slackItemsOf (hrmem si hsi).1).2.1 (hrmem si hsi).2
    have hbase2ge : ∀ si ∈ redist,
        itemReq items si.idx ≤ base2.getD si.idx 0 := by
      intro si hsi
      rw [hbase2getD si hsi]
      have h5 := hfle si hsi
      have h6 := hslackfg si (hrmem si hsi).1
      linarith
    have hcount : k ≤ redist.countP
        (fun si => decide (unitQ p ≤ base2.getD si.idx 0 - itemReq items si.idx)) := by
      by_cases hNSeq : N = S
      · have hfeq : ∀ si ∈ redist, f si = si.safeSlack := by
          intro si hsi
          rw [hf]
          simp only
          rw [hNSeq, div_mul_cancel₀ _ (ne_of_gt hSpos)]
          exact truncQ_eq_self (hsifacts si hsi).2
        have hres0 : residual = 0 := by
          rw [hresid, List.map_congr_left hfeq, ← hS, hNSeq]
          ring
        have hk0 : k = 0 := by
          by_contra hkne
          have hk1 : 1 ≤ k := Nat.one_le_iff_ne_zero.mpr hkne
          have : (1 : ℚ) ≤ (k : ℚ) := by exact_mod_cast hk1
          have := unitQ_pos p
          nlinarith [hk ▸ hres0]
        rw [hk0]
        exact Nat.zero_le _
      · have hNltS : N < S := lt_of_le_of_ne hNS hNSeq
        have helig : ∀ si ∈ redist, 0 < si.safeSlack →
            unitQ p ≤ base2.getD si.idx 0 - itemReq items si.idx := by
          intro si hsi hpos
          rw [hbase2getD si hsi]
          have hlt : f si < si.safeSlack := by
            apply lt_of_le_of_lt (truncQ_le (hargfacts si hsi).1)
            have : si.safeSlack / S * N < si.safeSlack / S * S :=
              mul_lt_mul_of_pos_left hNltS (div_pos hpos hSpos)
            rwa [div_mul_cancel₀ _ (ne_of_gt hSpos)] at this
          have hle := add_unit_le_of_lt (mulOfUnit_truncQ p _) (hsifacts si hsi).2 hlt
          have h6 := hslackfg si (hrmem si hsi).1
          linarith
        have hmct : redist.countP (fun si => decide (0 < si.safeSlack))
            ≤ redist.countP (fun si =>
              decide (unitQ p ≤ base2.getD si.idx 0 - itemReq items si.idx)) := by
          apply List.countP_mono_left
          intro x hx hpx
          rw [decide_eq_true_eq] at hpx ⊢
          exact helig x hx hpx
        have hmne : redist.countP (fun si => decide (0 < si.safeSlack)) ≠ 0 := by
          intro h0
          rw [List.countP_eq_zero] at h0
          have hS0 : S = 0 := by
            rw [hS]
            apply List.sum_eq_zero
            intro x hx
            obtain ⟨si, hsi, rfl⟩ := List.mem_map.mp hx
            have := h0 si hsi
            rw [decide_eq_true_eq] at this
            push_neg at this
            exact le_antisymm this (hsifacts si hsi).1
          linarith
        have hterm : ∀ a ∈ redist,
            ((fun si => decide (0 < si.safeSlack)) a = true →
              (fun si => si.safeSlack / S * N - f si) a < unitQ p) ∧
            ((fun si => decide (0 < si.safeSlack)) a = false →
              (fun si => si.safeSlack / S * N - f si) a = 0) := by
          intro a ha
          constructor
          · intro _
            simp only [hf]
            have := @lt_truncQ_add_unit p _ (hargfacts a ha).1
            linarith
          · intro hfalse
            simp only [decide_eq_true_eq] at hfalse
            have ha0 : a.safeSlack = 0 := by
              have h6 := (hsifacts a ha).1
              have : ¬ 0 < a.safeSlack := by simpa using hfalse
              linarith
            simp only [hf, ha0]
            rw [zero_div, zero_mul, truncQ_zero]
            ring
        have hstrict := (sum_lt_countP_mul (unitQ p) (unitQ_pos p)
          (fun si => si.safeSlack / S * N - f si)
          (fun si => decide (0 < si.safeSlack)) redist hterm).2 hmne
        have hkm : k < redist.countP (fun si => decide (0 < si.safeSlack)) := by
          have hru : residual < (redist.countP (fun si => decide (0 < si.safeSlack))) * unitQ p := by
            rw [hresidual_eq]
            exact hstrict
          rw [hk] at hru
          have hupos := unitQ_pos p
          by_contra hcon
          push_neg at hcon
          have : ((redist.countP (fun si => decide (0 < si.safeSlack)) : ℚ)) ≤ (k : ℚ) := by
            exact_mod_cast hcon
          nlinarith
        omega
    obtain ⟨hplen, hpsum, hpkeep, hpval, hpres⟩ := residualPass_spec (unitQ p)
      (unitQ_pos p) redist base2 residual hrp
      (fun si hsi => by rw [hbase2, halen]; exact hrlt si hsi)
    have hres0 := hpres k hk hcount
    have hre : repairCore p items gross
        = (residualPass items (unitQ p) redist base2 residual).1 := by
      simp only [repairCore]
      rw [if_neg h1, if_neg h2, ← hvs, ← hzs, ← hsdef, if_neg h3, ← hN, ← hredist, ← hS,
        ← hf, hzip, ← hbase2, ← hresid, if_pos h4, if_pos hSpos]
    rw [hre]
    refine ⟨?_, ?_, ?_, ?_⟩
    · rw [hpsum, hres0, hbase2, hasum, hInv.total, hresid, hN]
      ring
    · rw [hplen, hbase2, halen, hreslen]
    · intro i
      by_cases hmem : ∃ si ∈ redist, si.idx = i
      · obtain ⟨si, hsi, rfl⟩ := hmem
        have h5 := hbase2ge si hsi
        have h6 := (itemReq_nonneg_mul hReq si.idx).1
        rcases hpval si hsi with h | ⟨hcond, h⟩
        · rw [h]; linarith
        · rw [h]; linarith
      · push_neg at hmem
        rw [hpkeep i (fun si hsi => hmem si hsi), hbase2,
          hakeep i (fun si hsi => hmem si hsi)]
        exact hresnn i
    · intro i hi hnv
      by_cases hz : i ∈ s.zeroed
      · left
        have hnot : ∀ si ∈ redist, si.idx ≠ i := by
          intro si hsi hc
          exact (hrmem si hsi).2 (hc ▸ hz)
        rw [hpkeep i hnot, hbase2, hakeep i hnot]
        exact hInv.zeroedZero i hz
      · by_cases hg : itemGross items i = 0
        · left
          have hnot : ∀ si ∈ redist, si.idx ≠ i := by
            intro si hsi hc
            exact (mem_slackItemsOf (hrmem si hsi).1).2.2.1 (by rw [hc]; exact hg)
          rw [hpkeep i hnot, hbase2, hakeep i hnot]
          rw [hInv.nonviolKeep i hi hnv hz]
          exact hg
        · right
          have hsimem : (⟨i, itemGross items i - itemReq items i, itemReq items i⟩ :
              slackItem) ∈ redist := by
            rw [hredist]
            apply List.mem_filter.mpr
            exact ⟨mem_slackItemsOf_of hi hnv hg, by simpa using hz⟩
          have h5 := hbase2ge _ hsimem
          rcases hpval _ hsimem with h | ⟨hcond, h⟩
          · rw [h]; exact h5
          · rw [h]
            simp only at hcond h ⊢
            linarith
  by_cases h5 : N < 0
  · -- refund branch
    set fixedIdxs := vs.filterMap (fun v =>
      if s.result.getD v.idx 0 = itemReq items v.idx then some v.idx else none)
      with hfix
    have hperm := List.perm_insertionSort (fun v w => v.bump ≤ w.bump) (violationsOf items)
    have hfixmem : ∀ j ∈ fixedIdxs, j < items.length ∧ violAt items j ∧
        s.result.getD j 0 = itemReq items j := by
      intro j hj
      rw [hfix] at hj
      obtain ⟨v, hv, hveq⟩ := List.mem_filterMap.mp hj
      by_cases hc : s.result.getD v.idx 0 = itemReq items v.idx
      · rw [if_pos hc, Option.some_inj] at hveq
        subst hveq
        obtain ⟨hidx, hviol, _⟩ := mem_violationsOf (hperm.mem_iff.mp hv)
        exact ⟨hidx, hviol, hc⟩
      · rw [if_neg hc] at hveq
        exact absurd hveq (by simp)
    have hfixne : fixedIdxs ≠ [] := by
      obtain ⟨i, hi, hviol, hires⟩ := hInv.fixedExists h3
      have hv0 : (⟨i, itemReq items i - itemGross items i⟩ : violationItem) ∈ vs :=
        hperm.mem_iff.mpr (mem_violationsOf_of_violAt hi hviol)
      intro hnil
      have : i ∈ fixedIdxs := by
        rw [hfix]
        apply List.mem_filterMap.mpr
        exact ⟨_, hv0, by rw [if_pos hires]⟩
      rw [hnil] at this
      exact absurd this (List.not_mem_nil i)
    have hNneg : 0 < -N := by linarith
    obtain ⟨k, hk⟩ := exists_nat_of_mulOfUnit_nonneg hNmul.neg hNneg.le
    have htk : ⌈(-N) / unitQ p⌉.toNat = k := ceil_div_of_mul hk
    have hfixlt : ∀ j ∈ fixedIdxs, j < s.result.length := by
      intro j hj
      rw [hreslen]
      exact lt_of_lt_of_le (hfixmem j hj).1 hLen
    obtain ⟨hulen, husum, hukeep, humono⟩ := addUnitsAux_spec (unitQ p) (unitQ_pos p).le
      fixedIdxs hfixne ⌈(-N) / unitQ p⌉.toNat fixedIdxs s.result hfixlt (fun j hj => hj)
    have hre : repairCore p items gross
        = addUnitsAux (unitQ p) fixedIdxs s.result fixedIdxs ⌈(-N) / unitQ p⌉.toNat := by
      simp only [repairCore]
      rw [if_neg h1, if_neg h2, ← hvs, ← hzs, ← hsdef, if_neg h3, ← hN,
        if_neg (by linarith : ¬ 0 < N), if_pos h5, ← hfix, if_neg hfixne]
    rw [hre]
    refine ⟨?_, ?_, ?_, ?_⟩
    · rw [husum, htk, hInv.total]
      have hknu : (k : ℚ) * unitQ p = -N := hk.symm
      rw [hN] at hknu
      linarith
    · rw [hulen, hreslen]
    · intro i
      exact le_trans (hresnn i) (humono i)
    · intro i hi hnv
      have hnotfix : i ∉ fixedIdxs := by
        intro hc
        exact hnv (hfixmem i hc).2.1
      rcases hressafe i hi hnv with h | h
      · left
        rw [hukeep i hnotfix]
        exact h
      · right
        rw [hukeep i hnotfix]
        exact h
  · -- stillNeeded = 0
    have hN0 : N = 0 := by linarith
    have hre : repairCore p items gross = s.result := by
      simp only [repairCore]
      rw [if_neg h1, if_neg h2, ← hvs, ← hzs, ← hsdef, if_neg h3, ← hN,
        if_neg h4, if_neg h5]
    rw [hre]
    refine ⟨?_, hreslen, hresnn, hressafe⟩
    rw [hInv.total]
    have : s.totalBumpUsed - (s.zeroed.map (itemGross items)).sum = 0 := by
      rw [← hN]; exact hN0
    linarith

/-!
## Specification of repairViolations itself
-/

lemma reqGross_shape (p : ℕ) (rn dv : ℚ) :
    0 ≤ (if 0 < rn then if 0 < dv then ceilToPrec (rn / dv) p else 0 else 0) ∧
    MulOfUnit p (if 0 < rn then if 0 < dv then ceilToPrec (rn / dv) p else 0 else 0) := by
  by_cases h1 : 0 < rn
  · rw [if_pos h1]
    by_cases h2 : 0 < dv
    · rw [if_pos h2]
      exact ⟨ceilToPrec_nonneg _ (div_nonneg h1.le h2.le), mulOfUnit_ceilToPrec _ p⟩
    · rw [if_neg h2]; exact ⟨le_refl 0, mulOfUnit_zero p⟩
  · rw [if_neg h1]; exact ⟨le_refl 0, mulOfUnit_zero p⟩

lemma reqGrossOf_nonneg_mul (p : ℕ) (a : productAlloc) :
    0 ≤ reqGrossOf p a ∧ MulOfUnit p (reqGrossOf p a) := by
  rw [reqGrossOf]
  split <;> split <;> exact reqGross_shape p _ _

lemma itemsOf_cons (p : ℕ) (a : productAlloc) (as : List productAlloc)
    (g : ℚ) (gs : List ℚ) :
    itemsOf p (a :: as) (g :: gs) = (g, reqGrossOf p a) :: itemsOf p as gs := rfl

lemma itemsOf_length_le (p : ℕ) :
    ∀ (allocs : List productAlloc) (gross : List ℚ),
      (itemsOf p allocs gross).length ≤ gross.length := by
  intro allocs
  induction allocs with
  | nil => intro gross; simp [itemsOf]
  | cons a as ih =>
      intro gross
      cases gross with
      | nil => simp [itemsOf]
      | cons g gs =>
          rw [itemsOf_cons]
          simpa using ih gs

lemma itemsOf_gross (p : ℕ) :
    ∀ (allocs : List productAlloc) (gross : List ℚ) (i : ℕ),
      i < (itemsOf p allocs gross).length →
      itemGross (itemsOf p allocs gross) i = gross.getD i 0 := by
  intro allocs
  induction allocs with
  | nil => intro gross i hi; simp [itemsOf] at hi
  | cons a as ih =>
      intro gross i hi
      cases gross with
      | nil => simp [itemsOf] at hi
      | cons g gs =>
          rw [itemsOf_cons] at hi ⊢
          cases i with
          | zero => simp [itemGross, List.getD]
          | succ j =>
              have := ih gs j (by simpa using hi)
              simpa [itemGross, List.getD] using this

lemma itemsOf_req_mem (p : ℕ) (allocs : List productAlloc) (gross : List ℚ) :
    ∀ it ∈ itemsOf p allocs gross, 0 ≤ it.2 ∧ MulOfUnit p it.2 := by
  intro it hit
  rw [itemsOf] at hit
  obtain ⟨ag, _, rfl⟩ := List.mem_map.mp hit
  exact reqGrossOf_nonneg_mul p ag.1

lemma mem_nonneg_of_getD {l : List ℚ} (h : ∀ i, 0 ≤ l.getD i 0) :
    ∀ x ∈ l, 0 ≤ x := by
  intro x hx
  obtain ⟨i, hi, rfl⟩ := List.mem_iff_getElem.mp hx
  have := h i
  rwa [List.getD_eq_getElem _ _ hi] at this

/-- The repair engine preserves the exact sum, the list length,
nonnegativity, and never pushes a previously non-violating allocation
strictly below its required minimum without zeroing it. -/
theorem repairViolations_spec (amountPrec unitPrec : ℕ)
    (allocs : List productAlloc) (grossAmounts : List ℚ)
    (hGross : ∀ x ∈ grossAmounts, 0 ≤ x ∧ MulOfUnit amountPrec x) :
    (repairViolations amountPrec unitPrec allocs grossAmounts).sum = grossAmounts.sum ∧
    (repairViolations amountPrec unitPrec allocs grossAmounts).length
      = grossAmounts.length ∧
    (∀ x ∈ repairViolations amountPrec unitPrec allocs grossAmounts, 0 ≤ x) ∧
    (∀ i, i < (itemsOf amountPrec allocs grossAmounts).length →
      ¬ violAt (itemsOf amountPrec allocs grossAmounts) i →
      (repairViolations amountPrec unitPrec allocs grossAmounts).getD i 0 = 0 ∨
        itemReq (itemsOf amountPrec allocs grossAmounts) i
          ≤ (repairViolations amountPrec unitPrec allocs grossAmounts).getD i 0) := by
  obtain ⟨hsum, hlen, hnn, hsafe⟩ := repairCore_spec amountPrec
    (itemsOf amountPrec allocs grossAmounts) grossAmounts
    (itemsOf_length_le amountPrec allocs grossAmounts)
    (itemsOf_gross amountPrec allocs grossAmounts)
    hGross
    (itemsOf_req_mem amountPrec allocs grossAmounts)
  rw [repairViolations]
  exact ⟨hsum, hlen, mem_nonneg_of_getD hnn, hsafe⟩

/-!
## Concrete fixtures used by witnesses and counterexamples
-/

/-- A model product with unit price, no fee, weight one, and a single
initial-investment minimum amount. -/
def sampleProduct (minAmt : ℚ) : ModelItem :=
  { ticker := "T", weight := 1, marketPrice := 1,
    minInitialInvestmentAmt := minAmt, minInitialInvestmentUnits := 0,
    minTopupAmt := 0, minTopupUnits := 0, minRedemptionAmt := 0,
    minRedemptionUnits := 0, minHoldingAmt := 0, minHoldingUnits := 0,
    transactionFee := 0 }

/-- First-purchase allocations over sampleProduct minimums. -/
def allocsRepair (mins : List ℚ) : List productAlloc :=
  mins.map fun m => { mp := sampleProduct m, current := 0, ideal := 0 }

/-- Claim C2: the violation-repair pass conserves the total gross amount: for
any allocation list whose gross amounts are nonnegative and representable at
amountPrec granularity (as every caller's truncated amounts are), the sum of
the gross amounts returned by repairViolations equals the sum it was given. -/
theorem repairViolations_preserves_sum (amountPrec unitPrec : ℕ)
    (allocs : List productAlloc) (grossAmounts : List ℚ)
    (hGross : ∀ x ∈ grossAmounts, 0 ≤ x ∧ MulOfUnit amountPrec x) :
    (repairViolations amountPrec unitPrec allocs grossAmounts).sum
      = grossAmounts.sum :=
  (repairViolations_spec amountPrec unitPrec allocs grossAmounts hGross).1

theorem repairViolations_preserves_sum_witness :
    (∀ x ∈ ([40, 60] : List ℚ), 0 ≤ x ∧ MulOfUnit 2 x) ∧
    (repairViolations 2 2 (allocsRepair [50, 0]) [40, 60]).sum
      = ([40, 60] : List ℚ).sum := by
  have hg : ∀ x ∈ ([40, 60] : List ℚ), 0 ≤ x ∧ MulOfUnit 2 x := by
    intro x hx
    fin_cases hx <;> exact ⟨by norm_num, by norm_num [MulOfUnit]⟩
  exact ⟨hg, repairViolations_preserves_sum 2 2 (allocsRepair [50, 0]) [40, 60] hg⟩

/-- Claim C3: repair never creates a new violation: any allocation that was
not violating before the repair pass (zero gross, no applicable minimum, or
gross at least the required minimum) is afterwards either zeroed out entirely
or still at or above its required minimum gross. -/
theorem repairViolations_safety (amountPrec unitPrec : ℕ)
    (allocs : List productAlloc) (grossAmounts : List ℚ)
    (hGross : ∀ x ∈ grossAmounts, 0 ≤ x ∧ MulOfUnit amountPrec x) :
    ∀ i, i < (itemsOf amountPrec allocs grossAmounts).length →
      ¬ violAt (itemsOf amountPrec allocs grossAmounts) i →
      (repairViolations amountPrec unitPrec allocs grossAmounts).getD i 0 = 0 ∨
        itemReq (itemsOf amountPrec allocs grossAmounts) i
          ≤ (repairViolations amountPrec unitPrec allocs grossAmounts).getD i 0 :=
  (repairViolations_spec amountPrec unitPrec allocs grossAmounts hGross).2.2.2

theorem repairViolations_safety_witness :
    ((1 : ℕ) < (itemsOf 2 (allocsRepair [50, 0]) [40, 60]).length ∧
      ¬ violAt (itemsOf 2 (allocsRepair [50, 0]) [40, 60]) 1) ∧
    ((repairViolations 2 2 (allocsRepair [50, 0]) [40, 60]).getD 1 0 = 0 ∨
      itemReq (itemsOf 2 (allocsRepair [50, 0]) [40, 60]) 1
        ≤ (repairViolations 2 2 (allocsRepair [50, 0]) [40, 60]).getD 1 0) := by
  have hg : ∀ x ∈ ([40, 60] : List ℚ), 0 ≤ x ∧ MulOfUnit 2 x := by
    intro x hx
    fin_cases hx <;> exact ⟨by norm_num, by norm_num [MulOfUnit]⟩
  have hlen : (1 : ℕ) < (itemsOf 2 (allocsRepair [50, 0]) [40, 60]).length := by
    norm_num [itemsOf, allocsRepair]
  have hnv : ¬ violAt (itemsOf 2 (allocsRepair [50, 0]) [40, 60]) 1 := by
    norm_num [violAt, itemGross, itemReq, itemsOf, reqGrossOf, ceilToPrec,
      sampleProduct, allocsRepair, List.getD]
  exact ⟨⟨hlen, hnv⟩,
    repairViolations_safety 2 2 (allocsRepair [50, 0]) [40, 60] hg 1 hlen hnv⟩

/-- Claim C4 (counterexample): the repair pass is not idempotent.  With
first-purchase minimums 15, 30 and 1 and truncated gross amounts 14, 20 and 2
(amountPrec 0), the first pass cures the cheapest violation from safe slack
and leaves the second uncured, producing 15, 20, 1; re-running the pass on
that output cures the remaining violation by zeroing out the other two
products and refunding the overshoot, producing 0, 36, 0. -/
theorem repairViolations_not_idempotent :
    repairViolations 0 0 (allocsRepair [15, 30, 1])
        (repairViolations 0 0 (allocsRepair [15, 30, 1]) [14, 20, 2])
      ≠ repairViolations 0 0 (allocsRepair [15, 30, 1]) [14, 20, 2] := by
  have h1 : repairViolations 0 0 (allocsRepair [15, 30, 1]) [14, 20, 2]
      = [15, 20, 1] := by
    norm_num [repairViolations, repairCore, itemsOf, reqGrossOf, ceilToPrec,
      violationsOf, violationsAux, slackItemsOf, slackAux, List.insertionSort,
      List.orderedInsert, repairStep, itemReq, itemGross, collectZero,
      applyReductions, residualPass, addUnitsAux, truncQ, unitQ,
      sampleProduct, allocsRepair, List.cons_ne_nil, List.getD]
  have h2 : repairViolations 0 0 (allocsRepair [15, 30, 1]) [15, 20, 1]
      = [0, 36, 0] := by
    norm_num [repairViolations, repairCore, itemsOf, reqGrossOf, ceilToPrec,
      violationsOf, violationsAux, slackItemsOf, slackAux, List.insertionSort,
      List.orderedInsert, repairStep, itemReq, itemGross, collectZero,
      applyReductions, residualPass, addUnitsAux, truncQ, unitQ,
      sampleProduct, allocsRepair, List.cons_ne_nil, List.getD,
      List.filterMap_cons, List.filterMap_nil]
  rw [h1, h2]
  norm_num

/-- Claim C4 (amended): the repair pass is a no-op on any allocation list with
no violating entry; in particular re-running it on its own output produces no
further change whenever the first run cured every violation it found.  (When a
violation is left uncured, a second run can change the output further, as the
counterexample shows.) -/
theorem repairViolations_idempotent_of_all_cured (amountPrec unitPrec : ℕ)
    (allocs : List productAlloc) (grossAmounts : List ℚ)
    (hcured : ∀ i,
      i < (itemsOf amountPrec allocs
        (repairViolations amountPrec unitPrec allocs grossAmounts)).length →
      ¬ violAt (itemsOf amountPrec allocs
        (repairViolations amountPrec unitPrec allocs grossAmounts)) i) :
    repairViolations amountPrec unitPrec allocs
        (repairViolations amountPrec unitPrec allocs grossAmounts)
      = repairViolations amountPrec unitPrec allocs grossAmounts := by
  conv_lhs => rw [repairViolations]
  have hnil : violationsOf (itemsOf amountPrec allocs
      (repairViolations amountPrec unitPrec allocs grossAmounts)) = [] :=
    violationsOf_eq_nil hcured
  simp only [repairCore]
  rw [if_pos hnil]

theorem repairViolations_idempotent_of_all_cured_witness :
    (∀ i, i < (itemsOf 2 (allocsRepair [50, 0])
        (repairViolations 2 2 (allocsRepair [50, 0]) [40, 60])).length →
      ¬ violAt (itemsOf 2 (allocsRepair [50, 0])
        (repairViolations 2 2 (allocsRepair [50, 0]) [40, 60])) i) ∧
    repairViolations 2 2 (allocsRepair [50, 0])
        (repairViolations 2 2 (allocsRepair [50, 0]) [40, 60])
      = repairViolations 2 2 (allocsRepair [50, 0]) [40, 60] := by
  have hout : repairViolations 2 2 (allocsRepair [50, 0]) [40, 60] = [50, 50] := by
    norm_num [repairViolations, repairCore, itemsOf, reqGrossOf, ceilToPrec,
      violationsOf, violationsAux, slackItemsOf, slackAux, List.insertionSort,
      List.orderedInsert, repairStep, itemReq, itemGross, collectZero,
      applyReductions, residualPass, addUnitsAux, truncQ, unitQ,
      sampleProduct, allocsRepair, List.cons_ne_nil, List.getD]
  have hcured : ∀ i, i < (itemsOf 2 (allocsRepair [50, 0])
      (repairViolations 2 2 (allocsRepair [50, 0]) [40, 60])).length →
      ¬ violAt (itemsOf 2 (allocsRepair [50, 0])
        (repairViolations 2 2 (allocsRepair [50, 0]) [40, 60])) i := by
    rw [hout]
    intro i hi
    have hi2 : i < 2 := by
      simpa [itemsOf, allocsRepair] using hi
    interval_cases i <;>
      norm_num [violAt, itemGross, itemReq, itemsOf, reqGrossOf, ceilToPrec,
        sampleProduct, allocsRepair, List.getD]
  exact ⟨hcured,
    repairViolations_idempotent_of_all_cured 2 2 (allocsRepair [50, 0]) [40, 60] hcured⟩

/-!
## Pass 1 of the investment allocator: scaling and truncation bounds
-/

lemma sum_map_const {α : Type} (c : ℚ) :
    ∀ l : List α, (l.map fun _ => c).sum = l.length * c := by
  intro l
  induction l with
  | nil => simp
  | cons a t ih =>
      simp only [List.map_cons, List.sum_cons, ih, List.length_cons]
      push_cast
      ring

lemma investIdeal_nonneg (w v t : ℚ) : 0 ≤ investIdeal w v t := by
  simp only [investIdeal]
  by_cases h : w * t - v < 0
  · rw [if_pos h]
  · rw [if_neg h]
    linarith [not_lt.mp h]

lemma investAllocsRaw_mem {g : Goal} :
    ∀ a ∈ investAllocsRaw g, a.mp ∈ g.modelPortfolioDetails ∧ a.mp.weight ≠ 0 := by
  intro a ha
  rw [investAllocsRaw] at ha
  obtain ⟨mp, hmp, rfl⟩ := List.mem_map.mp ha
  have h2 := List.mem_filter.mp hmp
  exact ⟨h2.1, by simpa using h2.2⟩

lemma investAllocsRaw_ideal {g : Goal} :
    ∀ a ∈ investAllocsRaw g, 0 ≤ a.ideal := by
  intro a ha
  rw [investAllocsRaw] at ha
  obtain ⟨mp, _, rfl⟩ := List.mem_map.mp ha
  exact investIdeal_nonneg _ _ _

lemma investAllocs_mem {g : Goal} :
    ∀ a ∈ investAllocs g, a.mp ∈ g.modelPortfolioDetails ∧ a.mp.weight ≠ 0 := by
  intro a ha
  rw [investAllocs] at ha
  split at ha
  · obtain ⟨a0, ha0, rfl⟩ := List.mem_map.mp ha
    exact investAllocsRaw_mem a0 ha0
  · exact investAllocsRaw_mem a ha

lemma investAllocsRaw_weight_sum_pos {g : Goal}
    (hw : ∀ mp ∈ g.modelPortfolioDetails, 0 ≤ mp.weight)
    (hex : ∃ mp ∈ g.modelPortfolioDetails, mp.weight ≠ 0) :
    0 < ((investAllocsRaw g).map (·.mp.weight)).sum := by
  obtain ⟨mp, hmp, hne⟩ := hex
  have hmem : productAlloc.mk mp (investLookupValue g.goalDetails mp.ticker)
      (investIdeal mp.weight (investLookupValue g.goalDetails mp.ticker)
        (investVTotal g + g.orderAmount)) ∈ investAllocsRaw g := by
    rw [investAllocsRaw]
    apply List.mem_map_of_mem
    apply List.mem_filter.mpr
    exact ⟨hmp, by simpa using hne⟩
  have hwmem : mp.weight ∈ (investAllocsRaw g).map (·.mp.weight) :=
    List.mem_map_of_mem _ hmem
  have hle : mp.weight ≤ ((investAllocsRaw g).map (·.mp.weight)).sum := by
    apply List.single_le_sum _ _ hwmem
    intro x hx
    obtain ⟨a, ha, rfl⟩ := List.mem_map.mp hx
    exact hw a.mp (investAllocsRaw_mem a ha).1
  have hpos : 0 < mp.weight := lt_of_le_of_ne (hw mp hmp) (Ne.symm hne)
  linarith

lemma investAllocs_ideal_sum_pos {g : Goal}
    (hw : ∀ mp ∈ g.modelPortfolioDetails, 0 ≤ mp.weight)
    (hex : ∃ mp ∈ g.modelPortfolioDetails, mp.weight ≠ 0)
    (ho : 0 < g.orderAmount) :
    (0 < ((investAllocs g).map (·.ideal)).sum) ∧
    (∀ a ∈ investAllocs g, 0 ≤ a.ideal) := by
  rw [investAllocs]
  split
  · set W := ((investAllocsRaw g).map (·.mp.weight)).sum with hW
    have hWpos : 0 < W := investAllocsRaw_weight_sum_pos hw hex
    have hmm : (((investAllocsRaw g).map fun a =>
        { a with ideal := a.mp.weight / W * g.orderAmount }).map (·.ideal))
        = (investAllocsRaw g).map fun a => a.mp.weight / W * g.orderAmount := by
      rw [List.map_map]
      rfl
    constructor
    · rw [hmm]
      have hcg : ((investAllocsRaw g).map fun a => a.mp.weight / W * g.orderAmount)
          = (investAllocsRaw g).map fun a => a.mp.weight * (g.orderAmount / W) := by
        apply List.map_congr_left
        intro a _
        field_simp
      rw [hcg, sum_map_mul_right, ← hW]
      have : W * (g.orderAmount / W) = g.orderAmount := by
        field_simp
      rw [this]
      exact ho
    · intro a ha
      obtain ⟨a0, ha0, rfl⟩ := List.mem_map.mp ha
      simp only
      have := hw a0.mp (investAllocsRaw_mem a0 ha0).1
      positivity
  · next hne2 =>
      have hnn : ∀ x ∈ (investAllocsRaw g).map (·.ideal), 0 ≤ x := by
        intro x hx
        obtain ⟨a, ha, rfl⟩ := List.mem_map.mp hx
        exact investAllocsRaw_ideal a ha
      constructor
      · rcases lt_or_eq_of_le (List.sum_nonneg hnn) with h | h
        · exact h
        · exact absurd h.symm hne2
      · exact investAllocsRaw_ideal

lemma feeAdjustedOf_bounds {a : productAlloc}
    (hfee : 0 ≤ a.mp.transactionFee ∧ a.mp.transactionFee < 1)
    (hid : 0 ≤ a.ideal) :
    a.ideal ≤ feeAdjustedOf a ∧ 0 ≤ feeAdjustedOf a := by
  rw [feeAdjustedOf]
  have hd : 0 < 1 - a.mp.transactionFee := by linarith [hfee.2]
  constructor
  · rw [le_div_iff₀ hd]
    nlinarith [hfee.1]
  · exact div_nonneg hid hd.le

lemma totalFeeAdjusted_pos {g : Goal}
    (hw : ∀ mp ∈ g.modelPortfolioDetails, 0 ≤ mp.weight)
    (hex : ∃ mp ∈ g.modelPortfolioDetails, mp.weight ≠ 0)
    (ho : 0 < g.orderAmount)
    (hfee : ∀ mp ∈ g.modelPortfolioDetails, 0 ≤ mp.transactionFee ∧ mp.transactionFee < 1) :
    0 < ((investAllocs g).map feeAdjustedOf).sum ∧
    (∀ a ∈ investAllocs g, 0 ≤ feeAdjustedOf a) := by
  obtain ⟨hpos, hnn⟩ := investAllocs_ideal_sum_pos hw hex ho
  have hle : ∀ a ∈ investAllocs g, a.ideal ≤ feeAdjustedOf a ∧ 0 ≤ feeAdjustedOf a :=
    fun a ha => feeAdjustedOf_bounds (hfee a.mp (investAllocs_mem a ha).1) (hnn a ha)
  constructor
  · exact lt_of_lt_of_le hpos (List.sum_le_sum (fun a ha => (hle a ha).1))
  · exact fun a ha => (hle a ha).2

lemma investAllocs_ne_nil {g : Goal}
    (hex : ∃ mp ∈ g.modelPortfolioDetails, mp.weight ≠ 0) :
    investAllocs g ≠ [] := by
  obtain ⟨mp, hmp, hne⟩ := hex
  have hmem : productAlloc.mk mp (investLookupValue g.goalDetails mp.ticker)
      (investIdeal mp.weight (investLookupValue g.goalDetails mp.ticker)
        (investVTotal g + g.orderAmount)) ∈ investAllocsRaw g := by
    rw [investAllocsRaw]
    apply List.mem_map_of_mem
    apply List.mem_filter.mpr
    exact ⟨hmp, by simpa using hne⟩
  rw [investAllocs]
  split
  · intro hc
    rw [List.map_eq_nil] at hc
    rw [hc] at hmem
    exact absurd hmem (List.not_mem_nil _)
  · intro hc
    rw [hc] at hmem
    exact absurd hmem (List.not_mem_nil _)

lemma grossBefore_exact_sum {g : Goal} (p : ℕ)
    (hw : ∀ mp ∈ g.modelPortfolioDetails, 0 ≤ mp.weight)
    (hex : ∃ mp ∈ g.modelPortfolioDetails, mp.weight ≠ 0)
    (ho : 0 < g.orderAmount)
    (hfee : ∀ mp ∈ g.modelPortfolioDetails, 0 ≤ mp.transactionFee ∧ mp.transactionFee < 1) :
    ((investAllocs g).map fun a =>
      feeAdjustedOf a / ((investAllocs g).map feeAdjustedOf).sum * g.orderAmount).sum
      = g.orderAmount := by
  obtain ⟨hT, _⟩ := totalFeeAdjusted_pos hw hex ho hfee
  set T := ((investAllocs g).map feeAdjustedOf).sum with hTdef
  have hcg : ((investAllocs g).map fun a => feeAdjustedOf a / T * g.orderAmount)
      = (investAllocs g).map fun a => feeAdjustedOf a * (g.orderAmount / T) := by
    apply List.map_congr_left
    intro a _
    field_simp
  rw [hcg, sum_map_mul_right, ← hTdef]
  field_simp

lemma grossBefore_bounds {g : Goal} (p : ℕ)
    (hw : ∀ mp ∈ g.modelPortfolioDetails, 0 ≤ mp.weight)
    (hex : ∃ mp ∈ g.modelPortfolioDetails, mp.weight ≠ 0)
    (ho : 0 < g.orderAmount)
    (hfee : ∀ mp ∈ g.modelPortfolioDetails, 0 ≤ mp.transactionFee ∧ mp.transactionFee < 1) :
    (g.orderAmount - (investAllocs g).length * unitQ p < (grossBefore g p).sum ∧
      (grossBefore g p).sum ≤ g.orderAmount) ∧
    (∀ x ∈ grossBefore g p, 0 ≤ x ∧ MulOfUnit p x) := by
  obtain ⟨hT, hfann⟩ := totalFeeAdjusted_pos hw hex ho hfee
  have hxnn : ∀ a ∈ investAllocs g,
      0 ≤ feeAdjustedOf a / ((investAllocs g).map feeAdjustedOf).sum * g.orderAmount := by
    intro a ha
    have := hfann a ha
    positivity
  have hgb : grossBefore g p = (investAllocs g).map fun a =>
      truncQ p (feeAdjustedOf a / ((investAllocs g).map feeAdjustedOf).sum
        * g.orderAmount) := rfl
  constructor
  · constructor
    · have hlow : ((investAllocs g).map fun a =>
          (feeAdjustedOf a / ((investAllocs g).map feeAdjustedOf).sum * g.orderAmount)
            - unitQ p).sum
          < (grossBefore g p).sum := by
        rw [hgb]
        apply List.sum_lt_sum
        · intro a ha
          exact le_of_lt (lt_truncQ_add_unit (hxnn a ha))
        · obtain ⟨a, ha⟩ := List.exists_mem_of_ne_nil _ (investAllocs_ne_nil hex)
          exact ⟨a, ha, lt_truncQ_add_unit (hxnn a ha)⟩
      rw [sum_map_sub, grossBefore_exact_sum p hw hex ho hfee, sum_map_const] at hlow
      exact hlow
    · rw [hgb]
      calc ((investAllocs g).map fun a =>
            truncQ p (feeAdjustedOf a / ((investAllocs g).map feeAdjustedOf).sum
              * g.orderAmount)).sum
          ≤ ((investAllocs g).map fun a =>
            feeAdjustedOf a / ((investAllocs g).map feeAdjustedOf).sum
              * g.orderAmount).sum := List.sum_le_sum (fun a ha => truncQ_le (hxnn a ha))
        _ = g.orderAmount := grossBefore_exact_sum p hw hex ho hfee
  · intro x hx
    rw [hgb] at hx
    obtain ⟨a, ha, rfl⟩ := List.mem_map.mp hx
    exact ⟨truncQ_nonneg (hxnn a ha), mulOfUnit_truncQ p _⟩

/-!
## Claims C1 and C9
-/

/-- A weight-w model product with unit price, no fee and no minimums. -/
def plainProduct (t : String) (w : ℚ) : ModelItem :=
  { ticker := t, weight := w, marketPrice := 1,
    minInitialInvestmentAmt := 0, minInitialInvestmentUnits := 0,
    minTopupAmt := 0, minTopupUnits := 0, minRedemptionAmt := 0,
    minRedemptionUnits := 0, minHoldingAmt := 0, minHoldingUnits := 0,
    transactionFee := 0 }

/-- Two products at weight one half, no holdings, order amount 100.01. -/
def goalC1 : Goal :=
  { goalId := "g1", goalDetails := [], orderAmount := 10001/100,
    orderType := "Investment",
    modelPortfolioDetails := [plainProduct "A" (1/2), plainProduct "B" (1/2)] }

/-- Claim C1 (counterexample): the emitted gross amounts do not sum to the
order amount, either before or after repair.  With two products at weight 0.5
and orderAmount 100.01 at amountPrec 2, each exact share is 50.005, truncation
yields 50.00 twice, and the repair pass (no violations) returns them
unchanged: the sums are 100.00, not 100.01 — the pass-1 truncation residual is
never redistributed. -/
theorem investment_sum_conservation_counterexample :
    (grossBefore goalC1 2).sum ≠ goalC1.orderAmount ∧
    (repairViolations 2 2 (investAllocs goalC1) (grossBefore goalC1 2)).sum
      ≠ goalC1.orderAmount := by
  have h1 : grossBefore goalC1 2 = [50, 50] := by
    norm_num [grossBefore, investAllocs, investAllocsRaw, investVTotal,
      investLookupValue, investIdeal, feeAdjustedOf, truncQ, goalC1, plainProduct]
  have h2 : repairViolations 2 2 (investAllocs goalC1) [50, 50] = [50, 50] := by
    norm_num [repairViolations, repairCore, itemsOf, reqGrossOf, ceilToPrec,
      violationsOf, violationsAux, slackItemsOf, slackAux, List.insertionSort,
      List.orderedInsert, repairStep, itemReq, itemGross, collectZero,
      applyReductions, residualPass, addUnitsAux, truncQ, unitQ,
      investAllocs, investAllocsRaw, investVTotal, investLookupValue,
      investIdeal, goalC1, plainProduct, List.getD]
  constructor
  · rw [h1]
    norm_num [goalC1]
  · rw [h1, h2]
    norm_num [goalC1]

/-- Claim C1 (amended): for a valid investment order the truncated pass-1
gross amounts sum to the order amount minus a truncation residual of less
than one minimal unit per product (so the sum is within n·10^(-amountPrec)
below the order amount, and equals it exactly only when no truncation loss
occurs), and the repair pass preserves that sum exactly. -/
theorem investment_sum_conservation_amended (amountPrec unitPrec : ℕ) (g : Goal)
    (hw : ∀ mp ∈ g.modelPortfolioDetails, 0 ≤ mp.weight)
    (hex : ∃ mp ∈ g.modelPortfolioDetails, mp.weight ≠ 0)
    (ho : 0 < g.orderAmount)
    (hfee : ∀ mp ∈ g.modelPortfolioDetails,
      0 ≤ mp.transactionFee ∧ mp.transactionFee < 1) :
    (g.orderAmount - (investAllocs g).length * unitQ amountPrec
        < (grossBefore g amountPrec).sum ∧
      (grossBefore g amountPrec).sum ≤ g.orderAmount) ∧
    (repairViolations amountPrec unitPrec (investAllocs g)
        (grossBefore g amountPrec)).sum = (grossBefore g amountPrec).sum := by
  obtain ⟨hb, hmem⟩ := grossBefore_bounds amountPrec hw hex ho hfee
  exact ⟨hb, (repairViolations_spec amountPrec unitPrec (investAllocs g)
    (grossBefore g amountPrec) hmem).1⟩

/-- Two products at weights 0.6 and 0.4, no holdings, order amount 100. -/
def goalScenA : Goal :=
  { goalId := "gA", goalDetails := [], orderAmount := 100,
    orderType := "Investment",
    modelPortfolioDetails := [plainProduct "A" (3/5), plainProduct "B" (2/5)] }

theorem investment_sum_conservation_amended_witness :
    ((∀ mp ∈ goalScenA.modelPortfolioDetails, 0 ≤ mp.weight) ∧
      (∃ mp ∈ goalScenA.modelPortfolioDetails, mp.weight ≠ 0) ∧
      0 < goalScenA.orderAmount ∧
      (∀ mp ∈ goalScenA.modelPortfolioDetails,
        0 ≤ mp.transactionFee ∧ mp.transactionFee < 1)) ∧
    ((goalScenA.orderAmount - (investAllocs goalScenA).length * unitQ 2
        < (grossBefore goalScenA 2).sum ∧
      (grossBefore goalScenA 2).sum ≤ goalScenA.orderAmount) ∧
    (repairViolations 2 2 (investAllocs goalScenA)
        (grossBefore goalScenA 2)).sum = (grossBefore goalScenA 2).sum) := by
  have hw : ∀ mp ∈ goalScenA.modelPortfolioDetails, 0 ≤ mp.weight := by
    intro mp hmp
    fin_cases hmp <;> norm_num [plainProduct]
  have hex : ∃ mp ∈ goalScenA.modelPortfolioDetails, mp.weight ≠ 0 :=
    ⟨plainProduct "A" (3/5), by simp [goalScenA], by norm_num [plainProduct]⟩
  have ho : 0 < goalScenA.orderAmount := by norm_num [goalScenA]
  have hfee : ∀ mp ∈ goalScenA.modelPortfolioDetails,
      0 ≤ mp.transactionFee ∧ mp.transactionFee < 1 := by
    intro mp hmp
    fin_cases hmp <;> norm_num [plainProduct]
  exact ⟨⟨hw, hex, ho, hfee⟩,
    investment_sum_conservation_amended 2 2 goalScenA hw hex ho hfee⟩

/-- Claim C9 (counterexample): with weight exactly 1 (allowed by the
validator), increasing the holding's current value leaves the shortfall
target unchanged at a positive value: it neither strictly decreases nor is
it zero.  Here V goes from 0 to 5 with order amount 10, and the target stays
at 10 because the post-trade total rises together with the holding. -/
theorem investIdeal_monotonicity_counterexample :
    ¬ ((investIdeal 1 0 (0 + 0 + 10) = 0 ∧
        investIdeal 1 (0 + 5) (0 + (0 + 5) + 10) = 0) ∨
      investIdeal 1 (0 + 5) (0 + (0 + 5) + 10) < investIdeal 1 0 (0 + 0 + 10)) := by
  norm_num [investIdeal]

/-- Claim C9 (amended): for a modeled product with weight strictly between 0
and 1, increasing its current value (which also raises the post-trade total
by the same amount) strictly decreases its investment shortfall target, or
leaves it unchanged when it is already 0; at weight exactly 1 the target is
unchanged even when positive. -/
theorem investIdeal_monotone (w V δ rest order : ℚ)
    (hw0 : 0 < w) (hw1 : w < 1) (hδ : 0 < δ) :
    (investIdeal w V (rest + V + order) = 0 ∧
      investIdeal w (V + δ) (rest + (V + δ) + order) = 0) ∨
    investIdeal w (V + δ) (rest + (V + δ) + order)
      < investIdeal w V (rest + V + order) := by
  simp only [investIdeal]
  by_cases hA : w * (rest + V + order) - V < 0
  · left
    rw [if_pos hA, if_pos (by nlinarith)]
    exact ⟨rfl, rfl⟩
  · by_cases hA0 : w * (rest + V + order) - V = 0
    · left
      rw [if_neg hA, if_pos (by nlinarith)]
      exact ⟨hA0, rfl⟩
    · right
      have hApos : 0 < w * (rest + V + order) - V :=
        lt_of_le_of_ne (not_lt.mp hA) (Ne.symm hA0)
      rw [if_neg hA]
      by_cases hB : w * (rest + (V + δ) + order) - (V + δ) < 0
      · rw [if_pos hB]
        linarith
      · rw [if_neg hB]
        nlinarith

theorem investIdeal_monotone_witness :
    ((0 : ℚ) < 1/2 ∧ (1/2 : ℚ) < 1 ∧ (0 : ℚ) < 2) ∧
    ((investIdeal (1/2) 0 (0 + 0 + 10) = 0 ∧
        investIdeal (1/2) (0 + 2) (0 + (0 + 2) + 10) = 0) ∨
      investIdeal (1/2) (0 + 2) (0 + (0 + 2) + 10)
        < investIdeal (1/2) 0 (0 + 0 + 10)) :=
  ⟨⟨by norm_num, by norm_num, by norm_num⟩,
    investIdeal_monotone (1/2) 0 2 0 10 (by norm_num) (by norm_num) (by norm_num)⟩

/-!
## Redemption allocator (src/splitter/redemption.go)
-/

/-- holdingsMap of ProcessRedemption: only positive-value holdings are
inserted (later duplicates win, as in a Go map built by iteration). -/
def redLookupHolding (hs : List Holding) (t : String) : Option Holding :=
  (hs.filter fun h => decide (0 < h.value) && (h.ticker == t)).getLast?

/-- Total of positive holding values (vTotal in ProcessRedemption). -/
def redVTotal (hs : List Holding) : ℚ :=
  ((hs.filter fun h => decide (0 < h.value)).map (·.value)).sum

/-- modelMap of ProcessRedemption (later duplicates win). -/
def modelLookup (ms : List ModelItem) (t : String) : Option ModelItem :=
  (ms.filter fun mp => mp.ticker == t).getLast?

/-- Weight seen by the Phase-1 scan: the model weight when the ticker is in
the model map, zero when absent. -/
def weightOf (ms : List ModelItem) (t : String) : ℚ :=
  match modelLookup ms t with
  | some mp => mp.weight
  | none => 0

/-- Phase-1 candidates: positive-value holdings with zero effective weight,
in goalDetails order. -/
def zwProducts (g : Goal) : List Holding :=
  g.goalDetails.filter fun h =>
    decide (0 < h.value) && decide (weightOf g.modelPortfolioDetails h.ticker = 0)

/-- Phase-1 candidates sorted ascending by current value. -/
def zwSorted (g : Goal) : List Holding :=
  List.insertionSort (fun a b => a.value ≤ b.value) (zwProducts g)

/-- checkRedemptionMinimums of src/splitter/redemption.go (the decimal string
arguments arrive here already parsed; amountPrec and unitPrec are parameters
of the Go function but are not used by its body). -/
def checkRedemptionMinimums (amountPrec unitPrec : ℕ) (redeemAmt units : ℚ)
    (isFullRedemption : Bool)
    (currentVal currentUnits minRedAmt minRedUnits minHoldAmt minHoldUnits : ℚ) :
    Option TradeError :=
  if redeemAmt < minRedAmt ∨ units < minRedUnits then
    some ⟨"Cannot trade this ticker because it breaches the minimum redemption amount",
      "MIN_REDEMPTION_VIOLATION"⟩
  else if ¬ isFullRedemption then
    if currentVal - redeemAmt < minHoldAmt ∨ currentUnits - units < minHoldUnits then
      some ⟨"Cannot trade this ticker because the remaining holding would breach the minimum holding amount",
        "MIN_HOLDING_VIOLATION"⟩
    else none
  else none

/-- Minimums used for a Phase-1 product: the model entry's when the ticker is
in the model, the holding's own otherwise. -/
def phase1MinsOf (g : Goal) (h : Holding) : ℚ × ℚ × ℚ × ℚ :=
  match modelLookup g.modelPortfolioDetails h.ticker with
  | some mp => (mp.minRedemptionAmt, mp.minRedemptionUnits,
      mp.minHoldingAmt, mp.minHoldingUnits)
  | none => (h.minRedemptionAmt, h.minRedemptionUnits,
      h.minHoldingAmt, h.minHoldingUnits)

/-- One Phase-1 transaction detail. -/
def phase1Detail (g : Goal) (amountPrec unitPrec : ℕ) (h : Holding)
    (redeemAmt : ℚ) (isFull : Bool) : TransactionDetail :=
  let units := if 0 < h.marketPrice then truncQ unitPrec (redeemAmt / h.marketPrice) else 0
  let mins := phase1MinsOf g h
  { ticker := h.ticker, direction := "SELL", value := redeemAmt, units := units,
    error := checkRedemptionMinimums amountPrec unitPrec redeemAmt units isFull
      h.value h.units mins.1 mins.2.1 mins.2.2.1 mins.2.2.2 }

/-- Phase 1 of ProcessRedemption: greedily liquidate the sorted candidates
while budget remains; a candidate that does not fit is partially redeemed for
the whole remaining budget.  Returns the details and the leftover budget. -/
def phase1 (g : Goal) (amountPrec unitPrec : ℕ) :
    List Holding → ℚ → List TransactionDetail × ℚ
  | [], remaining => ([], remaining)
  | zp :: rest, remaining =>
    if remaining = 0 then ([], remaining)
    else
      let isFull := decide (zp.value ≤ remaining)
      let redeemAmt := truncQ amountPrec (if isFull then zp.value else remaining)
      let r := phase1 g amountPrec unitPrec rest (remaining - redeemAmt)
      (phase1Detail g amountPrec unitPrec zp redeemAmt isFull :: r.1, r.2)

/-- Phase-2 working entity of ProcessRedemption. -/
structure redAlloc where
  mp : ModelItem
  holding : Option Holding
  ideal : ℚ
deriving DecidableEq, Repr, Inhabited

/-- Current value seen by Phase 2: the held value when the ticker is in the
holdings map, zero when absent. -/
def redCurrentVal (hs : List Holding) (t : String) : ℚ :=
  match redLookupHolding hs t with
  | some h => h.value
  | none => 0

/-- Phase-2 overweight targets: for each model entry with nonzero weight,
ideal = max(0, currentValue - weight * (vTotal - orderAmount)). -/
def redAllocs (g : Goal) : List redAlloc :=
  (g.modelPortfolioDetails.filter fun mp => decide (mp.weight ≠ 0)).map fun mp =>
    let currentVal := redCurrentVal g.goalDetails mp.ticker
    let ideal := currentVal - mp.weight * (redVTotal g.goalDetails - g.orderAmount)
    { mp := mp, holding := redLookupHolding g.goalDetails mp.ticker,
      ideal := if ideal < 0 then 0 else ideal }

/-- One Phase-2 transaction detail. -/
def phase2Detail (amountPrec unitPrec : ℕ) (totalIdeal remaining : ℚ)
    (a : redAlloc) : TransactionDetail :=
  let redeemAmt := if ¬ totalIdeal = 0 ∧ 0 < remaining
    then truncQ amountPrec (a.ideal / totalIdeal * remaining) else 0
  let units := if 0 < a.mp.marketPrice ∧ 0 < redeemAmt
    then truncQ unitPrec (redeemAmt / a.mp.marketPrice) else 0
  let err := if 0 < redeemAmt then
      match a.holding with
      | some h =>
          checkRedemptionMinimums amountPrec unitPrec redeemAmt units
            (decide (h.value ≤ redeemAmt)) h.value h.units
            a.mp.minRedemptionAmt a.mp.minRedemptionUnits
            a.mp.minHoldingAmt a.mp.minHoldingUnits
      | none => none
    else none
  { ticker := a.mp.ticker, direction := "SELL", value := redeemAmt,
    units := units, error := err }

/-- redemptionType of src/splitter/redemption.go.  The volatility buffer
arrives as a string in Go; a missing or unparsable buffer yields zero, so it
is taken here as the parsed rational. -/
def redemptionType (orderAmount vTotal : ℚ) (volatilityBuffer : ℚ) : String :=
  if vTotal ≤ orderAmount then "Full Redemption"
  else if 0 < volatilityBuffer then
    if orderAmount < vTotal * (1 - volatilityBuffer) then "Small Redemption"
    else "Big Redemption"
  else "Partial Redemption"

/-- The transaction details emitted by ProcessRedemption: Phase-1 details
(ascending value) followed by one Phase-2 detail per nonzero-weight model
entry in input order. -/
def processRedemptionDetails (g : Goal) (amountPrec unitPrec : ℕ) :
    List TransactionDetail :=
  let ph1 := phase1 g amountPrec unitPrec (zwSorted g) g.orderAmount
  let allocs := redAllocs g
  let totalIdeal := (allocs.map (·.ideal)).sum
  ph1.1 ++ allocs.map (phase2Detail amountPrec unitPrec totalIdeal ph1.2)

/-- ProcessRedemption of src/splitter/redemption.go. -/
def ProcessRedemption (g : Goal) (amountPrec unitPrec : ℕ)
    (volatilityBuffer : ℚ) : GoalResult :=
  { goalId := g.goalId,
    transactionType := redemptionType g.orderAmount (redVTotal g.goalDetails)
      volatilityBuffer,
    transactionDetails := processRedemptionDetails g amountPrec unitPrec }

/-!
## Claims C7 and C8: redemption classification and the full-redemption bypass
-/

/-- Claim C7: the redemption transaction-type label is "Full Redemption"
exactly when the order amount is at least the positive-holdings total; below
that, a positive volatility buffer yields "Small Redemption" exactly when the
order amount is below the threshold vTotal * (1 - buffer) and
"Big Redemption" at or above it, and without a positive buffer the label is
"Partial Redemption". -/
theorem redemptionType_spec (orderAmount vTotal vBuf : ℚ) :
    (redemptionType orderAmount vTotal vBuf = "Full Redemption" ↔
      vTotal ≤ orderAmount) ∧
    (0 < vBuf → orderAmount < vTotal →
      (redemptionType orderAmount vTotal vBuf = "Small Redemption" ↔
        orderAmount < vTotal * (1 - vBuf)) ∧
      (redemptionType orderAmount vTotal vBuf = "Big Redemption" ↔
        ¬ orderAmount < vTotal * (1 - vBuf))) ∧
    (¬ 0 < vBuf → orderAmount < vTotal →
      redemptionType orderAmount vTotal vBuf = "Partial Redemption") := by
  unfold redemptionType
  by_cases hful : vTotal ≤ orderAmount
  · rw [if_pos hful]
    refine ⟨by simp [hful], ?_, ?_⟩
    · intro _ hlt
      exact absurd hful (not_le.mpr hlt)
    · intro _ hlt
      exact absurd hful (not_le.mpr hlt)
  · rw [if_neg hful]
    by_cases hb : 0 < vBuf
    · rw [if_pos hb]
      by_cases hsm : orderAmount < vTotal * (1 - vBuf)
      · rw [if_pos hsm]
        refine ⟨⟨fun h => absurd h (by simp), fun h => absurd h hful⟩,
          fun _ _ => ⟨⟨fun _ => hsm, fun _ => rfl⟩,
            ⟨fun h => absurd h (by simp), fun h => absurd hsm h⟩⟩,
          fun hnb _ => absurd hb hnb⟩
      · rw [if_neg hsm]
        refine ⟨⟨fun h => absurd h (by simp), fun h => absurd h hful⟩,
          fun _ _ => ⟨⟨fun h => absurd h (by simp), fun h => absurd h hsm⟩,
            ⟨fun _ => hsm, fun _ => rfl⟩⟩,
          fun hnb _ => absurd hb hnb⟩
    · rw [if_neg hb]
      exact ⟨⟨fun h => absurd h (by simp), fun h => absurd h hful⟩,
        fun hb2 _ => absurd hb2 hb, fun _ _ => rfl⟩

theorem redemptionType_spec_witness :
    redemptionType 97 100 (3 / 100) = "Big Redemption" := by
  have h := ((redemptionType_spec 97 100 (3 / 100)).2.1 (by norm_num)
    (by norm_num)).2
  exact h.mpr (by norm_num)

/-- Claim C8: a full redemption bypasses the minimum-holding check: with
isFullRedemption set, checkRedemptionMinimums returns either no error or the
minimum-redemption error, never a MIN_HOLDING_VIOLATION, regardless of the
current amounts and the minimum-holding thresholds; the holding check sits
under the not-full branch, so it can fire only on a partial redemption. -/
theorem checkRedemptionMinimums_full_bypass (amountPrec unitPrec : ℕ)
    (redeemAmt units currentVal currentUnits minRedAmt minRedUnits
      minHoldAmt minHoldUnits : ℚ) :
    checkRedemptionMinimums amountPrec unitPrec redeemAmt units true
        currentVal currentUnits minRedAmt minRedUnits minHoldAmt minHoldUnits
      = none ∨
    checkRedemptionMinimums amountPrec unitPrec redeemAmt units true
        currentVal currentUnits minRedAmt minRedUnits minHoldAmt minHoldUnits
      = some ⟨"Cannot trade this ticker because it breaches the minimum redemption amount",
          "MIN_REDEMPTION_VIOLATION"⟩ := by
  unfold checkRedemptionMinimums
  by_cases h : redeemAmt < minRedAmt ∨ units < minRedUnits
  · right
    rw [if_pos h]
  · left
    rw [if_neg h]
    simp
/-!
## Claim C10: shape of the Phase-2 redemption records
-/

lemma phase1_nil (g : Goal) (amountPrec unitPrec : ℕ) (rem : ℚ) :
    phase1 g amountPrec unitPrec [] rem = ([], rem) := by
  rw [phase1]

lemma phase1_cons (g : Goal) (amountPrec unitPrec : ℕ) (zp : Holding)
    (rest : List Holding) (rem : ℚ) :
    phase1 g amountPrec unitPrec (zp :: rest) rem =
      if rem = 0 then ([], rem)
      else
        let isFull := decide (zp.value ≤ rem)
        let redeemAmt := truncQ amountPrec (if isFull then zp.value else rem)
        let r := phase1 g amountPrec unitPrec rest (rem - redeemAmt)
        (phase1Detail g amountPrec unitPrec zp redeemAmt isFull :: r.1, r.2) := by
  rw [phase1]

/-- A holding with no minimums and no fee. -/
def holdingOf (t : String) (units price value : ℚ) : Holding :=
  { ticker := t, units := units, marketPrice := price, value := value,
    minInitialInvestmentAmt := 0, minInitialInvestmentUnits := 0,
    minTopupAmt := 0, minTopupUnits := 0, minRedemptionAmt := 0,
    minRedemptionUnits := 0, minHoldingAmt := 0, minHoldingUnits := 0,
    transactionFee := 0 }

/-- Two modeled products at weight one half, only the first held, redemption
order 200 against a holdings total of 100. -/
def goalC10 : Goal :=
  { goalId := "gA", goalDetails := [holdingOf "A" 100 1 100], orderAmount := 200,
    orderType := "REDEMPTION",
    modelPortfolioDetails := [plainProduct "A" (1/2), plainProduct "B" (1/2)] }

/-- Claim C10 (counterexample): a modeled product with no positive holding is
not always emitted with amount and units zero: with only product A held (value
100) and a redemption order of 200, the Phase-2 budget stays positive and the
unheld product B receives a SELL record for 50 with 50 units. -/
theorem redemption_phase2_records_counterexample :
    redLookupHolding goalC10.goalDetails "B" = none ∧
    processRedemptionDetails goalC10 2 2 =
      [{ ticker := "A", direction := "SELL", value := 150, units := 150,
          error := none },
        { ticker := "B", direction := "SELL", value := 50, units := 50,
          error := none }] := by
  have hwA : weightOf goalC10.modelPortfolioDetails "A" = 1 / 2 := by
    rw [weightOf, modelLookup]
    rw [show goalC10.modelPortfolioDetails
      = [plainProduct "A" (1/2), plainProduct "B" (1/2)] from rfl]
    rw [List.filter_cons_of_pos, List.filter_cons_of_neg]
    · rfl
    · simp [plainProduct]
    · simp [plainProduct]
  have hz0 : zwProducts goalC10 = [] := by
    rw [zwProducts]
    rw [show goalC10.goalDetails = [holdingOf "A" 100 1 100] from rfl]
    rw [List.filter_cons_of_neg]
    · rfl
    · simp [holdingOf, hwA]
  have hzw : zwSorted goalC10 = [] := by
    rw [zwSorted, hz0]
    rfl
  have hlA : redLookupHolding goalC10.goalDetails "A"
      = some (holdingOf "A" 100 1 100) := by
    rw [redLookupHolding]
    rw [show goalC10.goalDetails = [holdingOf "A" 100 1 100] from rfl]
    rw [List.filter_cons_of_pos]
    · rfl
    · simp [holdingOf]
  have hlB : redLookupHolding goalC10.goalDetails "B" = none := by
    rw [redLookupHolding]
    rw [show goalC10.goalDetails = [holdingOf "A" 100 1 100] from rfl]
    rw [List.filter_cons_of_neg]
    · rfl
    · simp [holdingOf]
  have hvT : redVTotal goalC10.goalDetails = 100 := by
    rw [redVTotal]
    rw [show goalC10.goalDetails = [holdingOf "A" 100 1 100] from rfl]
    rw [List.filter_cons_of_pos]
    · norm_num [holdingOf]
    · simp [holdingOf]
  have hallocs : redAllocs goalC10 =
      [redAlloc.mk (plainProduct "A" (1/2)) (some (holdingOf "A" 100 1 100)) 150,
        redAlloc.mk (plainProduct "B" (1/2)) none 50] := by
    rw [redAllocs]
    rw [show goalC10.modelPortfolioDetails
      = [plainProduct "A" (1/2), plainProduct "B" (1/2)] from rfl]
    rw [List.filter_cons_of_pos, List.filter_cons_of_pos]
    · rw [List.filter_nil, List.map_cons, List.map_cons, List.map_nil]
      rw [show goalC10.orderAmount = 200 from rfl, hvT]
      norm_num [redCurrentVal, hlA, hlB, holdingOf, plainProduct]
    · simp [plainProduct]
    · simp [plainProduct]
  refine ⟨hlB, ?_⟩
  rw [processRedemptionDetails]
  rw [hzw, hallocs, phase1_nil]
  norm_num [phase2Detail, checkRedemptionMinimums, truncQ, goalC10,
    plainProduct, holdingOf]

/-- Claim C10 (amended): the redemption output is the Phase-1 details followed
by exactly one SELL record per nonzero-weight model entry, in model input
order; when the Phase-1 leftover budget is zero, each of those Phase-2 records
carries amount 0, units 0 and no violation flag.  (When the leftover budget is
positive, an unheld product's record can carry a positive amount, as the
counterexample shows.) -/
theorem redemption_phase2_records (g : Goal) (amountPrec unitPrec : ℕ) :
    ∃ tail,
      processRedemptionDetails g amountPrec unitPrec
        = (phase1 g amountPrec unitPrec (zwSorted g) g.orderAmount).1 ++ tail ∧
      tail.map (fun d => d.ticker)
        = (g.modelPortfolioDetails.filter fun mp => decide (mp.weight ≠ 0)).map
            (fun mp => mp.ticker) ∧
      (∀ d ∈ tail, d.direction = "SELL") ∧
      ((phase1 g amountPrec unitPrec (zwSorted g) g.orderAmount).2 = 0 →
        ∀ d ∈ tail, d.value = 0 ∧ d.units = 0 ∧ d.error = none) := by
  refine ⟨(redAllocs g).map (phase2Detail amountPrec unitPrec
      ((redAllocs g).map (fun a => a.ideal)).sum
      (phase1 g amountPrec unitPrec (zwSorted g) g.orderAmount).2),
    ?_, ?_, ?_, ?_⟩
  · rfl
  · rw [List.map_map, redAllocs, List.map_map]
    rfl
  · intro d hd
    obtain ⟨a, _, rfl⟩ := List.mem_map.mp hd
    rfl
  · intro hrem d hd
    rw [hrem] at hd
    obtain ⟨a, _, rfl⟩ := List.mem_map.mp hd
    refine ⟨?_, ?_, ?_⟩ <;> simp [phase2Detail]

/-!
## Claim C5: Phase-2 ideals versus the Phase-1 leftover budget
-/

lemma sum_map_add {α : Type} (f g : α → ℚ) :
    ∀ l : List α, (l.map fun a => f a + g a).sum = (l.map f).sum + (l.map g).sum := by
  intro l
  induction l with
  | nil => simp
  | cons a t ih => simp only [List.map_cons, List.sum_cons, ih]; ring

/-- When every candidate value is positive, representable at amountPrec, and
the values fit in the budget, Phase 1 redeems every candidate in full and the
leftover budget is the original budget minus the candidates' total value. -/
lemma phase1_consume (g : Goal) (amountPrec unitPrec : ℕ) :
    ∀ (zs : List Holding) (rem : ℚ),
      (∀ z ∈ zs, 0 < z.value ∧ MulOfUnit amountPrec z.value) →
      (zs.map (fun h => h.value)).sum ≤ rem →
      (phase1 g amountPrec unitPrec zs rem).2
        = rem - (zs.map (fun h => h.value)).sum := by
  intro zs
  induction zs with
  | nil =>
      intro rem _ _
      rw [phase1_nil]
      simp
  | cons z rest ih =>
      intro rem hpos hle
      have hz := hpos z (by simp)
      have hrestpos : ∀ x ∈ rest.map (fun h => h.value), 0 ≤ x := by
        intro x hx
        obtain ⟨q, hq, rfl⟩ := List.mem_map.mp hx
        exact le_of_lt (hpos q (by simp [hq])).1
      have hsum0 : 0 ≤ (rest.map (fun h => h.value)).sum :=
        List.sum_nonneg hrestpos
      have hle2 : z.value + (rest.map (fun h => h.value)).sum ≤ rem := by
        simpa using hle
      have hrem0 : 0 < rem := by linarith [hz.1]
      have hfull : z.value ≤ rem := by linarith
      have hdec : decide (z.value ≤ rem) = true := decide_eq_true hfull
      rw [phase1_cons, if_neg (ne_of_gt hrem0)]
      simp only [hdec, if_true, truncQ_eq_self hz.2]
      rw [ih (rem - z.value) (fun q hq => hpos q (by simp [hq])) (by linarith)]
      simp only [List.map_cons, List.sum_cons]
      ring

/-- Summing a single-ticker indicator over the nonzero-weight model entries:
with pairwise-distinct model tickers the sum is the indicator of the looked-up
weight being nonzero. -/
lemma weightOf_filter_sum (v : ℚ) :
    ∀ ms : List ModelItem, ms.Pairwise (fun a b => a.ticker ≠ b.ticker) →
      ∀ t, ((ms.filter fun mp => decide (mp.weight ≠ 0)).map
          (fun mp => if mp.ticker = t then v else 0)).sum
        = if weightOf ms t = 0 then 0 else v := by
  intro ms
  induction ms with
  | nil =>
      intro _ t
      simp [weightOf, modelLookup]
  | cons mp rest ih =>
      intro hpw t
      obtain ⟨hhead, hrestpw⟩ := List.pairwise_cons.mp hpw
      by_cases ht : mp.ticker = t
      · have hnot : ∀ q ∈ rest, ¬ (q.ticker == t) = true := by
          intro q hq
          simp only [beq_iff_eq]
          intro hqt
          exact hhead q hq (ht.trans hqt.symm)
        have hflt : rest.filter (fun q => q.ticker == t) = [] :=
          List.filter_eq_nil_iff.mpr hnot
        have hw : weightOf (mp :: rest) t = mp.weight := by
          rw [weightOf, modelLookup, List.filter_cons_of_pos (by simp [ht]), hflt]
          rfl
        have hzero : ((rest.filter fun q => decide (q.weight ≠ 0)).map
            (fun q => if q.ticker = t then v else 0)).sum = 0 := by
          apply List.sum_eq_zero
          intro x hx
          obtain ⟨q, hq, rfl⟩ := List.mem_map.mp hx
          have hqmem := (List.mem_filter.mp hq).1
          rw [if_neg]
          intro hqt
          exact hhead q hqmem (ht.trans hqt.symm)
        by_cases hw0 : mp.weight = 0
        · rw [List.filter_cons_of_neg (by simp [hw0]), hw, if_pos hw0, hzero]
        · rw [List.filter_cons_of_pos (by simp [hw0]), List.map_cons,
            List.sum_cons, if_pos ht, hw, if_neg hw0, hzero]
          ring
      · have hw : weightOf (mp :: rest) t = weightOf rest t := by
          rw [weightOf, modelLookup, List.filter_cons_of_neg (by simp [ht])]
          rfl
        rw [hw]
        by_cases hw0 : mp.weight = 0
        · rw [List.filter_cons_of_neg (by simp [hw0])]
          exact ih hrestpw t
        · rw [List.filter_cons_of_pos (by simp [hw0]), List.map_cons,
            List.sum_cons, if_neg ht, ih hrestpw t]
          ring

/-- Peeling one holding off the Phase-2 current-value lookup, when the rest of
the list does not repeat its ticker. -/
lemma redCurrentVal_cons (h : Holding) (rest : List Holding) (t : String)
    (hnd : ∀ q ∈ rest, q.ticker ≠ h.ticker) :
    redCurrentVal (h :: rest) t
      = redCurrentVal rest t
        + (if 0 < h.value ∧ h.ticker = t then h.value else 0) := by
  by_cases hc : 0 < h.value ∧ h.ticker = t
  · have hflt : rest.filter
        (fun q => decide (0 < q.value) && (q.ticker == t)) = [] := by
      apply List.filter_eq_nil_iff.mpr
      intro q hq
      simp only [Bool.and_eq_true, beq_iff_eq, decide_eq_true_eq, not_and]
      intro _ hqt
      exact hnd q hq (hqt.trans hc.2.symm)
    rw [redCurrentVal, redCurrentVal, redLookupHolding, redLookupHolding,
      List.filter_cons_of_pos (by simp [hc.1, hc.2]), hflt]
    simp [if_pos hc]
  · rw [redCurrentVal, redCurrentVal, redLookupHolding, redLookupHolding,
      List.filter_cons_of_neg
        (by simpa [Bool.and_eq_true, decide_eq_true_eq] using hc)]
    simp [if_neg hc]

/-- With pairwise-distinct tickers on both sides, the current values summed
over the nonzero-weight model entries equal the total value of the positive
holdings whose looked-up model weight is nonzero. -/
lemma red_current_sum (ms : List ModelItem)
    (hmd : ms.Pairwise (fun a b => a.ticker ≠ b.ticker)) :
    ∀ hs : List Holding, hs.Pairwise (fun a b => a.ticker ≠ b.ticker) →
      ((ms.filter fun mp => decide (mp.weight ≠ 0)).map
          (fun mp => redCurrentVal hs mp.ticker)).sum
        = ((hs.filter fun h => decide (0 < h.value)
              && !decide (weightOf ms h.ticker = 0)).map
            (fun h => h.value)).sum := by
  intro hs
  induction hs with
  | nil =>
      intro _
      have h0 : ∀ mp : ModelItem, redCurrentVal ([] : List Holding) mp.ticker = 0 :=
        fun mp => rfl
      simp [h0]
  | cons h rest ih =>
      intro hpw
      obtain ⟨hhead, hrestpw⟩ := List.pairwise_cons.mp hpw
      have hmapeq : ((ms.filter fun mp => decide (mp.weight ≠ 0)).map
            (fun mp => redCurrentVal (h :: rest) mp.ticker))
          = ((ms.filter fun mp => decide (mp.weight ≠ 0)).map
              (fun mp => redCurrentVal rest mp.ticker
                + (if 0 < h.value ∧ h.ticker = mp.ticker then h.value else 0))) :=
        List.map_congr_left fun mp _ =>
          redCurrentVal_cons h rest mp.ticker (fun q hq => (hhead q hq).symm)
      rw [hmapeq, sum_map_add, ih hrestpw]
      by_cases hv : 0 < h.value
      · have hfeq : ((ms.filter fun mp => decide (mp.weight ≠ 0)).map
            (fun mp => if 0 < h.value ∧ h.ticker = mp.ticker then h.value else 0))
            = ((ms.filter fun mp => decide (mp.weight ≠ 0)).map
              (fun mp => if mp.ticker = h.ticker then h.value else 0)) := by
          apply List.map_congr_left
          intro mp _
          by_cases hmt : mp.ticker = h.ticker
          · rw [if_pos ⟨hv, hmt.symm⟩, if_pos hmt]
          · rw [if_neg, if_neg hmt]
            intro hand
            exact hmt hand.2.symm
        rw [hfeq, weightOf_filter_sum h.value ms hmd h.ticker]
        by_cases hw0 : weightOf ms h.ticker = 0
        · rw [if_pos hw0, List.filter_cons_of_neg (by simp [hw0])]
          ring
        · rw [if_neg hw0, List.filter_cons_of_pos (by simp [hv, hw0]),
            List.map_cons, List.sum_cons]
          ring
      · have hzero : ((ms.filter fun mp => decide (mp.weight ≠ 0)).map
            (fun mp => if 0 < h.value ∧ h.ticker = mp.ticker then h.value else 0)).sum
            = 0 := by
          apply List.sum_eq_zero
          intro x hx
          obtain ⟨mp, _, rfl⟩ := List.mem_map.mp hx
          rw [if_neg (fun hand => hv hand.1)]
        rw [hzero, List.filter_cons_of_neg (by simp [hv])]
        ring

/-- When no Phase-2 target is clamped, the sum of the ideals is the held total
of the nonzero-weight entries minus their weight total times the
post-redemption target. -/
lemma redAllocs_ideal_sum (g : Goal)
    (hnoclamp : ∀ mp ∈ g.modelPortfolioDetails, mp.weight ≠ 0 →
      mp.weight * (redVTotal g.goalDetails - g.orderAmount)
        ≤ redCurrentVal g.goalDetails mp.ticker) :
    ((redAllocs g).map (fun a => a.ideal)).sum
      = ((g.modelPortfolioDetails.filter fun mp => decide (mp.weight ≠ 0)).map
          (fun mp => redCurrentVal g.goalDetails mp.ticker)).sum
        - ((g.modelPortfolioDetails.filter fun mp => decide (mp.weight ≠ 0)).map
            (fun mp => mp.weight)).sum
          * (redVTotal g.goalDetails - g.orderAmount) := by
  have hmaps : ((redAllocs g).map (fun a => a.ideal))
      = ((g.modelPortfolioDetails.filter fun mp => decide (mp.weight ≠ 0)).map
          (fun mp => redCurrentVal g.goalDetails mp.ticker
            - mp.weight * (redVTotal g.goalDetails - g.orderAmount))) := by
    rw [redAllocs, List.map_map]
    apply List.map_congr_left
    intro mp hmp
    obtain ⟨hmem, hwne⟩ := List.mem_filter.mp hmp
    have hwne2 : mp.weight ≠ 0 := by simpa using hwne
    show (if redCurrentVal g.goalDetails mp.ticker
          - mp.weight * (redVTotal g.goalDetails - g.orderAmount) < 0 then 0
        else redCurrentVal g.goalDetails mp.ticker
          - mp.weight * (redVTotal g.goalDetails - g.orderAmount))
      = redCurrentVal g.goalDetails mp.ticker
          - mp.weight * (redVTotal g.goalDetails - g.orderAmount)
    rw [if_neg (not_lt.mpr (by linarith [hnoclamp mp hmem hwne2]))]
  rw [hmaps, ← sum_map_mul_right (redVTotal g.goalDetails - g.orderAmount)
    (fun mp : ModelItem => mp.weight)]
  exact sum_map_sub _ _ _

lemma filter_filter_and {α : Type} (p q : α → Bool) :
    ∀ l : List α, (l.filter p).filter q = l.filter fun a => p a && q a := by
  intro l
  induction l with
  | nil => rfl
  | cons a t ih =>
      by_cases hp : p a = true
      · by_cases hq : q a = true
        · rw [List.filter_cons_of_pos hp, List.filter_cons_of_pos hq,
            List.filter_cons_of_pos (by simp [hp, hq]), ih]
        · have hq2 : q a = false := by simpa using hq
          rw [List.filter_cons_of_pos hp, List.filter_cons_of_neg (by simp [hq2]),
            List.filter_cons_of_neg (by simp [hp, hq2]), ih]
      · have hp2 : p a = false := by simpa using hp
        rw [List.filter_cons_of_neg (by simp [hp2]),
          List.filter_cons_of_neg (by simp [hp2]), ih]

/-- Claim C5 (amended): when tickers are pairwise distinct on both sides, the
nonzero model weights sum to one, no Phase-2 target is clamped at zero
(each nonzero-weight product holds at least its post-redemption target), and
the Phase-1 candidates are representable at amountPrec and fit in the order
amount, the Phase-2 ideals sum exactly to the Phase-1 leftover budget. -/
theorem redemption_phase2_ideal_sum (g : Goal) (amountPrec unitPrec : ℕ)
    (hhd : g.goalDetails.Pairwise (fun a b => a.ticker ≠ b.ticker))
    (hmd : g.modelPortfolioDetails.Pairwise (fun a b => a.ticker ≠ b.ticker))
    (hw1 : ((g.modelPortfolioDetails.filter fun mp => decide (mp.weight ≠ 0)).map
        (fun mp => mp.weight)).sum = 1)
    (hnoclamp : ∀ mp ∈ g.modelPortfolioDetails, mp.weight ≠ 0 →
      mp.weight * (redVTotal g.goalDetails - g.orderAmount)
        ≤ redCurrentVal g.goalDetails mp.ticker)
    (hmul : ∀ h ∈ zwProducts g, MulOfUnit amountPrec h.value)
    (hbudget : ((zwProducts g).map (fun h => h.value)).sum ≤ g.orderAmount) :
    ((redAllocs g).map (fun a => a.ideal)).sum
      = (phase1 g amountPrec unitPrec (zwSorted g) g.orderAmount).2 := by
  have hperm : List.Perm (zwSorted g) (zwProducts g) := by
    rw [zwSorted]
    exact List.perm_insertionSort (fun a b => a.value ≤ b.value) (zwProducts g)
  have hpos : ∀ z ∈ zwProducts g, 0 < z.value := by
    intro z hz
    have := (List.mem_filter.mp hz).2
    simp only [Bool.and_eq_true, decide_eq_true_eq] at this
    exact this.1
  have hposS : ∀ z ∈ zwSorted g, 0 < z.value ∧ MulOfUnit amountPrec z.value := by
    intro z hz
    have hz2 := hperm.mem_iff.mp hz
    exact ⟨hpos z hz2, hmul z hz2⟩
  have hsumS : ((zwSorted g).map (fun h => h.value)).sum
      = ((zwProducts g).map (fun h => h.value)).sum :=
    (hperm.map (fun h => h.value)).sum_eq
  have hbud2 : ((zwSorted g).map (fun h => h.value)).sum ≤ g.orderAmount := by
    rw [hsumS]
    exact hbudget
  have hsplit := sum_map_filter_split (fun h : Holding => h.value)
    (fun h => decide (weightOf g.modelPortfolioDetails h.ticker = 0))
    (g.goalDetails.filter fun h => decide (0 < h.value))
  rw [filter_filter_and, filter_filter_and] at hsplit
  have hzwdef : zwProducts g
      = g.goalDetails.filter fun h => decide (0 < h.value)
          && decide (weightOf g.modelPortfolioDetails h.ticker = 0) := rfl
  rw [← hzwdef] at hsplit
  have hvt : redVTotal g.goalDetails
      = ((g.goalDetails.filter fun h => decide (0 < h.value)).map
          (fun h => h.value)).sum := rfl
  rw [redAllocs_ideal_sum g hnoclamp,
    red_current_sum g.modelPortfolioDetails hmd g.goalDetails hhd, hw1, one_mul,
    phase1_consume g amountPrec unitPrec (zwSorted g) g.orderAmount hposS hbud2,
    hsumS]
  rw [hvt]
  linarith [hsplit]

/-- Same portfolio as goalC10 but with a redemption order of 10: product B's
target is clamped at zero, so the ideals no longer track the budget. -/
def goalC5 : Goal :=
  { goalId := "g5", goalDetails := [holdingOf "A" 100 1 100], orderAmount := 10,
    orderType := "REDEMPTION",
    modelPortfolioDetails := [plainProduct "A" (1/2), plainProduct "B" (1/2)] }

/-- Claim C5 (counterexample): with weights one half each summing to one, only
product A held at value 100 and a redemption order of 10, product B's
overweight target is clamped at zero while product A's is 55, so the Phase-2
ideals sum to 55 and not to the Phase-1 leftover budget of 10. -/
theorem redemption_phase2_ideal_sum_counterexample :
    ((goalC5.modelPortfolioDetails.filter fun mp => decide (mp.weight ≠ 0)).map
        (fun mp => mp.weight)).sum = 1 ∧
    ((redAllocs goalC5).map (fun a => a.ideal)).sum = 55 ∧
    (phase1 goalC5 2 2 (zwSorted goalC5) goalC5.orderAmount).2 = 10 ∧
    (55 : ℚ) ≠ 10 := by
  have hwA : weightOf goalC5.modelPortfolioDetails "A" = 1 / 2 := by
    rw [weightOf, modelLookup]
    rw [show goalC5.modelPortfolioDetails
      = [plainProduct "A" (1/2), plainProduct "B" (1/2)] from rfl]
    rw [List.filter_cons_of_pos, List.filter_cons_of_neg]
    · rfl
    · simp [plainProduct]
    · simp [plainProduct]
  have hz0 : zwProducts goalC5 = [] := by
    rw [zwProducts]
    rw [show goalC5.goalDetails = [holdingOf "A" 100 1 100] from rfl]
    rw [List.filter_cons_of_neg]
    · rfl
    · simp [holdingOf, hwA]
  have hzw : zwSorted goalC5 = [] := by
    rw [zwSorted, hz0]
    rfl
  have hlA : redLookupHolding goalC5.goalDetails "A"
      = some (holdingOf "A" 100 1 100) := by
    rw [redLookupHolding]
    rw [show goalC5.goalDetails = [holdingOf "A" 100 1 100] from rfl]
    rw [List.filter_cons_of_pos]
    · rfl
    · simp [holdingOf]
  have hlB : redLookupHolding goalC5.goalDetails "B" = none := by
    rw [redLookupHolding]
    rw [show goalC5.goalDetails = [holdingOf "A" 100 1 100] from rfl]
    rw [List.filter_cons_of_neg]
    · rfl
    · simp [holdingOf]
  have hvT : redVTotal goalC5.goalDetails = 100 := by
    rw [redVTotal]
    rw [show goalC5.goalDetails = [holdingOf "A" 100 1 100] from rfl]
    rw [List.filter_cons_of_pos]
    · norm_num [holdingOf]
    · simp [holdingOf]
  have hallocs : redAllocs goalC5 =
      [redAlloc.mk (plainProduct "A" (1/2)) (some (holdingOf "A" 100 1 100)) 55,
        redAlloc.mk (plainProduct "B" (1/2)) none 0] := by
    rw [redAllocs]
    rw [show goalC5.modelPortfolioDetails
      = [plainProduct "A" (1/2), plainProduct "B" (1/2)] from rfl]
    rw [List.filter_cons_of_pos, List.filter_cons_of_pos]
    · rw [List.filter_nil, List.map_cons, List.map_cons, List.map_nil]
      rw [show goalC5.orderAmount = 10 from rfl, hvT]
      norm_num [redCurrentVal, hlA, hlB, holdingOf, plainProduct]
    · simp [plainProduct]
    · simp [plainProduct]
  refine ⟨?_, ?_, ?_, by norm_num⟩
  · rw [show goalC5.modelPortfolioDetails
      = [plainProduct "A" (1/2), plainProduct "B" (1/2)] from rfl]
    rw [List.filter_cons_of_pos, List.filter_cons_of_pos]
    · norm_num [plainProduct]
    · simp [plainProduct]
    · simp [plainProduct]
  · rw [hallocs]
    norm_num
  · rw [hzw, phase1_nil]
    rfl

/-- Weighted products A and B each hold at least their post-redemption target,
the unmodeled product C is fully liquidated by Phase 1 within the order
amount. -/
def goalScenB : Goal :=
  { goalId := "gB",
    goalDetails := [holdingOf "A" 50 1 50, holdingOf "B" 40 1 40,
      holdingOf "C" 30 1 30],
    orderAmount := 40, orderType := "REDEMPTION",
    modelPortfolioDetails := [plainProduct "A" (1/2), plainProduct "B" (1/2)] }

theorem redemption_phase2_ideal_sum_witness :
    (goalScenB.goalDetails.Pairwise (fun a b => a.ticker ≠ b.ticker) ∧
      goalScenB.modelPortfolioDetails.Pairwise (fun a b => a.ticker ≠ b.ticker) ∧
      ((goalScenB.modelPortfolioDetails.filter
          fun mp => decide (mp.weight ≠ 0)).map (fun mp => mp.weight)).sum = 1 ∧
      (∀ mp ∈ goalScenB.modelPortfolioDetails, mp.weight ≠ 0 →
        mp.weight * (redVTotal goalScenB.goalDetails - goalScenB.orderAmount)
          ≤ redCurrentVal goalScenB.goalDetails mp.ticker) ∧
      (∀ h ∈ zwProducts goalScenB, MulOfUnit 2 h.value) ∧
      ((zwProducts goalScenB).map (fun h => h.value)).sum
        ≤ goalScenB.orderAmount) ∧
    ((redAllocs goalScenB).map (fun a => a.ideal)).sum
      = (phase1 goalScenB 2 2 (zwSorted goalScenB) goalScenB.orderAmount).2 := by
  have hwOfA : weightOf goalScenB.modelPortfolioDetails "A" = 1 / 2 := by
    rw [weightOf, modelLookup]
    rw [show goalScenB.modelPortfolioDetails
      = [plainProduct "A" (1/2), plainProduct "B" (1/2)] from rfl]
    rw [List.filter_cons_of_pos (by simp [plainProduct]),
      List.filter_cons_of_neg (by simp [plainProduct])]
    rfl
  have hwOfB : weightOf goalScenB.modelPortfolioDetails "B" = 1 / 2 := by
    rw [weightOf, modelLookup]
    rw [show goalScenB.modelPortfolioDetails
      = [plainProduct "A" (1/2), plainProduct "B" (1/2)] from rfl]
    rw [List.filter_cons_of_neg (by simp [plainProduct]),
      List.filter_cons_of_pos (by simp [plainProduct])]
    rfl
  have hwOfC : weightOf goalScenB.modelPortfolioDetails "C" = 0 := by
    rw [weightOf, modelLookup]
    rw [show goalScenB.modelPortfolioDetails
      = [plainProduct "A" (1/2), plainProduct "B" (1/2)] from rfl]
    rw [List.filter_cons_of_neg (by simp [plainProduct]),
      List.filter_cons_of_neg (by simp [plainProduct])]
    rfl
  have hcvA : redCurrentVal goalScenB.goalDetails "A" = 50 := by
    rw [redCurrentVal, redLookupHolding]
    rw [show goalScenB.goalDetails = [holdingOf "A" 50 1 50,
      holdingOf "B" 40 1 40, holdingOf "C" 30 1 30] from rfl]
    rw [List.filter_cons_of_pos (by simp [holdingOf]),
      List.filter_cons_of_neg (by simp [holdingOf]),
      List.filter_cons_of_neg (by simp [holdingOf])]
    rfl
  have hcvB : redCurrentVal goalScenB.goalDetails "B" = 40 := by
    rw [redCurrentVal, redLookupHolding]
    rw [show goalScenB.goalDetails = [holdingOf "A" 50 1 50,
      holdingOf "B" 40 1 40, holdingOf "C" 30 1 30] from rfl]
    rw [List.filter_cons_of_neg (by simp [holdingOf]),
      List.filter_cons_of_pos (by simp [holdingOf]),
      List.filter_cons_of_neg (by simp [holdingOf])]
    rfl
  have hvT : redVTotal goalScenB.goalDetails = 120 := by
    rw [redVTotal]
    rw [show goalScenB.goalDetails = [holdingOf "A" 50 1 50,
      holdingOf "B" 40 1 40, holdingOf "C" 30 1 30] from rfl]
    rw [List.filter_cons_of_pos (by simp [holdingOf]),
      List.filter_cons_of_pos (by simp [holdingOf]),
      List.filter_cons_of_pos (by simp [holdingOf])]
    norm_num [holdingOf]
  have hz0 : zwProducts goalScenB = [holdingOf "C" 30 1 30] := by
    rw [zwProducts]
    rw [show goalScenB.goalDetails = [holdingOf "A" 50 1 50,
      holdingOf "B" 40 1 40, holdingOf "C" 30 1 30] from rfl]
    rw [List.filter_cons_of_neg (by simp [holdingOf, hwOfA]),
      List.filter_cons_of_neg (by simp [holdingOf, hwOfB]),
      List.filter_cons_of_pos (by simp [holdingOf, hwOfC])]
    rfl
  have h1 : goalScenB.goalDetails.Pairwise (fun a b => a.ticker ≠ b.ticker) := by
    rw [show goalScenB.goalDetails = [holdingOf "A" 50 1 50,
      holdingOf "B" 40 1 40, holdingOf "C" 30 1 30] from rfl]
    simp [List.pairwise_cons, holdingOf]
  have h2 : goalScenB.modelPortfolioDetails.Pairwise
      (fun a b => a.ticker ≠ b.ticker) := by
    rw [show goalScenB.modelPortfolioDetails
      = [plainProduct "A" (1/2), plainProduct "B" (1/2)] from rfl]
    simp [List.pairwise_cons, plainProduct]
  have h3 : ((goalScenB.modelPortfolioDetails.filter
      fun mp => decide (mp.weight ≠ 0)).map (fun mp => mp.weight)).sum = 1 := by
    rw [show goalScenB.modelPortfolioDetails
      = [plainProduct "A" (1/2), plainProduct "B" (1/2)] from rfl]
    rw [List.filter_cons_of_pos (by simp [plainProduct]),
      List.filter_cons_of_pos (by simp [plainProduct])]
    norm_num [plainProduct]
  have h4 : ∀ mp ∈ goalScenB.modelPortfolioDetails, mp.weight ≠ 0 →
      mp.weight * (redVTotal goalScenB.goalDetails - goalScenB.orderAmount)
        ≤ redCurrentVal goalScenB.goalDetails mp.ticker := by
    intro mp hmp
    rw [show goalScenB.modelPortfolioDetails
      = [plainProduct "A" (1/2), plainProduct "B" (1/2)] from rfl] at hmp
    rw [hvT, show goalScenB.orderAmount = (40 : ℚ) from rfl]
    fin_cases hmp
    · intro _
      rw [show (plainProduct "A" (1/2)).ticker = "A" from rfl, hcvA]
      norm_num [plainProduct]
    · intro _
      rw [show (plainProduct "B" (1/2)).ticker = "B" from rfl, hcvB]
      norm_num [plainProduct]
  have h5 : ∀ h ∈ zwProducts goalScenB, MulOfUnit 2 h.value := by
    rw [hz0]
    intro h hh
    fin_cases hh
    norm_num [MulOfUnit, holdingOf]
  have h6 : ((zwProducts goalScenB).map (fun h => h.value)).sum
      ≤ goalScenB.orderAmount := by
    rw [hz0, show goalScenB.orderAmount = (40 : ℚ) from rfl]
    norm_num [holdingOf]
  exact ⟨⟨h1, h2, h3, h4, h5, h6⟩,
    redemption_phase2_ideal_sum goalScenB 2 2 h1 h2 h3 h4 h5 h6⟩

/-!
## Claim C6: non-negativity of every emitted amount and unit count
-/

lemma phase1Detail_nonneg (g : Goal) (amountPrec unitPrec : ℕ) (z : Holding)
    (redeemAmt : ℚ) ( isFull : Bool) (h : 0 ≤ redeemAmt) :
    0 ≤ (phase1Detail g amountPrec unitPrec z redeemAmt isFull).value ∧
    0 ≤ (phase1Detail g amountPrec unitPrec z redeemAmt isFull).units := by
  constructor
  · exact h
  · show 0 ≤ (if 0 < z.marketPrice
      then truncQ unitPrec (redeemAmt / z.marketPrice) else 0)
    split
    · next hp => exact truncQ_nonneg (div_nonneg h hp.le)
    · exact le_rfl

lemma phase1_cons_pos (g : Goal) (amountPrec unitPrec : ℕ) (z : Holding)
    (rest : List Holding) (rem : ℚ) (h0 : rem ≠ 0) :
    phase1 g amountPrec unitPrec (z :: rest) rem
      = (phase1Detail g amountPrec unitPrec z
            (truncQ amountPrec (if decide (z.value ≤ rem) = true then z.value else rem))
            (decide (z.value ≤ rem))
          :: (phase1 g amountPrec unitPrec rest
              (rem - truncQ amountPrec
                (if decide (z.value ≤ rem) = true then z.value else rem))).1,
        (phase1 g amountPrec unitPrec rest
            (rem - truncQ amountPrec
              (if decide (z.value ≤ rem) = true then z.value else rem))).2) := by
  rw [phase1_cons, if_neg h0]

/-- Every Phase-1 detail carries a nonnegative amount and unit count, and the
leftover budget stays nonnegative. -/
lemma phase1_nonneg (g : Goal) (amountPrec unitPrec : ℕ) :
    ∀ (zs : List Holding) (rem : ℚ),
      (∀ z ∈ zs, 0 ≤ z.value) → 0 ≤ rem →
      (∀ d ∈ (phase1 g amountPrec unitPrec zs rem).1,
        0 ≤ d.value ∧ 0 ≤ d.units) ∧
      0 ≤ (phase1 g amountPrec unitPrec zs rem).2 := by
  intro zs
  induction zs with
  | nil =>
      intro rem _ hrem
      rw [phase1_nil]
      exact ⟨fun d hd => absurd hd (List.not_mem_nil d), hrem⟩
  | cons z rest ih =>
      intro rem hzs hrem
      by_cases h0 : rem = 0
      · rw [phase1_cons, if_pos h0]
        exact ⟨fun d hd => absurd hd (List.not_mem_nil d), hrem⟩
      · rw [phase1_cons_pos g amountPrec unitPrec z rest rem h0]
        have hzv := hzs z (by simp)
        have hvnn : 0 ≤ (if decide (z.value ≤ rem) = true then z.value else rem) := by
          split
          · exact hzv
          · exact hrem
        have hred : 0 ≤ truncQ amountPrec
            (if decide (z.value ≤ rem) = true then z.value else rem) :=
          truncQ_nonneg hvnn
        have hle : truncQ amountPrec
            (if decide (z.value ≤ rem) = true then z.value else rem) ≤ rem := by
          by_cases hfull : z.value ≤ rem
          · rw [if_pos (decide_eq_true hfull)]
            exact le_trans (truncQ_le hzv) hfull
          · rw [if_neg (by simpa using hfull)]
            exact truncQ_le hrem
        have hrest := ih (rem - truncQ amountPrec
            (if decide (z.value ≤ rem) = true then z.value else rem))
          (fun q hq => hzs q (by simp [hq])) (by linarith)
        refine ⟨?_, hrest.2⟩
        intro d hd
        rcases List.mem_cons.mp hd with rfl | hd2
        · exact phase1Detail_nonneg g amountPrec unitPrec z _ _ hred
        · exact hrest.1 d hd2

lemma phase2Detail_nonneg (amountPrec unitPrec : ℕ) (totalIdeal remaining : ℚ)
    (a : redAlloc) (hi : 0 ≤ a.ideal) (ht : 0 ≤ totalIdeal) :
    0 ≤ (phase2Detail amountPrec unitPrec totalIdeal remaining a).value ∧
    0 ≤ (phase2Detail amountPrec unitPrec totalIdeal remaining a).units := by
  have hred : 0 ≤ (if ¬ totalIdeal = 0 ∧ 0 < remaining
      then truncQ amountPrec (a.ideal / totalIdeal * remaining) else 0) := by
    split
    · next hc => exact truncQ_nonneg (mul_nonneg (div_nonneg hi ht) hc.2.le)
    · exact le_rfl
  constructor
  · exact hred
  · show 0 ≤ (if 0 < a.mp.marketPrice ∧
        0 < (if ¬ totalIdeal = 0 ∧ 0 < remaining
          then truncQ amountPrec (a.ideal / totalIdeal * remaining) else 0)
      then truncQ unitPrec ((if ¬ totalIdeal = 0 ∧ 0 < remaining
          then truncQ amountPrec (a.ideal / totalIdeal * remaining) else 0)
            / a.mp.marketPrice)
      else 0)
    set r := (if ¬ totalIdeal = 0 ∧ 0 < remaining
      then truncQ amountPrec (a.ideal / totalIdeal * remaining) else 0) with hr
    split
    · next hc => exact truncQ_nonneg (div_nonneg hc.2.le hc.1.le)
    · exact le_rfl

lemma redAllocs_ideal_nonneg (g : Goal) : ∀ a ∈ redAllocs g, 0 ≤ a.ideal := by
  intro a ha
  rw [redAllocs] at ha
  obtain ⟨mp, _, rfl⟩ := List.mem_map.mp ha
  show 0 ≤ (if redCurrentVal g.goalDetails mp.ticker
      - mp.weight * (redVTotal g.goalDetails - g.orderAmount) < 0 then 0
    else redCurrentVal g.goalDetails mp.ticker
      - mp.weight * (redVTotal g.goalDetails - g.orderAmount))
  split
  · exact le_rfl
  · next hx => exact le_of_not_lt hx

lemma redAllocs_total_nonneg (g : Goal) :
    0 ≤ ((redAllocs g).map (fun a => a.ideal)).sum := by
  apply List.sum_nonneg
  intro x hx
  obtain ⟨a, ha, rfl⟩ := List.mem_map.mp hx
  exact redAllocs_ideal_nonneg g a ha

lemma processRedemptionDetails_eq (g : Goal) (amountPrec unitPrec : ℕ) :
    processRedemptionDetails g amountPrec unitPrec
      = (phase1 g amountPrec unitPrec (zwSorted g) g.orderAmount).1
        ++ (redAllocs g).map (phase2Detail amountPrec unitPrec
            ((redAllocs g).map (fun a => a.ideal)).sum
            (phase1 g amountPrec unitPrec (zwSorted g) g.orderAmount).2) := rfl

lemma zwSorted_value_nonneg (g : Goal) : ∀ z ∈ zwSorted g, 0 ≤ z.value := by
  intro z hz
  have hperm : List.Perm (zwSorted g) (zwProducts g) := by
    rw [zwSorted]
    exact List.perm_insertionSort (fun a b => a.value ≤ b.value) (zwProducts g)
  have hz2 := hperm.mem_iff.mp hz
  have := (List.mem_filter.mp hz2).2
  simp only [Bool.and_eq_true, decide_eq_true_eq] at this
  exact this.1.le

lemma processRedemptionDetails_nonneg (g : Goal) (amountPrec unitPrec : ℕ)
    (ho : 0 ≤ g.orderAmount) :
    ∀ d ∈ processRedemptionDetails g amountPrec unitPrec,
      0 ≤ d.value ∧ 0 ≤ d.units := by
  intro d hd
  rw [processRedemptionDetails_eq] at hd
  rcases List.mem_append.mp hd with h1 | h2
  · exact (phase1_nonneg g amountPrec unitPrec (zwSorted g) g.orderAmount
      (zwSorted_value_nonneg g) ho).1 d h1
  · obtain ⟨a, ha, rfl⟩ := List.mem_map.mp h2
    exact phase2Detail_nonneg amountPrec unitPrec _ _ a
      (redAllocs_ideal_nonneg g a ha) (redAllocs_total_nonneg g)

lemma grossBefore_eq (g : Goal) (amountPrec : ℕ) :
    grossBefore g amountPrec = (investAllocs g).map
      (fun a => truncQ amountPrec (feeAdjustedOf a
        / ((investAllocs g).map feeAdjustedOf).sum * g.orderAmount)) := rfl

lemma grossBefore_nonneg_mul (g : Goal) (amountPrec : ℕ)
    (hw : ∀ mp ∈ g.modelPortfolioDetails, 0 ≤ mp.weight)
    (hex : ∃ mp ∈ g.modelPortfolioDetails, mp.weight ≠ 0)
    (ho : 0 < g.orderAmount)
    (hfee : ∀ mp ∈ g.modelPortfolioDetails,
      0 ≤ mp.transactionFee ∧ mp.transactionFee < 1) :
    ∀ x ∈ grossBefore g amountPrec, 0 ≤ x ∧ MulOfUnit amountPrec x := by
  intro x hx
  rw [grossBefore_eq] at hx
  obtain ⟨a, ha, rfl⟩ := List.mem_map.mp hx
  obtain ⟨hT, hfa⟩ := totalFeeAdjusted_pos hw hex ho hfee
  exact ⟨truncQ_nonneg (mul_nonneg (div_nonneg (hfa a ha) hT.le) ho.le),
    mulOfUnit_truncQ _ _⟩

lemma processInvestmentDetails_eq (g : Goal) (amountPrec unitPrec : ℕ) :
    processInvestmentDetails g amountPrec unitPrec
      = ((investAllocs g).zip (repairViolations amountPrec unitPrec
            (investAllocs g) (grossBefore g amountPrec))).map
          (fun ag =>
            { ticker := ag.1.mp.ticker, direction := "BUY", value := ag.2,
              units := if 0 < ag.1.mp.marketPrice
                then truncQ unitPrec (ag.2 / ag.1.mp.marketPrice) else 0,
              error := investTradeError ag.1 ag.2 unitPrec }) := rfl

lemma processInvestmentDetails_nonneg (g : Goal) (amountPrec unitPrec : ℕ)
    (hw : ∀ mp ∈ g.modelPortfolioDetails, 0 ≤ mp.weight)
    (hex : ∃ mp ∈ g.modelPortfolioDetails, mp.weight ≠ 0)
    (ho : 0 < g.orderAmount)
    (hfee : ∀ mp ∈ g.modelPortfolioDetails,
      0 ≤ mp.transactionFee ∧ mp.transactionFee < 1) :
    ∀ d ∈ processInvestmentDetails g amountPrec unitPrec,
      0 ≤ d.value ∧ 0 ≤ d.units := by
  intro d hd
  rw [processInvestmentDetails_eq] at hd
  obtain ⟨ag, hag, rfl⟩ := List.mem_map.mp hd
  obtain ⟨a1, a2⟩ := ag
  have hmem2 : a2 ∈ repairViolations amountPrec unitPrec (investAllocs g)
      (grossBefore g amountPrec) := (List.of_mem_zip hag).2
  have hv : 0 ≤ a2 := (repairViolations_spec amountPrec unitPrec (investAllocs g)
    (grossBefore g amountPrec) (grossBefore_nonneg_mul g amountPrec hw hex ho hfee)).2.2.1
    a2 hmem2
  constructor
  · exact hv
  · show 0 ≤ (if 0 < a1.mp.marketPrice
      then truncQ unitPrec (a2 / a1.mp.marketPrice) else 0)
    split
    · next hp => exact truncQ_nonneg (div_nonneg hv hp.le)
    · exact le_rfl

/-- Claim C6: every transaction detail emitted by the investment allocator
(after repair) and by the redemption allocator carries a nonnegative amount
and a nonnegative unit count: for the investment side under the validated
input conditions (nonnegative weights with at least one nonzero, positive
order amount, fees in [0, 1)), and for the redemption side for any
nonnegative order amount. -/
theorem emitted_nonneg (gi gr : Goal) (amountPrec unitPrec : ℕ) (vb : ℚ)
    (hw : ∀ mp ∈ gi.modelPortfolioDetails, 0 ≤ mp.weight)
    (hex : ∃ mp ∈ gi.modelPortfolioDetails, mp.weight ≠ 0)
    (ho : 0 < gi.orderAmount)
    (hfee : ∀ mp ∈ gi.modelPortfolioDetails,
      0 ≤ mp.transactionFee ∧ mp.transactionFee < 1)
    (hor : 0 ≤ gr.orderAmount) :
    (∀ d ∈ (ProcessInvestment gi amountPrec unitPrec).transactionDetails,
      0 ≤ d.value ∧ 0 ≤ d.units) ∧
    (∀ d ∈ (ProcessRedemption gr amountPrec unitPrec vb).transactionDetails,
      0 ≤ d.value ∧ 0 ≤ d.units) :=
  ⟨processInvestmentDetails_nonneg gi amountPrec unitPrec hw hex ho hfee,
    processRedemptionDetails_nonneg gr amountPrec unitPrec hor⟩

theorem emitted_nonneg_witness :
    ((∀ mp ∈ goalScenA.modelPortfolioDetails, 0 ≤ mp.weight) ∧
      (∃ mp ∈ goalScenA.modelPortfolioDetails, mp.weight ≠ 0) ∧
      0 < goalScenA.orderAmount ∧
      (∀ mp ∈ goalScenA.modelPortfolioDetails,
        0 ≤ mp.transactionFee ∧ mp.transactionFee < 1) ∧
      0 ≤ goalScenB.orderAmount) ∧
    (∀ d ∈ (ProcessInvestment goalScenA 2 2).transactionDetails,
      0 ≤ d.value ∧ 0 ≤ d.units) ∧
    (∀ d ∈ (ProcessRedemption goalScenB 2 2 0).transactionDetails,
      0 ≤ d.value ∧ 0 ≤ d.units) := by
  have hw : ∀ mp ∈ goalScenA.modelPortfolioDetails, 0 ≤ mp.weight := by
    intro mp hmp
    fin_cases hmp <;> norm_num [plainProduct]
  have hex : ∃ mp ∈ goalScenA.modelPortfolioDetails, mp.weight ≠ 0 :=
    ⟨plainProduct "A" (3/5), by simp [goalScenA], by norm_num [plainProduct]⟩
  have ho : 0 < goalScenA.orderAmount := by norm_num [goalScenA]
  have hfee : ∀ mp ∈ goalScenA.modelPortfolioDetails,
      0 ≤ mp.transactionFee ∧ mp.transactionFee < 1 := by
    intro mp hmp
    fin_cases hmp <;> norm_num [plainProduct]
  have hor : 0 ≤ goalScenB.orderAmount := by norm_num [goalScenB]
  obtain ⟨hinv, hred⟩ := emitted_nonneg goalScenA goalScenB 2 2 0 hw hex ho hfee hor
  exact ⟨⟨hw, hex, ho, hfee, hor⟩, hinv, hred⟩
